import Mathlib

/-!
Verification of the go-gao Reed-Solomon codec (Gao decoding) against its
specification.  The Go sources are shallowly embedded: machine integers
(`uint64`) become `ℕ` with explicit `% p` where the code reduces, dense
polynomials become `List ℕ` of coefficients (index 0 = constant term),
Go maps become association lists (the code never observes iteration
order), and a Go `panic` becomes `Option.none` of an `Option`-valued
function.  Functions whose Go loop bound is data dependent take an
explicit fuel argument; the public wrappers pass a fuel that is provably
sufficient for every terminating run of the Go loop, so the embeddings
stay executable by the kernel.

Domain tags: the Go `Polynomial` carries an `isNTT` flag.  In every code
path modelled below the flag of each operand is statically known (the
decode pipeline runs entirely in coefficient form, the NTT engine
toggles the flag around the butterfly passes), so the embedding keeps
coefficient vectors untagged and mirrors the tag checks at the call
sites where they can fire.
-/

namespace GoGao

/-! ### Prime field operations (field/field.go)

`Reduce`, `Add`, `Sub`, `Mul`, `Pow`, `Inverse`, `Neg`, `Equals` mirror
the methods of `PrimeField`.  `Inverse` returns `none` where the Go code
panics (inverse of zero).  `fieldMul` is the helper `fieldMul(a, b, mod)`:
`bits.Mul64` followed by `bits.Div64` computes the exact 128-bit product
and remainder, which for every call site reachable in this file (operands
below `2^63`) is `a * b % mod`. -/

def Reduce (p a : ℕ) : ℕ := a % p

def Add (p a b : ℕ) : ℕ :=
  if a = 0 then b
  else if a + b ≥ p then a + b - p else a + b

def Sub (p a b : ℕ) : ℕ :=
  if a < b then p - (b - a) else a - b

def fieldMul (a b mod : ℕ) : ℕ := a * b % mod

def Mul (p a b : ℕ) : ℕ :=
  if a = 0 ∨ b = 0 then 0 else fieldMul a b p

def powLoop (p : ℕ) : ℕ → ℕ → ℕ → ℕ → ℕ
  | 0, _, _, x => x % p
  | fuel + 1, base, exp, x =>
    if exp = 0 then x % p
    else powLoop p fuel (fieldMul base base p) (exp / 2)
      (if exp % 2 = 1 then fieldMul x base p else x)

/-- Square-and-multiply `Pow` of field/field.go; the Go `for exp > 0`
loop halves `exp` each pass, so `exp` itself is enough fuel. -/
def Pow (p base exp : ℕ) : ℕ := powLoop p exp base exp 1

def Inverse (p e : ℕ) : Option ℕ :=
  if e = 0 then none else some (Pow p e (p - 2))

def Neg (p e : ℕ) : ℕ :=
  if e = 0 then 0 else p - e

def Equals (p a b : ℕ) : Bool := a % p == b % p

def IsPowerOfTwo (n : ℕ) : Bool := n != 0 && n &&& (n - 1) == 0

/-- `GetRootOfUnity`: `none` covers the three error returns
(`n ≤ 1`, not a power of two, `n` does not divide `p-1`). -/
def GetRootOfUnity (p g n : ℕ) : Option ℕ :=
  if n = 0 ∨ n = 1 then none
  else if ¬ IsPowerOfTwo n then none
  else if (p - 1) % n ≠ 0 then none
  else some (Pow p g ((p - 1) / n))

/-! ### Polynomial helpers (field/poly.go) -/

/-- Index of the highest coefficient that is non-zero as a raw integer
(`leadingCoeffPos`); `none` models the Go return value `math.MinInt`. -/
def leadingCoeffPos : List ℕ → Option ℕ
  | [] => none
  | a :: t =>
    match leadingCoeffPos t with
    | some i => some (i + 1)
    | none => if a ≠ 0 then some 0 else none

/-- `Degree`, an `int` in Go with `math.MinInt = -(2^63)` for the zero
polynomial. -/
def Degree (l : List ℕ) : ℤ :=
  match leadingCoeffPos l with
  | some i => (i : ℤ)
  | none => -(2 ^ 63)

def LeadCoeff (l : List ℕ) : ℕ :=
  match leadingCoeffPos l with
  | some i => l.getD i 0
  | none => 0

/-- `IsZero` of field/poly.go: after the two short-circuit cases it only
inspects the coefficients strictly below `leadingCoeffPos`. -/
def IsZero (l : List ℕ) : Bool :=
  if l.length = 0 then true
  else if l.length = 1 ∧ l.getD 0 0 = 0 then true
  else
    match leadingCoeffPos l with
    | none => true
    | some pos => (l.take pos).all (· == 0)

/-- `removeLeadingZeroes` (trailing zeros of the coefficient vector);
the zero polynomial collapses to `[0]`.  The modelled call sites are all
in coefficient form, where the Go early return for NTT does not fire. -/
def removeLeadingZeroes (l : List ℕ) : List ℕ :=
  match leadingCoeffPos l with
  | none => [0]
  | some i => l.take (i + 1)

/-! ### Dense polynomial ring (field/polyring.go) -/

/-- `trimTrailingZeros` drops trailing coefficients that are zero mod `p`
(the Go loop tests `Equals(inner[i], 0)`). -/
def trimTrailingZeros (p : ℕ) (l : List ℕ) : List ℕ :=
  (l.reverse.dropWhile (fun x => x % p == 0)).reverse

/-- `AddPoly` in coefficient form: both operands are `Reduce`d entry-wise,
padded with zeros to the longer length, added with `Add`, trimmed. -/
def AddPoly (p : ℕ) (a b : List ℕ) : List ℕ :=
  trimTrailingZeros p
    ((List.range (max a.length b.length)).map
      (fun i => Add p (Reduce p (a.getD i 0)) (Reduce p (b.getD i 0))))

def SubPoly (p : ℕ) (a b : List ℕ) : List ℕ :=
  trimTrailingZeros p
    ((List.range (max a.length b.length)).map
      (fun i => Sub p (Reduce p (a.getD i 0)) (Reduce p (b.getD i 0))))

/-- Schoolbook convolution cell: the Go inner loops accumulate
`out[i+j] = Add(out[i+j], Mul(a[i], b[j]))` in increasing `i`; skipping
`a[i] == 0` is the same as adding `Mul(0, b[j]) = 0`. -/
def convCell (p : ℕ) (a b : List ℕ) (k : ℕ) : ℕ :=
  (List.range (k + 1)).foldl
    (fun acc i => Add p acc (Mul p (a.getD i 0) (b.getD (k - i) 0))) 0

/-- `MulPoly`, coefficient-domain branch (the only branch reached from
the paths modelled here; the NTT pointwise branch is inlined by the fast
routines below).  When both operands are empty the Go code would compute
`make([]uint64, -1)`; no modelled call site passes two empty vectors. -/
def MulPoly (p : ℕ) (a b : List ℕ) : List ℕ :=
  if a.length = 0 ∧ b.length = 0 then []
  else
    trimTrailingZeros p
      ((List.range (a.length + b.length - 1)).map (convCell p a b))

def monomialMultPoly (p : ℕ) (ai deg : ℕ) (l : List ℕ) : List ℕ :=
  List.replicate deg 0 ++ l.map (fun x => Mul p ai x)

/-- Inner loop of `LongDiv`, iterating `i` from `qlen - 1` down to 0 and
returning the quotient coefficients `qInner[0..i]` plus the final
remainder. -/
def longDivLoop (p : ℕ) (b : List ℕ) (u : ℕ) (m : ℤ) : ℕ → List ℕ → List ℕ × List ℕ
  | 0, rem =>
    if Degree rem = m then
      let qi := Mul p (LeadCoeff rem) u
      ([qi], SubPoly p rem (monomialMultPoly p qi 0 b))
    else ([0], rem)
  | i + 1, rem =>
    let (qtop, rem') :=
      if Degree rem = m + (i + 1 : ℕ) then
        let qi := Mul p (LeadCoeff rem) u
        (qi, SubPoly p rem (monomialMultPoly p qi (i + 1) b))
      else (0, rem)
    let (ql, rem'') := longDivLoop p b u m i rem'
    (ql ++ [qtop], rem'')

/-- `LongDiv` (Algorithm 2.5 of von zur Gathen and Gerhard).  `none`
models the two panics: `Inverse` of a zero leading coefficient, and
`make([]uint64, n-m+1)` with a negative (or, via `int64` wrap-around
when `a` is the zero polynomial, out-of-range) length. -/
def LongDiv (p : ℕ) (a b : List ℕ) : Option (List ℕ × List ℕ) :=
  match Inverse p (LeadCoeff b) with
  | none => none
  | some u =>
    let n := Degree a
    let m := Degree b
    if n + 1 < m then none
    else
      let qlen := (n - m + 1).toNat
      if qlen = 0 then some ([0], trimTrailingZeros p a)
      else
        let (qi, rem) := longDivLoop p b u m (qlen - 1) a
        some (removeLeadingZeroes qi, trimTrailingZeros p rem)

def makeConstantPoly (u : ℕ) : List ℕ := [u]

/-- Loop body of the iterative `PartialExtendedEuclidean`.  The Go loop
terminates whenever each division strictly lowers `deg B` (always the
case over a prime field); `none` on exhausted fuel models the runs that
never exit the loop.  The wrapper passes fuel that the Bezout theorem
below proves sufficient under its hypotheses. -/
def peeLoop (p : ℕ) (stopDegree : ℤ) :
    ℕ → List ℕ → List ℕ → List ℕ → List ℕ → List ℕ → List ℕ →
    Option (List ℕ × List ℕ × List ℕ)
  | 0, _, _, _, _, _, _ => none
  | fuel + 1, A, B, x0, x1, y0, y1 =>
    if Degree A ≥ stopDegree then
      if Degree B < 0 then some (A, x0, y0)
      else
        match LongDiv p A B with
        | none => none
        | some (q, rrem) =>
          peeLoop p stopDegree fuel B rrem
            x1 (SubPoly p x0 (MulPoly p q x1))
            y1 (SubPoly p y0 (MulPoly p q y1))
    else some (A, x0, y0)

def PartialExtendedEuclidean (p : ℕ) (a b : List ℕ) (stopDegree : ℤ) :
    Option (List ℕ × List ℕ × List ℕ) :=
  peeLoop p stopDegree (b.length + 2) a b
    (makeConstantPoly 1) (makeConstantPoly 0)
    (makeConstantPoly 0) (makeConstantPoly 1)

/-- `Evaluate` (Horner's rule, highest coefficient first). -/
def Evaluate (p : ℕ) (a : List ℕ) (x : ℕ) : ℕ :=
  a.foldr (fun c acc => Add p c (Mul p x acc)) 0

def PolyProduct (p : ℕ) (polys : List (List ℕ)) : List ℕ :=
  polys.foldl (fun m mi => MulPoly p m mi) (makeConstantPoly 1)

/-! ### Error taxonomy (gao.go, interpolation.go, evaluators.go)

Only the error values reachable from the modelled entry points appear. -/

inductive GaoErr where
  | DataTooLarge
  | DataElementsTooLarge
  | TooManyPoints
  | TooManyMissingPoints
  | Decoding
  | PointsSizeMismatch
  | NonUniqueXs
  | NotInCoefficientForm
  | NttFailure
  deriving DecidableEq, Repr

/-! ### Lagrange interpolator (interpolation.go) -/

/-- Quick division `m / (x - u)` (`mDivMi`): iterates `i` from the top
index down to 1, emitting `q[i-1] = m[i]` and folding
`m[i-1] += Neg(m[i] * u)` into the mutated copy of `m`.  The recursion
argument is the running index `i`; the state is the mutated vector. -/
def mDivMiLoop (p u : ℕ) : ℕ → List ℕ → List ℕ × List ℕ
  | 0, m => ([], m)
  | i + 1, m =>
    let qi := m.getD (i + 1) 0
    let m' := m.set i (Add p (Neg p (Mul p qi u)) (m.getD i 0))
    let (ql, m'') := mDivMiLoop p u i m'
    (ql ++ [qi], m'')

def mDivMi (p : ℕ) (m mi : List ℕ) : List ℕ :=
  (mDivMiLoop p (mi.getD 0 0) (m.length - 1) m).1

def createMiSlice (p : ℕ) (xs : List ℕ) : List (List ℕ) :=
  xs.map (fun x => [Neg p (Reduce p x), 1])

/-- `similarDegreePolySum`: the accumulator has the length of the first
summand; a longer later summand would index out of range in Go
(modelled as `none`), as would an empty accumulator handed to
`NewPolynomial`. -/
def similarDegreePolySum (p : ℕ) (polys : List (List ℕ)) : Option (List ℕ) :=
  match polys with
  | [] => none
  | h :: t =>
    if h.length = 0 then none
    else if t.all (fun q => q.length ≤ h.length) then
      some (polys.foldl
        (fun acc q =>
          (List.range h.length).map
            (fun i => if i < q.length then Add p (acc.getD i 0) (q.getD i 0)
                      else acc.getD i 0))
        (List.replicate h.length 0))
    else none

def validateInterpolationPoints (xs ys : List ℕ) : Option GaoErr :=
  if xs.length ≠ ys.length then some GaoErr.PointsSizeMismatch
  else if ¬ xs.Nodup then some GaoErr.NonUniqueXs
  else none

/-- `Interpolate`.  The two `MulScalar` loops act per index `i`: the
first writes `l_i = trim(q_i * s_i^{-1})`, the second multiplies the
backing array of `l_i` by `Reduce(ys[i])` in place through a copied
slice header, so the stored vector keeps its length while its values are
scaled.  `Inverse` of a zero `s_i` is a Go panic (`none`). -/
def Interpolate (p : ℕ) (xs ys : List ℕ) : Option (Except GaoErr (List ℕ)) :=
  match validateInterpolationPoints xs ys with
  | some e => some (Except.error e)
  | none =>
    let mis := createMiSlice p xs
    let m := PolyProduct p mis
    match (List.range xs.length).mapM (fun i => do
        let qi := mDivMi p m (mis.getD i [])
        let s := Evaluate p qi (xs.getD i 0)
        let sinv ← Inverse p s
        pure (((trimTrailingZeros p (qi.map (fun v => Mul p v sinv))).map
          (fun v => Mul p v (Reduce p (ys.getD i 0)))))) with
    | none => none
    | some lis =>
      match similarDegreePolySum p lis with
      | none => none
      | some res => some (Except.ok res)

/-! ### Evaluation maps (evaluators.go, ntt_evaluator.go) -/

/-- Points of the slow evaluator: `x_i = i + 1` as raw `uint64` keys. -/
def EvaluationPoints (n : ℕ) : List ℕ := (List.range n).map (· + 1)

/-- `SlowEvaluator.EvaluatePolynomial`; the coefficient-form check
(`p.IsCoeffMode()`, which actually returns the `isNTT` flag) passes for
the freshly built coefficient polynomial handed over by `Encode`. -/
def slowEvaluatePolynomial (p : ℕ) (poly : List ℕ) : List ℕ :=
  (EvaluationPoints poly.length).map (Evaluate p poly)

def slowGenerateLocatorPolynomial (p n : ℕ) : List ℕ :=
  PolyProduct p (createMiSlice p (EvaluationPoints n))

/-- `NttEvaluator.GenerateLocatorPolynomial`: `inner[0] = 1`,
`inner[n] = Neg(1)` (for `n = 0` the second write lands on index 0). -/
def NttGenerateLocatorPolynomial (p n : ℕ) : List ℕ :=
  if n = 0 then [Neg p 1]
  else 1 :: (List.replicate (n - 1) 0 ++ [Neg p 1])

/-! ### Codec (gao.go)

Go maps become association lists with pairwise distinct keys; the code
only ever measures `len`, looks keys up and inserts absent keys, so the
list order is unobservable. -/

abbrev GoMap := List (ℕ × ℕ)

def mapLookup (m : GoMap) (k : ℕ) : Option ℕ :=
  (m.find? (fun kv => kv.1 == k)).map (·.2)

def maxErrors (n k : ℕ) : ℕ := (n - k) / 2

def stopDegreeOf (n k : ℕ) : ℕ := (n + k) / 2

/-- `Encode` over the slow evaluation map. -/
def EncodeSlow (p N K : ℕ) (data : List ℕ) : Except GaoErr GoMap :=
  if data.any (fun d => d ≥ p) then Except.error GaoErr.DataElementsTooLarge
  else if data.length > K then Except.error GaoErr.DataTooLarge
  else
    let padded := data ++ List.replicate (N - data.length) 0
    let ys := slowEvaluatePolynomial p padded
    Except.ok ((EvaluationPoints N).zip ys)

/-- Missing-point fill of `prepareDecoding`: walk the evaluation points,
inserting `(x, 0)` for absent keys and counting them. -/
def fillMissing (toDecode : GoMap) (xs : List ℕ) : GoMap × ℕ :=
  xs.foldl
    (fun acc x =>
      if (mapLookup acc.1 x).isNone then (acc.1 ++ [(x, 0)], acc.2 + 1) else acc)
    (toDecode, 0)

/-- `prepareDecoding` returns the mutated caller map, the point order and
the value vector read back in that order. -/
def prepareDecoding (N K : ℕ) (xs : List ℕ) (toDecode : GoMap) :
    Except GaoErr (GoMap × List ℕ) :=
  if toDecode.length > N then Except.error GaoErr.TooManyPoints
  else
    let (filled, numMissing) := fillMissing toDecode xs
    if numMissing > maxErrors N K then Except.error GaoErr.TooManyMissingPoints
    else Except.ok (filled, xs.map (fun x => (mapLookup filled x).getD 0))

/-- Generic (non-NTT) decode tail: interpolate, partial EEA, long
division.  `none` is a panic inside one of those routines. -/
def decodeGeneric (p N K : ℕ) (g0 : List ℕ) (xs ys : List ℕ) :
    Option (Except GaoErr (List ℕ × List ℕ)) :=
  match Interpolate p xs ys with
  | none => none
  | some (Except.error e) => some (Except.error e)
  | some (Except.ok g1) =>
    match PartialExtendedEuclidean p g0 g1 (stopDegreeOf N K : ℕ) with
    | none => none
    | some (g, _, v) =>
      match LongDiv p g v with
      | none => none
      | some (f, r) => some (Except.ok (f, r))

/-- `Code.Decode` over the slow evaluation map (`isNTT()` false). -/
def DecodeSlow (p N K : ℕ) (received : GoMap) : Option (Except GaoErr (List ℕ)) :=
  match prepareDecoding N K (EvaluationPoints N) received with
  | Except.error e => some (Except.error e)
  | Except.ok (_, ys) =>
    match decodeGeneric p N K (slowGenerateLocatorPolynomial p N) (EvaluationPoints N) ys with
    | none => none
    | some (Except.error e) => some (Except.error e)
    | some (Except.ok (f, r)) =>
      if ¬ IsZero r ∨ Degree f > (K : ℤ) then some (Except.error GaoErr.Decoding)
      else some (Except.ok f)

/-! ### NTT engine (field/ntt.go)

The twiddle cache is keyed by the length and filled deterministically
from the field, so the cached table equals the recomputed one; the
embedding recomputes it.  Array mutation becomes list rebuilding; the
nested stage loops write disjoint aligned blocks, rendered here as a map
over exact chunks. -/

/-- Inner `for j&bit != 0` loop of `bitReverseInPlace`: clear set bits
from the top until a zero bit is found, then set it.  Each pass halves
`bit`, so `bit` is enough fuel (once `bit = 0` every fuel gives `j`). -/
def bitRevStep : ℕ → ℕ → ℕ → ℕ
  | 0, j, bit => j ||| bit
  | fuel + 1, j, bit =>
    if j &&& bit ≠ 0 then bitRevStep fuel (j ^^^ bit) (bit >>> 1)
    else j ||| bit

def swapAt (l : List ℕ) (i j : ℕ) : List ℕ :=
  let a := l.getD i 0
  let b := l.getD j 0
  (l.set i b).set j a

/-- Main loop of `bitReverseInPlace` over `i = 1 .. n-2` with the
reversed counter `j` as state. -/
def bitRevLoop (n : ℕ) : ℕ → List ℕ → ℕ → ℕ → List ℕ
  | 0, l, _, _ => l
  | fuel + 1, l, i, j =>
    if i < n - 1 then
      let j' := bitRevStep (n >>> 1) j (n >>> 1)
      let l' := if i < j' then swapAt l i j' else l
      bitRevLoop n fuel l' (i + 1) j'
    else l

def bitReverseInPlace (l : List ℕ) : List ℕ :=
  if l.length ≤ 1 then l else bitRevLoop l.length l.length l 1 0

/-- One stage row of the twiddle table: `w^0, w^1, ..., w^(half-1)`
accumulated by repeated `Mul` exactly as the Go loop does. -/
def twiddleRowAux (p wm : ℕ) : ℕ → ℕ → List ℕ
  | 0, _ => []
  | c + 1, w => w :: twiddleRowAux p wm c (Mul p w wm)

def twiddleRow (p wm half : ℕ) : List ℕ := twiddleRowAux p wm half 1

/-- Stage loop of `getTwiddles` over `m = 2, 4, ..., n`. -/
def twiddleLoop (p psi psiInv n : ℕ) : ℕ → ℕ → List (List ℕ) × List (List ℕ)
  | 0, _ => ([], [])
  | fuel + 1, m =>
    if m ≤ n then
      let half := m >>> 1
      let rowF := twiddleRow p (Pow p psi (n / m)) half
      let rowI := twiddleRow p (Pow p psiInv (n / m)) half
      let rest := twiddleLoop p psi psiInv n fuel (m <<< 1)
      (rowF :: rest.1, rowI :: rest.2)
    else ([], [])

/-- `getTwiddles`: forward rows, inverse rows and `n⁻¹`.  `none` covers
the root-of-unity error return and the `Inverse` panics (`n = 0`, or a
zero `psi`). -/
def getTwiddles (p g n : ℕ) : Option (List (List ℕ) × List (List ℕ) × ℕ) :=
  if n ≤ 1 then (Inverse p n).map (fun nInv => ([], [], nInv))
  else do
    let psi ← GetRootOfUnity p g n
    let psiInv ← Inverse p psi
    let nInv ← Inverse p n
    let (fwd, inv) := twiddleLoop p psi psiInv n n 2
    pure (fwd, inv, nInv)

/-- Exact chunks of size `m` (fuel: the list length; every modelled call
uses `m ≥ 2` dividing the length). -/
def chunksAux (m : ℕ) : ℕ → List ℕ → List (List ℕ)
  | 0, _ => []
  | fuel + 1, l => if l.length = 0 then [] else l.take m :: chunksAux m fuel (l.drop m)

/-- One butterfly block: `u` and `t = w_j * v` combine into
`(u + t, u - t)` at distance `half`. -/
def butterflyBlock (p half : ℕ) (ws block : List ℕ) : List ℕ :=
  let us := block.take half
  let vs := block.drop half
  let ts := List.zipWith (fun w v => Mul p w v) ws vs
  List.zipWith (fun u t => Add p u t) us ts ++
    List.zipWith (fun u t => Sub p u t) us ts

/-- The two inner loops of a stage: every aligned block of length `m`
goes through the butterflies with the stage row `ws`. -/
def stageMap (p m : ℕ) (ws l : List ℕ) : List ℕ :=
  ((chunksAux m l.length l).map (butterflyBlock p (m >>> 1) ws)).flatten

/-- Stage iteration `m = 2, 4, ..., n` with table rows indexed by `s`. -/
def nttStagesLoop (p n : ℕ) (tbl : List (List ℕ)) : ℕ → ℕ → ℕ → List ℕ → List ℕ
  | 0, _, _, l => l
  | fuel + 1, s, m, l =>
    if m ≤ n then
      nttStagesLoop p n tbl fuel (s + 1) (m <<< 1) (stageMap p m (tbl.getD s []) l)
    else l

/-- `NttForward` on a coefficient vector (the `isNTT` early return is a
caller-side fact at each modelled call site).  `none` is the bad-length
error or a twiddle failure. -/
def NttForward (p g : ℕ) (l : List ℕ) : Option (List ℕ) :=
  if l.length = 0 then some l
  else if ¬ IsPowerOfTwo l.length then none
  else
    (getTwiddles p g l.length).map
      (fun tw => nttStagesLoop p l.length tw.1 l.length 0 2 (bitReverseInPlace l))

/-- `nttBackwardNoTrim` on an NTT vector: inverse rows, then scale by
`n⁻¹`. -/
def nttBackwardNoTrim (p g : ℕ) (l : List ℕ) : Option (List ℕ) :=
  if l.length = 0 then some l
  else if ¬ IsPowerOfTwo l.length then none
  else
    (getTwiddles p g l.length).map
      (fun tw =>
        (nttStagesLoop p l.length tw.2.1 l.length 0 2 (bitReverseInPlace l)).map
          (fun x => Mul p x tw.2.2))

def NttBackward (p g : ℕ) (l : List ℕ) : Option (List ℕ) :=
  (nttBackwardNoTrim p g l).map (trimTrailingZeros p)

/-! ### Fast polynomial routines (NTT division, series inverse, NTT EEA) -/

/-- `revTop`: first `L` coefficients of the reversal at the true degree.
The Go loop skips trailing coefficients with `Equals(inner[n], 0)`, so
the degree search works mod `p` (unlike `leadingCoeffPos`). -/
def revTop (p : ℕ) (f : List ℕ) (L : ℤ) : List ℕ :=
  if L ≤ 0 then []
  else
    let t := trimTrailingZeros p f
    if t.length = 0 then List.replicate L.toNat 0
    else
      let n := t.length - 1
      (List.range L.toNat).map (fun i => if i ≤ n then Reduce p (f.getD (n - i) 0) else 0)

def nextPow2Loop : ℕ → ℕ → ℕ → ℕ
  | 0, acc, _ => acc
  | fuel + 1, acc, n => if acc < n then nextPow2Loop fuel (acc * 2) n else acc

def nextPow2 (n : ℕ) : ℕ := if n = 0 then 1 else nextPow2Loop n 1 n

/-- `mulTrunc`: NTT-multiply and keep the lowest `L` coefficients.
`none` is a panic out of the forward/backward transforms. -/
def mulTrunc (p g : ℕ) (a b : List ℕ) (L : ℤ) : Option (List ℕ) :=
  if L ≤ 0 then some []
  else
    let la := min a.length L.toNat
    let lb := min b.length L.toNat
    if la = 0 ∨ lb = 0 then some []
    else
      let total := la + lb - 1
      let convLen := min L.toNat total
      let n := nextPow2 total
      let aPad := (List.range n).map (fun i => if i < la then Reduce p (a.getD i 0) else 0)
      let bPad := (List.range n).map (fun i => if i < lb then Reduce p (b.getD i 0) else 0)
      do
        let aN ← NttForward p g aPad
        let bN ← NttForward p g bPad
        let prod := List.zipWith (fun x y => Mul p x y) aN bN
        let back ← nttBackwardNoTrim p g prod
        pure (back.take convLen)

/-- Newton iteration loop of `seriesInverse`; the precision at least
doubles each pass, so `k` is enough fuel. -/
def seriesInverseLoop (p g k : ℕ) (b : List ℕ) : ℕ → ℕ → List ℕ → Option (List ℕ)
  | 0, _, t => some t
  | fuel + 1, l, t =>
    if l < k then do
      let m := min (l * 2) k
      let tmp ← mulTrunc p g b t (m : ℤ)
      let padded := tmp ++ List.replicate (m - tmp.length) 0
      let adj := Sub p (Reduce p 2) (padded.getD 0 0) ::
        (padded.drop 1).map (fun x => Neg p x)
      let t' ← mulTrunc p g t adj (m : ℤ)
      seriesInverseLoop p g k b fuel m t'
    else some t

/-- `seriesInverse`: `none` covers the zero-constant-term panic and NTT
failures inside `mulTrunc`. -/
def seriesInverse (p g : ℕ) (b : List ℕ) (k : ℤ) : Option (List ℕ) :=
  if k ≤ 0 then some []
  else if b.length = 0 ∨ (b.getD 0 0) % p = 0 then none
  else do
    let b0 := Reduce p (b.getD 0 0)
    let t0 ← Inverse p b0
    seriesInverseLoop p g k.toNat b k.toNat 1 [t0]

/-- `LongDivNTT` (reversal + Newton series inverse).  The degrees `n`,
`m` come from vector lengths, not true degrees. -/
def LongDivNTT (p g : ℕ) (a b : List ℕ) : Option (List ℕ × List ℕ) :=
  let n : ℤ := (a.length : ℤ) - 1
  let m : ℤ := (b.length : ℤ) - 1
  if m < 0 then none
  else if n < m then some ([0], a)
  else do
    let k := n - m + 1
    let Astar := revTop p a k
    let Bstar := revTop p b (m + 1)
    if Bstar.length = 0 ∨ (Bstar.getD 0 0) % p = 0 then none
    else do
      let T ← seriesInverse p g Bstar k
      let Qstar ← mulTrunc p g Astar T k
      let q := revTop p Qstar k
      let prod ← mulTrunc p g q b (n + 1)
      pure (q, trimTrailingZeros p (SubPoly p a prod))

def nttMulThreshold : ℕ := 256

/-- `mulFull`: full product, by NTT when the output is long enough. -/
def mulFull (p g : ℕ) (a b : List ℕ) : Option (List ℕ) :=
  if a.length = 0 ∨ b.length = 0 then some []
  else if a.length + b.length - 1 ≥ nttMulThreshold then
    mulTrunc p g a b ((a.length + b.length - 1 : ℕ) : ℤ)
  else some (MulPoly p a b)

/-- Loop of `NttPartialExtendedEuclidean`, the threshold-dispatched
variant of `peeLoop`. -/
def nttPeeLoop (p g : ℕ) (stopDegree : ℤ) :
    ℕ → List ℕ → List ℕ → List ℕ → List ℕ → List ℕ → List ℕ →
    Option (List ℕ × List ℕ × List ℕ)
  | 0, _, _, _, _, _, _ => none
  | fuel + 1, A, B, x0, x1, y0, y1 =>
    if Degree A ≥ stopDegree then
      if Degree B < 0 ∨ B.length = 0 then some (A, x0, y0)
      else do
        let (q, rrem) ←
          if A.length + B.length ≥ nttMulThreshold then LongDivNTT p g A B
          else LongDiv p A B
        let qx ← mulFull p g q x1
        let qy ← mulFull p g q y1
        nttPeeLoop p g stopDegree fuel B rrem
          x1 (SubPoly p x0 qx) y1 (SubPoly p y0 qy)
    else some (A, x0, y0)

def NttPartialExtendedEuclidean (p g : ℕ) (a b : List ℕ) (stopDegree : ℤ) :
    Option (List ℕ × List ℕ × List ℕ) :=
  nttPeeLoop p g stopDegree (b.length + 2) a b
    (makeConstantPoly 1) (makeConstantPoly 0)
    (makeConstantPoly 0) (makeConstantPoly 1)

/-- NTT decode tail: backward transform of the received values, NTT
partial EEA against `g0 = 1 - x^N`, NTT long division. -/
def decodeNtt (p g N K : ℕ) (ys : List ℕ) :
    Option (Except GaoErr (List ℕ × List ℕ)) :=
  match NttBackward p g ys with
  | none => some (Except.error GaoErr.NttFailure)
  | some g1 =>
    match NttPartialExtendedEuclidean p g (NttGenerateLocatorPolynomial p N) g1
        (stopDegreeOf N K : ℕ) with
    | none => none
    | some (gg, _, v) =>
      match LongDivNTT p g gg v with
      | none => none
      | some (f, r) => some (Except.ok (f, r))

/-- `Code.Decode` over the NTT evaluation map: evaluation points are the
forward NTT of the polynomial `x`. -/
def NttEvaluationPoints (p g n : ℕ) : Option (List ℕ) :=
  NttForward p g ((List.range n).map (fun i => if i = 1 then 1 else 0))

def DecodeNtt (p g N K : ℕ) (received : GoMap) : Option (Except GaoErr (List ℕ)) :=
  match NttEvaluationPoints p g N with
  | none => none
  | some xs =>
    match prepareDecoding N K xs received with
    | Except.error e => some (Except.error e)
    | Except.ok (_, ys) =>
      match decodeNtt p g N K ys with
      | none => none
      | some (Except.error e) => some (Except.error e)
      | some (Except.ok (f, r)) =>
        if ¬ IsZero r ∨ Degree f > (K : ℤ) then some (Except.error GaoErr.Decoding)
        else some (Except.ok f)

/-! ### Semantics: coefficient vectors as polynomials over `ZMod p` -/

/-- Interpretation of a coefficient vector (index 0 = constant term) as
a polynomial over `ZMod p`. -/
noncomputable def toPoly (p : ℕ) : List ℕ → Polynomial (ZMod p)
  | [] => 0
  | a :: t => Polynomial.C (a : ZMod p) + Polynomial.X * toPoly p t

/-- Entry-wise bound: every stored coefficient is reduced below `p`. -/
def Reduced (p : ℕ) (l : List ℕ) : Prop := ∀ x ∈ l, x < p

/-- Reversal of the low `k` bits of `i` (reference permutation for the
in-place bit-reversal loop of the NTT). -/
def bitrev : ℕ → ℕ → ℕ
  | 0, _ => 0
  | k + 1, i => 2 ^ k * (i % 2) + bitrev k (i / 2)

theorem getD_mem_of_lt (l : List ℕ) (i : ℕ) (h : i < l.length) : l.getD i 0 ∈ l := by
  rw [List.getD_eq_getElem l 0 h]
  exact List.getElem_mem h

/-! ### Field operation lemmas -/

theorem castAdd (p a b : ℕ) : ((Add p a b : ℕ) : ZMod p) = (a : ZMod p) + b := by
  unfold Add
  split
  · rename_i h
    simp [h]
  · split
    · rename_i h1 h2
      rw [Nat.cast_sub h2]
      push_cast
      rw [ZMod.natCast_self]
      ring
    · push_cast
      ring

theorem Add_lt (p a b : ℕ) (hp : 0 < p) (ha : a < p) (hb : b < p) : Add p a b < p := by
  unfold Add
  split
  · exact hb
  · split <;> omega

theorem castSub (p a b : ℕ) (hb : b < p) :
    ((Sub p a b : ℕ) : ZMod p) = (a : ZMod p) - b := by
  unfold Sub
  split
  · rename_i h
    rw [Nat.cast_sub (by omega)]
    rw [Nat.cast_sub (by omega), ZMod.natCast_self]
    ring
  · rw [Nat.cast_sub (by omega)]

theorem Sub_lt (p a b : ℕ) (hp : 0 < p) (ha : a < p) (hb : b < p) : Sub p a b < p := by
  unfold Sub
  split <;> omega

theorem castMul (p a b : ℕ) : ((Mul p a b : ℕ) : ZMod p) = (a : ZMod p) * b := by
  unfold Mul fieldMul
  split
  · rename_i h
    rcases h with h | h <;> simp [h]
  · rw [ZMod.natCast_mod]
    push_cast
    ring

theorem Mul_lt (p a b : ℕ) (hp : 0 < p) : Mul p a b < p := by
  unfold Mul fieldMul
  split
  · exact hp
  · exact Nat.mod_lt _ hp

theorem castNeg (p a : ℕ) (ha : a < p) : ((Neg p a : ℕ) : ZMod p) = -(a : ZMod p) := by
  unfold Neg
  split
  · rename_i h
    simp [h]
  · rw [Nat.cast_sub (by omega), ZMod.natCast_self]
    ring

theorem Neg_lt (p a : ℕ) (hp : 0 < p) (ha : a < p) : Neg p a < p := by
  unfold Neg
  split <;> omega

theorem castReduce (p a : ℕ) : ((Reduce p a : ℕ) : ZMod p) = (a : ZMod p) :=
  ZMod.natCast_mod a p

theorem Reduce_lt (p a : ℕ) (hp : 0 < p) : Reduce p a < p := Nat.mod_lt _ hp

theorem castPowLoop (p : ℕ) :
    ∀ fuel base exp x, exp ≤ fuel →
      ((powLoop p fuel base exp x : ℕ) : ZMod p) = (x : ZMod p) * (base : ZMod p) ^ exp := by
  intro fuel
  induction fuel with
  | zero =>
    intro base exp x h
    interval_cases exp
    simp [powLoop, ZMod.natCast_mod]
  | succ n ih =>
    intro base exp x h
    unfold powLoop
    split
    · rename_i hexp
      simp [hexp, ZMod.natCast_mod]
    · rename_i hexp
      rw [ih _ _ _ (by omega)]
      have hsq : ((fieldMul base base p : ℕ) : ZMod p) = (base : ZMod p) ^ 2 := by
        unfold fieldMul
        rw [ZMod.natCast_mod]
        push_cast
        ring
      rw [hsq, ← pow_mul]
      by_cases hpar : exp % 2 = 1
      · rw [if_pos hpar]
        unfold fieldMul
        rw [ZMod.natCast_mod]
        push_cast
        have hde : 2 * (exp / 2) + 1 = exp := by omega
        calc (x : ZMod p) * base * base ^ (2 * (exp / 2))
            = x * (base ^ (2 * (exp / 2)) * base ^ 1) := by ring
          _ = x * base ^ (2 * (exp / 2) + 1) := by rw [← pow_add]
          _ = x * base ^ exp := by rw [hde]
      · rw [if_neg hpar]
        have hde : 2 * (exp / 2) = exp := by omega
        rw [hde]

theorem powLoop_lt (p : ℕ) (hp : 0 < p) :
    ∀ fuel base exp x, powLoop p fuel base exp x < p := by
  intro fuel
  induction fuel with
  | zero => intro base exp x; exact Nat.mod_lt _ hp
  | succ n ih =>
    intro base exp x
    unfold powLoop
    split
    · exact Nat.mod_lt _ hp
    · exact ih _ _ _

theorem castPow (p base exp : ℕ) : ((Pow p base exp : ℕ) : ZMod p) = (base : ZMod p) ^ exp := by
  unfold Pow
  rw [castPowLoop p exp base exp 1 le_rfl]
  ring

theorem Pow_lt (p base exp : ℕ) (hp : 0 < p) : Pow p base exp < p :=
  powLoop_lt p hp _ _ _ _

/-- Fermat inverse: over a prime modulus, `Inverse` of a reduced
non-zero element succeeds with the multiplicative inverse. -/
theorem Inverse_spec (p a : ℕ) (hp : p.Prime) (ha : a < p) (ha0 : a ≠ 0) :
    ∃ v, Inverse p a = some v ∧ v < p ∧ (v : ZMod p) * (a : ZMod p) = 1 := by
  haveI : Fact p.Prime := ⟨hp⟩
  refine ⟨Pow p a (p - 2), by simp [Inverse, ha0], Pow_lt p a _ hp.pos, ?_⟩
  rw [castPow]
  have hz : (a : ZMod p) ≠ 0 := by
    intro hc
    rcases (ZMod.natCast_zmod_eq_zero_iff_dvd a p).mp hc with ⟨c, hc2⟩
    rcases c with _ | c
    · omega
    · have : p ≤ a := by
        calc p = p * 1 := by ring
          _ ≤ p * (c + 1) := Nat.mul_le_mul_left p (by omega)
          _ = a := hc2.symm
      omega
  have h1 : (a : ZMod p) ^ (p - 1) = 1 := ZMod.pow_card_sub_one_eq_one hz
  have h2 : p - 2 + 1 = p - 1 := by have := hp.two_le; omega
  calc (a : ZMod p) ^ (p - 2) * a = (a : ZMod p) ^ (p - 2 + 1) := by rw [pow_succ]
    _ = 1 := by rw [h2, h1]

/-! ### Lemmas about `toPoly` -/

theorem toPoly_nil (p : ℕ) : toPoly p [] = 0 := rfl

theorem toPoly_cons (p : ℕ) (a : ℕ) (t : List ℕ) :
    toPoly p (a :: t) = Polynomial.C (a : ZMod p) + Polynomial.X * toPoly p t := rfl

theorem toPoly_coeff (p : ℕ) : ∀ (l : List ℕ) (i : ℕ),
    (toPoly p l).coeff i = ((l.getD i 0 : ℕ) : ZMod p) := by
  intro l
  induction l with
  | nil => intro i; simp [toPoly]
  | cons a t ih =>
    intro i
    rw [toPoly_cons]
    cases i with
    | zero => simp
    | succ j =>
      rw [Polynomial.coeff_add, Polynomial.coeff_C,
        Polynomial.coeff_X_mul, ih j]
      simp

theorem toPoly_ext (p : ℕ) (l m : List ℕ)
    (h : ∀ i, ((l.getD i 0 : ℕ) : ZMod p) = ((m.getD i 0 : ℕ) : ZMod p)) :
    toPoly p l = toPoly p m := by
  apply Polynomial.ext
  intro i
  rw [toPoly_coeff, toPoly_coeff, h i]

theorem toPoly_append (p : ℕ) : ∀ (u v : List ℕ),
    toPoly p (u ++ v) = toPoly p u + Polynomial.X ^ u.length * toPoly p v := by
  intro u
  induction u with
  | nil => intro v; simp [toPoly]
  | cons a t ih =>
    intro v
    rw [List.cons_append, toPoly_cons, toPoly_cons, ih]
    simp [pow_succ]
    ring

theorem toPoly_eq_zero_of_all_mod (p : ℕ) (l : List ℕ)
    (h : ∀ x ∈ l, x % p = 0) : toPoly p l = 0 := by
  apply Polynomial.ext
  intro i
  rw [toPoly_coeff]
  simp only [Polynomial.coeff_zero]
  by_cases hi : i < l.length
  · have := h (l.getD i 0) (getD_mem_of_lt l i hi)
    rw [← ZMod.natCast_mod, this, Nat.cast_zero]
  · rw [List.getD_eq_default l 0 (by omega), Nat.cast_zero]

theorem toPoly_natDegree_lt (p : ℕ) : ∀ (l : List ℕ), l ≠ [] →
    (toPoly p l).natDegree < l.length := by
  intro l
  induction l with
  | nil => intro h; exact absurd rfl h
  | cons a t ih =>
    intro _
    rw [toPoly_cons]
    rcases eq_or_ne t [] with rfl | ht
    · simp only [toPoly, mul_zero, add_zero, List.length_cons, List.length_nil]
      exact lt_of_le_of_lt (Polynomial.natDegree_C _).le (by norm_num)
    · have h1 : (Polynomial.C ((a : ℕ) : ZMod p)).natDegree = 0 := Polynomial.natDegree_C _
      have h2 : (Polynomial.X * toPoly p t).natDegree ≤ 1 + (toPoly p t).natDegree := by
        calc (Polynomial.X * toPoly p t).natDegree
            ≤ Polynomial.X.natDegree + (toPoly p t).natDegree := Polynomial.natDegree_mul_le
          _ ≤ 1 + (toPoly p t).natDegree := by
              have := Polynomial.natDegree_X_le (R := ZMod p)
              omega
      have h3 := ih ht
      calc (Polynomial.C ((a : ℕ) : ZMod p) + Polynomial.X * toPoly p t).natDegree
          ≤ max (Polynomial.C ((a : ℕ) : ZMod p)).natDegree
              (Polynomial.X * toPoly p t).natDegree := Polynomial.natDegree_add_le _ _
        _ < (a :: t).length := by
            simp only [List.length_cons]
            omega

/-! ### Lemmas about `leadingCoeffPos`, `Degree`, `LeadCoeff` -/

theorem leadingCoeffPos_eq_none_iff (l : List ℕ) :
    leadingCoeffPos l = none ↔ ∀ x ∈ l, x = 0 := by
  induction l with
  | nil => simp [leadingCoeffPos]
  | cons a t ih =>
    unfold leadingCoeffPos
    constructor
    · intro h
      rcases hm : leadingCoeffPos t with _ | i
      · rw [hm] at h
        simp only at h
        intro x hx
        rw [List.mem_cons] at hx
        rcases hx with hx | hx
        · by_contra hxa
          rw [if_pos (by omega)] at h
          exact (Option.some_ne_none _) h
        · exact ih.mp hm x hx
      · rw [hm] at h
        exact absurd h (Option.some_ne_none _)
    · intro h
      have ht : leadingCoeffPos t = none := ih.mpr (fun x hx => h x (List.mem_cons_of_mem a hx))
      rw [ht]
      simp only [ite_eq_right_iff]
      intro hne
      exact absurd (h a (List.mem_cons_self a t)) hne

theorem leadingCoeffPos_spec (l : List ℕ) (i : ℕ) (h : leadingCoeffPos l = some i) :
    i < l.length ∧ l.getD i 0 ≠ 0 ∧ ∀ j, i < j → l.getD j 0 = 0 := by
  induction l generalizing i with
  | nil => exact absurd h (by simp [leadingCoeffPos])
  | cons a t ih =>
    unfold leadingCoeffPos at h
    rcases hm : leadingCoeffPos t with _ | k
    · rw [hm] at h
      by_cases ha : a ≠ 0
      · rw [if_pos ha] at h
        have hi : i = 0 := by
          have := Option.some_injective _ h.symm
          omega
        subst hi
        refine ⟨by simp, ha, ?_⟩
        intro j hj
        rcases j with _ | j
        · omega
        · simp only [List.getD_cons_succ]
          by_cases hjt : j < t.length
          · exact (leadingCoeffPos_eq_none_iff t).mp hm _ (getD_mem_of_lt t j hjt)
          · exact List.getD_eq_default t 0 (by omega)
      · rw [if_neg ha] at h
        exact absurd h.symm (Option.some_ne_none _)
    · rw [hm] at h
      have hik : i = k + 1 := (Option.some_injective _ h.symm)
      subst hik
      obtain ⟨h1, h2, h3⟩ := ih k hm
      refine ⟨by simp; omega, by simpa using h2, ?_⟩
      intro j hj
      rcases j with _ | j
      · omega
      · simpa using h3 j (by omega)

theorem leadingCoeffPos_eq_some (l : List ℕ) (i : ℕ)
    (hne : l.getD i 0 ≠ 0) (htop : ∀ j, i < j → l.getD j 0 = 0) :
    leadingCoeffPos l = some i := by
  rcases hm : leadingCoeffPos l with _ | k
  · have hi : l.getD i 0 = 0 := by
      by_cases hil : i < l.length
      · exact (leadingCoeffPos_eq_none_iff l).mp hm _ (getD_mem_of_lt l i hil)
      · exact List.getD_eq_default l 0 (by omega)
    exact absurd hi hne
  · obtain ⟨h1, h2, h3⟩ := leadingCoeffPos_spec l k hm
    rcases lt_trichotomy i k with h | h | h
    · exact absurd (htop k h) h2
    · rw [h]
    · exact absurd (h3 i h) hne

/-! ### Lemmas about `trimTrailingZeros` -/

theorem dropWhile_head_false (q : ℕ → Bool) :
    ∀ L : List ℕ, L.dropWhile q = [] ∨ q ((L.dropWhile q).headI) = false := by
  intro L
  induction L with
  | nil => left; rfl
  | cons x r ih =>
    by_cases hx : q x
    · rw [List.dropWhile_cons_of_pos hx]
      exact ih
    · rw [List.dropWhile_cons_of_neg hx]
      right
      simpa using hx

/-- The trimmed vector is a prefix and the dropped tail is zero mod `p`. -/
theorem trim_decomp (p : ℕ) (l : List ℕ) :
    ∃ rest, l = trimTrailingZeros p l ++ rest ∧ ∀ x ∈ rest, x % p = 0 := by
  unfold trimTrailingZeros
  refine ⟨(l.reverse.takeWhile (fun x => x % p == 0)).reverse, ?_, ?_⟩
  · rw [← List.reverse_append, List.takeWhile_append_dropWhile, List.reverse_reverse]
  · intro x hx
    rw [List.mem_reverse] at hx
    have := List.mem_takeWhile_imp hx
    simpa using this

theorem trim_sublist (p : ℕ) (l : List ℕ) : (trimTrailingZeros p l).Sublist l := by
  obtain ⟨rest, hl, _⟩ := trim_decomp p l
  conv_rhs => rw [hl]
  exact List.sublist_append_left _ _

theorem trim_reduced (p : ℕ) (l : List ℕ) (h : Reduced p l) :
    Reduced p (trimTrailingZeros p l) :=
  fun x hx => h x ((trim_sublist p l).mem hx)

theorem toPoly_trim (p : ℕ) (l : List ℕ) :
    toPoly p (trimTrailingZeros p l) = toPoly p l := by
  obtain ⟨rest, hl, hrest⟩ := trim_decomp p l
  conv_rhs => rw [hl]
  rw [toPoly_append, toPoly_eq_zero_of_all_mod p rest hrest, mul_zero, add_zero]

theorem trim_getD (p : ℕ) (l : List ℕ) (h : Reduced p l) (i : ℕ) :
    (trimTrailingZeros p l).getD i 0 = l.getD i 0 := by
  obtain ⟨rest, hl, hrest⟩ := trim_decomp p l
  set t := trimTrailingZeros p l with ht
  by_cases hi : i < t.length
  · conv_rhs => rw [hl]
    rw [List.getD_eq_getElem t 0 hi, List.getD_eq_getElem _ 0
      (by rw [List.length_append]; omega), List.getElem_append_left hi]
  · rw [List.getD_eq_default t 0 (by omega)]
    by_cases hil : i < l.length
    · have hmem : l.getD i 0 ∈ rest := by
        have hlen : i < t.length + rest.length := by
          have := congrArg List.length hl
          rw [List.length_append] at this
          omega
        have heq : l.getD i 0 = rest.getD (i - t.length) 0 := by
          conv_lhs => rw [hl]
          rw [List.getD_eq_getElem _ 0 (by rw [List.length_append]; omega),
            List.getD_eq_getElem _ 0 (by omega),
            List.getElem_append_right (by omega)]
        rw [heq]
        exact getD_mem_of_lt rest _ (by omega)
      have h1 := hrest _ hmem
      have h2 : l.getD i 0 < p := h _ (getD_mem_of_lt l i hil)
      rw [Nat.mod_eq_of_lt h2] at h1
      omega
    · rw [List.getD_eq_default l 0 (by omega)]

/-- The last kept coefficient is non-zero mod `p`; for a reduced vector
the leading position of the trimmed form is therefore its top index. -/
theorem trim_leadingCoeffPos (p : ℕ) (l : List ℕ) (h : Reduced p l)
    (hne : trimTrailingZeros p l ≠ []) :
    leadingCoeffPos (trimTrailingZeros p l) =
      some ((trimTrailingZeros p l).length - 1) := by
  set t := trimTrailingZeros p l with ht
  have hlen : 0 < t.length := List.length_pos.mpr hne
  have hlast : t.getD (t.length - 1) 0 % p ≠ 0 := by
    have hrev : t.reverse = l.reverse.dropWhile (fun x => x % p == 0) := by
      rw [ht]
      unfold trimTrailingZeros
      rw [List.reverse_reverse]
    have hrevne : t.reverse ≠ [] := by
      simpa using hne
    rcases dropWhile_head_false (fun x => x % p == 0) l.reverse with hd | hd
    · rw [← hrev] at hd
      exact absurd hd hrevne
    · rw [← hrev] at hd
      have hhead : t.reverse.headI = t.getD (t.length - 1) 0 := by
        rcases hval : t.reverse with _ | ⟨a, r⟩
        · exact absurd hval hrevne
        · have h1 : t.getLast? = some a := by
            rw [← List.head?_reverse, hval, List.head?_cons]
          have h2 : t.getLast? = some (t.getD (t.length - 1) 0) := by
            rw [List.getLast?_eq_getElem?, List.getElem?_eq_getElem (by omega),
              List.getD_eq_getElem t 0 (by omega)]
          rw [h1] at h2
          show a = t.getD (t.length - 1) 0
          exact (Option.some_injective _ h2)
      rw [hhead] at hd
      simpa using hd
  apply leadingCoeffPos_eq_some
  · intro hc
    rw [hc] at hlast
    simp at hlast
  · intro j hj
    exact List.getD_eq_default t 0 (by omega)

/-! ### Correctness of the ring operations -/

theorem rangeMap_getD (f : ℕ → ℕ) (N i : ℕ) :
    ((List.range N).map f).getD i 0 = if i < N then f i else 0 := by
  split
  · rename_i h
    rw [List.getD_eq_getElem _ 0 (by simpa using h)]
    simp
  · rename_i h
    exact List.getD_eq_default _ 0 (by simpa using not_lt.mp h)

theorem AddPoly_spec (p : ℕ) (a b : List ℕ) :
    toPoly p (AddPoly p a b) = toPoly p a + toPoly p b := by
  unfold AddPoly
  rw [toPoly_trim]
  apply Polynomial.ext
  intro i
  rw [toPoly_coeff, Polynomial.coeff_add, toPoly_coeff, toPoly_coeff, rangeMap_getD]
  split
  · rw [castAdd, castReduce, castReduce]
  · rename_i h
    rw [List.getD_eq_default a 0 (by omega), List.getD_eq_default b 0 (by omega)]
    simp

theorem AddPoly_reduced (p : ℕ) (hp : 0 < p) (a b : List ℕ) :
    Reduced p (AddPoly p a b) := by
  apply trim_reduced
  intro x hx
  rw [List.mem_map] at hx
  obtain ⟨i, _, rfl⟩ := hx
  exact Add_lt p _ _ hp (Reduce_lt p _ hp) (Reduce_lt p _ hp)

theorem SubPoly_spec (p : ℕ) (hp : 0 < p) (a b : List ℕ) :
    toPoly p (SubPoly p a b) = toPoly p a - toPoly p b := by
  unfold SubPoly
  rw [toPoly_trim]
  apply Polynomial.ext
  intro i
  rw [toPoly_coeff, Polynomial.coeff_sub, toPoly_coeff, toPoly_coeff, rangeMap_getD]
  split
  · rw [castSub _ _ _ (Reduce_lt p _ hp), castReduce, castReduce]
  · rename_i h
    rw [List.getD_eq_default a 0 (by omega), List.getD_eq_default b 0 (by omega)]
    simp

theorem SubPoly_reduced (p : ℕ) (hp : 0 < p) (a b : List ℕ) :
    Reduced p (SubPoly p a b) := by
  apply trim_reduced
  intro x hx
  rw [List.mem_map] at hx
  obtain ⟨i, _, rfl⟩ := hx
  exact Sub_lt p _ _ hp (Reduce_lt p _ hp) (Reduce_lt p _ hp)

theorem convCell_cast (p : ℕ) (a b : List ℕ) (k : ℕ) :
    ((convCell p a b k : ℕ) : ZMod p) =
      ∑ i ∈ Finset.range (k + 1),
        ((a.getD i 0 : ℕ) : ZMod p) * ((b.getD (k - i) 0 : ℕ) : ZMod p) := by
  unfold convCell
  suffices h : ∀ n,
      (((List.range n).foldl
        (fun acc i => Add p acc (Mul p (a.getD i 0) (b.getD (k - i) 0))) 0 : ℕ) : ZMod p) =
      ∑ i ∈ Finset.range n,
        ((a.getD i 0 : ℕ) : ZMod p) * ((b.getD (k - i) 0 : ℕ) : ZMod p) from h (k + 1)
  intro n
  induction n with
  | zero => simp
  | succ n ih =>
    rw [List.range_succ, List.foldl_append, List.foldl_cons, List.foldl_nil,
      castAdd, castMul, ih, Finset.sum_range_succ]

theorem convCell_lt (p : ℕ) (hp : 0 < p) (a b : List ℕ) (k : ℕ) : convCell p a b k < p := by
  unfold convCell
  suffices h : ∀ (n : ℕ) (acc : ℕ), acc < p →
      (List.range n).foldl
        (fun acc i => Add p acc (Mul p (a.getD i 0) (b.getD (k - i) 0))) acc < p by
    exact h (k + 1) 0 hp
  intro n
  induction n with
  | zero => intro acc h; simpa using h
  | succ n ih =>
    intro acc h
    rw [List.range_succ, List.foldl_append, List.foldl_cons, List.foldl_nil]
    exact Add_lt p _ _ hp (ih acc h) (Mul_lt p _ _ hp)

theorem MulPoly_spec (p : ℕ) (a b : List ℕ) :
    toPoly p (MulPoly p a b) = toPoly p a * toPoly p b := by
  unfold MulPoly
  split
  · rename_i h
    rw [List.length_eq_zero.mp h.1, List.length_eq_zero.mp h.2]
    simp [toPoly]
  · rename_i h
    rw [toPoly_trim]
    apply Polynomial.ext
    intro k
    rw [toPoly_coeff, rangeMap_getD, Polynomial.coeff_mul,
      Finset.Nat.sum_antidiagonal_eq_sum_range_succ_mk]
    split
    · rename_i hk
      rw [convCell_cast]
      refine Finset.sum_congr rfl ?_
      intro i _
      rw [toPoly_coeff, toPoly_coeff]
    · rename_i hk
      rw [Nat.cast_zero]
      symm
      apply Finset.sum_eq_zero
      intro i hi
      rw [Finset.mem_range] at hi
      simp only
      by_cases hia : i < a.length
      · have hb : b.length ≤ k - i := by omega
        rw [toPoly_coeff, toPoly_coeff, List.getD_eq_default b 0 hb, Nat.cast_zero, mul_zero]
      · rw [toPoly_coeff, toPoly_coeff, List.getD_eq_default a 0 (by omega), Nat.cast_zero,
          zero_mul]

theorem MulPoly_reduced (p : ℕ) (hp : 0 < p) (a b : List ℕ) :
    Reduced p (MulPoly p a b) := by
  unfold MulPoly
  split
  · intro x hx
    simp at hx
  · apply trim_reduced
    intro x hx
    rw [List.mem_map] at hx
    obtain ⟨i, _, rfl⟩ := hx
    exact convCell_lt p hp a b i

theorem toPoly_map_mul (p : ℕ) (c : ℕ) : ∀ (l : List ℕ),
    toPoly p (l.map (fun x => Mul p c x)) = Polynomial.C (c : ZMod p) * toPoly p l := by
  intro l
  induction l with
  | nil => simp [toPoly]
  | cons a t ih =>
    rw [List.map_cons, toPoly_cons, toPoly_cons, ih, castMul]
    rw [Polynomial.C_mul]
    ring

theorem monomialMultPoly_spec (p : ℕ) (c d : ℕ) (l : List ℕ) :
    toPoly p (monomialMultPoly p c d l) =
      Polynomial.C (c : ZMod p) * Polynomial.X ^ d * toPoly p l := by
  unfold monomialMultPoly
  rw [toPoly_append, toPoly_map_mul]
  have hz : toPoly p (List.replicate d (0 : ℕ)) = 0 :=
    toPoly_eq_zero_of_all_mod p _ (by intro x hx; rw [List.eq_of_mem_replicate hx]; simp)
  rw [hz, List.length_replicate]
  ring

theorem monomialMultPoly_reduced (p : ℕ) (hp : 0 < p) (c d : ℕ) (l : List ℕ) :
    Reduced p (monomialMultPoly p c d l) := by
  intro x hx
  unfold monomialMultPoly at hx
  rw [List.mem_append] at hx
  rcases hx with hx | hx
  · rw [List.eq_of_mem_replicate hx]
    exact hp
  · rw [List.mem_map] at hx
    obtain ⟨y, _, rfl⟩ := hx
    exact Mul_lt p _ _ hp

theorem Evaluate_cast (p : ℕ) (x : ℕ) : ∀ (a : List ℕ),
    ((Evaluate p a x : ℕ) : ZMod p) = (toPoly p a).eval (x : ZMod p) := by
  intro a
  induction a with
  | nil => simp [Evaluate, toPoly]
  | cons c t ih =>
    unfold Evaluate at ih ⊢
    rw [List.foldr_cons, castAdd, castMul, ih, toPoly_cons]
    simp

theorem Evaluate_lt (p : ℕ) (hp : 0 < p) (x : ℕ) : ∀ (a : List ℕ),
    Reduced p a → Evaluate p a x < p := by
  intro a
  induction a with
  | nil => intro _; simpa [Evaluate] using hp
  | cons c t ih =>
    intro h
    unfold Evaluate at ih ⊢
    rw [List.foldr_cons]
    exact Add_lt p _ _ hp (h c (List.mem_cons_self c t)) (Mul_lt p _ _ hp)

theorem getD_take (l : List ℕ) (n i : ℕ) (h : i < n) :
    (l.take n).getD i 0 = l.getD i 0 := by
  by_cases hl : i < l.length
  · rw [List.getD_eq_getElem _ 0 (by simp; omega), List.getD_eq_getElem _ 0 hl]
    exact List.getElem_take l
  · rw [List.getD_eq_default _ 0 (by simp; omega), List.getD_eq_default _ 0 (by omega)]

/-! ### Claim C9: behaviour of `IsZero` -/

/-- C9.  `Polynomial.IsZero` returns `true` exactly when every
coefficient strictly below the leading (highest non-zero) position is
zero; in particular it accepts every non-zero constant `[c]` and every
monomial `c·x^k` with `c ≠ 0`, not only the zero polynomial (`Decode`'s
remainder test calls this predicate). -/
theorem isZero_below_leading_only :
    (∀ l : List ℕ, IsZero l = true ↔
      ∀ i j : ℕ, leadingCoeffPos l = some j → i < j → l.getD i 0 = 0) ∧
    (∀ c : ℕ, c ≠ 0 → IsZero [c] = true) ∧
    (∀ c k : ℕ, c ≠ 0 → IsZero (List.replicate k 0 ++ [c]) = true) := by
  have main : ∀ l : List ℕ, IsZero l = true ↔
      ∀ i j : ℕ, leadingCoeffPos l = some j → i < j → l.getD i 0 = 0 := by
    intro l
    unfold IsZero
    split
    · rename_i h
      rw [List.length_eq_zero.mp h]
      simp [leadingCoeffPos]
    · split
      · rename_i h0 h1
        obtain ⟨a, rfl⟩ := List.length_eq_one.mp h1.1
        have ha : a = 0 := by simpa using h1.2
        subst ha
        simp [leadingCoeffPos]
      · rcases hm : leadingCoeffPos l with _ | pos
        · simp [hm]
        · simp only [hm, Option.some.injEq]
          rw [List.all_eq_true]
          have hpos := (leadingCoeffPos_spec l pos hm).1
          constructor
          · intro hall i j hj hij
            subst hj
            have hmem : l.getD i 0 ∈ l.take pos := by
              rw [← getD_take l pos i hij]
              exact getD_mem_of_lt _ _ (by simp; omega)
            simpa using hall _ hmem
          · intro hforall x hx
            rw [List.mem_iff_getElem] at hx
            obtain ⟨i, hi, rfl⟩ := hx
            have hipos : i < pos := by
              rw [List.length_take] at hi
              omega
            have := hforall i pos rfl hipos
            rw [← getD_take l pos i hipos, List.getD_eq_getElem _ 0 hi] at this
            simpa using this
  refine ⟨main, ?_, ?_⟩
  · intro c hc
    rw [main [c]]
    intro i j hj hij
    have : leadingCoeffPos [c] = some 0 := by
      apply leadingCoeffPos_eq_some
      · simpa using hc
      · intro k hk
        exact List.getD_eq_default _ 0 (by simp; omega)
    rw [this] at hj
    have := Option.some_injective _ hj
    omega
  · intro c k hc
    rw [main _]
    intro i j hj hij
    have hlead : leadingCoeffPos (List.replicate k 0 ++ [c]) = some k := by
      apply leadingCoeffPos_eq_some
      · rw [List.getD_eq_getElem _ 0 (by simp)]
        rw [List.getElem_append_right (by simp)]
        simpa using hc
      · intro j' hj'
        exact List.getD_eq_default _ 0 (by simp; omega)
    rw [hlead] at hj
    have hjk := Option.some_injective _ hj
    subst hjk
    rw [List.getD_eq_getElem _ 0 (by simp; omega), List.getElem_append_left (by simp; omega)]
    simp

/-- Witness for C9 at concrete inputs: the non-zero constant `5` and the
monomial `7·x^2` both pass the `IsZero` test. -/
theorem isZero_below_leading_only_witness :
    IsZero [5] = true ∧ IsZero [0, 0, 7] = true :=
  ⟨isZero_below_leading_only.2.1 5 (by decide),
   isZero_below_leading_only.2.2 7 2 (by decide)⟩

/-! ### Claim C8: the NTT locator polynomial -/

/-- C8 counterexample: over `F_5` with `n = 2` the generated locator is
the vector `[1, 0, 4]`, the polynomial `1 - x^2`, which is not
`x^2 - 1`. -/
theorem nttLocator_ne_xn_sub_one :
    ¬ (toPoly 5 (NttGenerateLocatorPolynomial 5 2) = Polynomial.X ^ 2 - 1) := by
  intro h
  have h0 := congrArg (fun q => Polynomial.coeff q 0) h
  simp only at h0
  rw [toPoly_coeff] at h0
  have hval : (NttGenerateLocatorPolynomial 5 2).getD 0 0 = 1 := rfl
  rw [hval] at h0
  rw [Polynomial.coeff_sub, Polynomial.coeff_X_pow, Polynomial.coeff_one] at h0
  norm_num at h0
  exact absurd h0 (by decide)

/-- C8 (amended).  For `n ≥ 1` the NTT locator is the coefficient vector
`[1, 0, …, 0, p-1]` of length `n+1` (index 0 the constant term), which
is the polynomial `1 - x^n = -(x^n - 1)`, not `x^n - 1`. -/
theorem nttLocator_spec (p n : ℕ) (hp : 2 ≤ p) (hn : 1 ≤ n) :
    NttGenerateLocatorPolynomial p n = 1 :: (List.replicate (n - 1) 0 ++ [p - 1]) ∧
    toPoly p (NttGenerateLocatorPolynomial p n) = 1 - Polynomial.X ^ n := by
  have hneg : Neg p 1 = p - 1 := by
    unfold Neg
    norm_num
  have hform : NttGenerateLocatorPolynomial p n = 1 :: (List.replicate (n - 1) 0 ++ [p - 1]) := by
    unfold NttGenerateLocatorPolynomial
    rw [if_neg (by omega), hneg]
  refine ⟨hform, ?_⟩
  rw [hform, toPoly_cons, toPoly_append]
  have hrep : toPoly p (List.replicate (n - 1) (0 : ℕ)) = 0 :=
    toPoly_eq_zero_of_all_mod p _ (by intro x hx; rw [List.eq_of_mem_replicate hx]; simp)
  have hc : toPoly p [p - 1] = Polynomial.C ((p - 1 : ℕ) : ZMod p) := by
    rw [toPoly_cons, toPoly_nil, mul_zero, add_zero]
  have hcast : ((p - 1 : ℕ) : ZMod p) = -1 := by
    rw [Nat.cast_sub (by omega), ZMod.natCast_self, Nat.cast_one]
    ring
  rw [hrep, hc, hcast, List.length_replicate]
  have hx : Polynomial.X * (Polynomial.X ^ (n - 1) * Polynomial.C (-1 : ZMod p)) =
      -(Polynomial.X ^ n) := by
    rw [map_neg, Polynomial.C_1]
    have : (1 : ℕ) + (n - 1) = n := by omega
    calc Polynomial.X * (Polynomial.X ^ (n - 1) * -1)
        = -(Polynomial.X ^ 1 * Polynomial.X ^ (n - 1)) := by ring
      _ = -(Polynomial.X ^ (1 + (n - 1))) := by rw [pow_add]
      _ = -(Polynomial.X ^ n) := by rw [this]
  rw [zero_add, hx, Nat.cast_one, Polynomial.C_1, ← sub_eq_add_neg]

/-- Witness for C8 (amended) at `p = 5`, `n = 2`. -/
theorem nttLocator_spec_witness :
    NttGenerateLocatorPolynomial 5 2 = [1, 0, 4] ∧
    toPoly 5 (NttGenerateLocatorPolynomial 5 2) = 1 - Polynomial.X ^ 2 :=
  ⟨(nttLocator_spec 5 2 (by norm_num) (by norm_num)).1,
   (nttLocator_spec 5 2 (by norm_num) (by norm_num)).2⟩

/-! ### Claim C3: the decoding-failure condition -/

/-- C3 counterexample: a reachable decode over `F_5` (`N = 3`, `K = 1`,
received values `0, 1, 3` at the points `1, 2, 3`) whose long-division
remainder is `[4]`, a non-zero polynomial, yet `Decode` succeeds because
`IsZero [4]` is `true`. -/
theorem decodeSlow_succeeds_with_nonzero_remainder :
    decodeGeneric 5 3 1 (slowGenerateLocatorPolynomial 5 3) (EvaluationPoints 3) [0, 1, 3] =
      some (Except.ok ([2], [4])) ∧
    toPoly 5 [4] ≠ 0 ∧
    DecodeSlow 5 3 1 [(1, 0), (2, 1), (3, 3)] = some (Except.ok [2]) := by
  refine ⟨rfl, ?_, rfl⟩
  intro h
  have h0 := congrArg (fun q => Polynomial.coeff q 0) h
  simp only at h0
  rw [toPoly_coeff] at h0
  have hval : ([4] : List ℕ).getD 0 0 = 4 := rfl
  rw [hval, Polynomial.coeff_zero] at h0
  exact absurd h0 (by decide)

/-- C3 (amended).  Once the decode pipeline reaches `(f, r)`, Decode
fails with the `Decoding` error if and only if the `IsZero` test of `r`
fails or `deg f > K`; `IsZero` also accepts non-zero remainders whose
coefficients below the leading position vanish, and in exactly the
remaining case Decode returns the coefficients of `f`. -/
theorem decodeSlow_error_iff (p N K : ℕ) (received : GoMap) (m : GoMap)
    (ys f r : List ℕ)
    (hprep : prepareDecoding N K (EvaluationPoints N) received = Except.ok (m, ys))
    (htail : decodeGeneric p N K (slowGenerateLocatorPolynomial p N)
      (EvaluationPoints N) ys = some (Except.ok (f, r))) :
    (DecodeSlow p N K received = some (Except.error GaoErr.Decoding) ↔
      (¬ IsZero r ∨ Degree f > (K : ℤ))) ∧
    (DecodeSlow p N K received = some (Except.ok f) ↔
      ¬ (¬ IsZero r ∨ Degree f > (K : ℤ))) := by
  unfold DecodeSlow
  rw [hprep]
  dsimp only
  rw [htail]
  dsimp only
  by_cases h : ¬ IsZero r ∨ Degree f > (K : ℤ)
  · rw [if_pos h]
    refine ⟨⟨fun _ => h, fun _ => rfl⟩, ⟨?_, fun hc => absurd h hc⟩⟩
    intro hc
    have := Option.some_injective _ hc
    exact absurd this (by intro h2; exact Except.noConfusion h2)
  · rw [if_neg h]
    refine ⟨⟨?_, fun hc => absurd hc h⟩, ⟨fun _ => h, fun _ => rfl⟩⟩
    intro hc
    have := Option.some_injective _ hc
    exact absurd this (by intro h2; exact Except.noConfusion h2)

/-- Witness for C3 (amended) at the concrete instance above. -/
theorem decodeSlow_error_iff_witness :
    (DecodeSlow 5 3 1 [(1, 0), (2, 1), (3, 3)] = some (Except.error GaoErr.Decoding) ↔
      (¬ IsZero [4] ∨ Degree [2] > (1 : ℤ))) ∧
    (DecodeSlow 5 3 1 [(1, 0), (2, 1), (3, 3)] = some (Except.ok [2]) ↔
      ¬ (¬ IsZero [4] ∨ Degree [2] > (1 : ℤ))) :=
  decodeSlow_error_iff 5 3 1 [(1, 0), (2, 1), (3, 3)]
    [(1, 0), (2, 1), (3, 3)] [0, 1, 3] [2] [4] rfl rfl

/-! ### Claim C5: `LongDivNTT` versus `LongDiv` -/

/-- C5.  At `a = 2`, `b = x^3` over `F_7` (so `deg a < deg b`),
`LongDivNTT` returns quotient `0` and remainder `a` as the specification
demands, but `LongDiv` computes `make([]uint64, n-m+1)` with length
`-2` and panics, so the two functions do not agree. -/
theorem longDivNTT_vs_longDiv_at_low_degree :
    LongDivNTT 7 3 [2] [0, 0, 0, 1] = some ([0], [2]) ∧
    LongDiv 7 [2] [0, 0, 0, 1] = none :=
  ⟨rfl, rfl⟩

/-! ### Claim C1: decoding after erasures -/

/-- C1.  Encoding the all-zero message (`p = 5`, `N = 3`, `K = 1`,
`maxErrors = 1`) and erasing one point makes `Decode` panic (modelled
`none`): the interpolant is the zero vector, the partial EEA returns
cofactor `v = [0]`, and `LongDiv` asks for the inverse of its zero
leading coefficient.  The claim demands that Decode succeed with `[0]`. -/
theorem decodeSlow_erasure_panics_on_zero_data :
    EncodeSlow 5 3 1 [0] = Except.ok [(1, 0), (2, 0), (3, 0)] ∧
    DecodeSlow 5 3 1 [(2, 0), (3, 0)] = none :=
  ⟨rfl, rfl⟩

/-! ### Claim C10: the frame effect of `prepareDecoding` -/

theorem mapLookup_append_of_some (m1 m2 : GoMap) (k v : ℕ)
    (h : mapLookup m1 k = some v) : mapLookup (m1 ++ m2) k = some v := by
  unfold mapLookup at h ⊢
  rw [List.find?_append]
  rcases hf : m1.find? (fun kv => kv.1 == k) with _ | kv
  · rw [hf] at h
    exact absurd h (by simp)
  · rw [hf] at h ⊢
    exact h

theorem mapLookup_append_of_none (m1 m2 : GoMap) (k : ℕ)
    (h : mapLookup m1 k = none) : mapLookup (m1 ++ m2) k = mapLookup m2 k := by
  unfold mapLookup at h ⊢
  rw [List.find?_append]
  rcases hf : m1.find? (fun kv => kv.1 == k) with _ | kv
  · rw [hf, Option.none_or]
  · rw [hf] at h
    simp at h

theorem mapLookup_none_iff (m : GoMap) (k : ℕ) :
    mapLookup m k = none ↔ k ∉ m.map Prod.fst := by
  unfold mapLookup
  rw [Option.map_eq_none', List.find?_eq_none]
  constructor
  · intro h hk
    rw [List.mem_map] at hk
    obtain ⟨kv, hkv, hfst⟩ := hk
    have := h kv hkv
    simp [hfst] at this
  · intro h kv hkv
    simp only [beq_iff_eq]
    intro hc
    exact h (List.mem_map.mpr ⟨kv, hkv, hc⟩)

theorem mapLookup_insertList (ks : List ℕ) (x : ℕ) :
    mapLookup (ks.map (fun k => (k, 0))) x = if x ∈ ks then some 0 else none := by
  induction ks with
  | nil => simp [mapLookup]
  | cons a t ih =>
    rw [List.map_cons]
    have hsplit : (a, 0) :: t.map (fun k => (k, 0)) = [(a, 0)] ++ t.map (fun k => (k, 0)) := rfl
    by_cases hax : a = x
    · subst hax
      have : mapLookup ((a, 0) :: t.map (fun k => (k, 0))) a = some 0 := by
        unfold mapLookup
        simp
      rw [this, if_pos (List.mem_cons_self a t)]
    · have h1 : mapLookup [(a, 0)] x = none := by
        unfold mapLookup
        simp [hax]
      rw [hsplit, mapLookup_append_of_none _ _ _ h1, ih]
      by_cases hxt : x ∈ t
      · rw [if_pos hxt, if_pos (List.mem_cons_of_mem a hxt)]
      · rw [if_neg hxt, if_neg (by rw [List.mem_cons]; tauto)]

/-- One missing point extends the map by `(x, 0)` and leaves every other
lookup unchanged. -/
theorem mapLookup_snoc_other (m : GoMap) (x y : ℕ) (hxy : y ≠ x) :
    mapLookup (m ++ [(x, 0)]) y = mapLookup m y := by
  have h1 : mapLookup [(x, 0)] y = none := by
    unfold mapLookup
    simp [Ne.symm hxy]
  rcases hv : mapLookup m y with _ | v
  · rw [mapLookup_append_of_none _ _ _ hv, h1]
  · rw [mapLookup_append_of_some _ _ _ _ hv]

theorem fillMissing_go (xs : List ℕ) (hxs : xs.Nodup) : ∀ (m : GoMap) (c : ℕ),
    xs.foldl
      (fun acc x =>
        if (mapLookup acc.1 x).isNone then (acc.1 ++ [(x, 0)], acc.2 + 1) else acc)
      (m, c) =
    (m ++ (xs.filter (fun x => (mapLookup m x).isNone)).map (fun x => (x, 0)),
     c + (xs.filter (fun x => (mapLookup m x).isNone)).length) := by
  induction xs with
  | nil => intro m c; simp
  | cons x rest ih =>
    intro m c
    rw [List.foldl_cons]
    have hnd := (List.nodup_cons.mp hxs).2
    have hxrest := (List.nodup_cons.mp hxs).1
    by_cases hx : (mapLookup m x).isNone
    · rw [if_pos hx]
      rw [ih hnd (m ++ [(x, 0)]) (c + 1)]
      have hfilter : rest.filter (fun y => (mapLookup (m ++ [(x, 0)]) y).isNone) =
          rest.filter (fun y => (mapLookup m y).isNone) := by
        apply List.filter_congr
        intro y hy
        rw [mapLookup_snoc_other m x y (fun h => hxrest (h ▸ hy))]
      rw [hfilter]
      have hconsfilter : (x :: rest).filter (fun y => (mapLookup m y).isNone) =
          x :: rest.filter (fun y => (mapLookup m y).isNone) := by
        rw [List.filter_cons_of_pos (by simpa using hx)]
      rw [hconsfilter, List.map_cons, List.append_assoc, Prod.mk.injEq]
      refine ⟨rfl, ?_⟩
      rw [List.length_cons]
      omega
    · rw [if_neg hx]
      rw [ih hnd m c]
      have hconsfilter : (x :: rest).filter (fun y => (mapLookup m y).isNone) =
          rest.filter (fun y => (mapLookup m y).isNone) := by
        rw [List.filter_cons_of_neg (by simpa using hx)]
      rw [hconsfilter]

/-- C10 counterexample: with `N = 3`, `K = 1`, the received map
`{99:1, 1:1, 2:1}` passes both checks (3 points, 1 missing), `Decode`
completes, and the caller's map afterwards holds 4 entries, not `N`. -/
theorem prepareDecoding_alien_key_size :
    prepareDecoding 3 1 (EvaluationPoints 3) [(99, 1), (1, 1), (2, 1)] =
      Except.ok ([(99, 1), (1, 1), (2, 1), (3, 0)], [1, 1, 0]) ∧
    DecodeSlow 5 3 1 [(99, 1), (1, 1), (2, 1)] = some (Except.ok [1]) ∧
    ([(99, 1), (1, 1), (2, 1), (3, 0)] : GoMap).length ≠ 3 :=
  ⟨rfl, rfl, by decide⟩

/-- C10 (amended).  When both checks pass, `prepareDecoding` hands back
the caller's map extended with `(x, 0)` for exactly the missing
evaluation points: existing entries are untouched, the new size is
`|received| + #missing`, and it equals `N` whenever every original key
is an evaluation point — with alien keys the map exceeds `N` entries. -/
theorem prepareDecoding_frame (N K : ℕ) (xs : List ℕ) (received : GoMap)
    (hxs : xs.Nodup) (hxslen : xs.length = N)
    (hlen : received.length ≤ N)
    (hmiss : (xs.filter (fun x => (mapLookup received x).isNone)).length ≤ maxErrors N K) :
    prepareDecoding N K xs received = Except.ok
      (received ++ (xs.filter (fun x => (mapLookup received x).isNone)).map (fun x => (x, 0)),
       xs.map (fun x => (mapLookup received x).getD 0)) ∧
    (received ++ (xs.filter (fun x => (mapLookup received x).isNone)).map
        (fun x => (x, 0))).length =
      received.length + (xs.filter (fun x => (mapLookup received x).isNone)).length ∧
    (∀ k v, mapLookup received k = some v →
      mapLookup (received ++ (xs.filter (fun x => (mapLookup received x).isNone)).map
        (fun x => (x, 0))) k = some v) ∧
    ((received.map Prod.fst).Nodup → (∀ k ∈ received.map Prod.fst, k ∈ xs) →
      (received ++ (xs.filter (fun x => (mapLookup received x).isNone)).map
        (fun x => (x, 0))).length = N) := by
  set filled := received ++ (xs.filter (fun x => (mapLookup received x).isNone)).map
    (fun x => (x, 0)) with hfilled
  have hlookup_present : ∀ k v, mapLookup received k = some v → mapLookup filled k = some v :=
    fun k v hkv => mapLookup_append_of_some _ _ _ _ hkv
  have hlookup_all : ∀ x ∈ xs, mapLookup filled x = some ((mapLookup received x).getD 0) := by
    intro x hx
    rcases hv : mapLookup received x with _ | v
    · have hmem : x ∈ xs.filter (fun y => (mapLookup received y).isNone) :=
        List.mem_filter.mpr ⟨hx, by simp [hv]⟩
      rw [hfilled, mapLookup_append_of_none _ _ _ hv, mapLookup_insertList, if_pos hmem]
      rfl
    · rw [hlookup_present x v hv]
      rfl
  have hmain : prepareDecoding N K xs received = Except.ok
      (filled, xs.map (fun x => (mapLookup received x).getD 0)) := by
    unfold prepareDecoding fillMissing
    rw [if_neg (by omega)]
    rw [fillMissing_go xs hxs received 0]
    simp only [Nat.zero_add]
    rw [if_neg (by omega)]
    congr 1
    congr 1
    apply List.map_congr_left
    intro x hx
    rw [hlookup_all x hx]
    rfl
  have hsize : filled.length = received.length +
      (xs.filter (fun x => (mapLookup received x).isNone)).length := by
    rw [hfilled, List.length_append, List.length_map]
  refine ⟨hmain, hsize, hlookup_present, ?_⟩
  intro hnd hsub
  rw [hsize]
  have hsplit := List.length_eq_length_filter_add
    (l := xs) (fun x => (mapLookup received x).isNone)
  have hiff : ∀ x, (!(mapLookup received x).isNone) = true ↔ x ∈ received.map Prod.fst := by
    intro x
    rcases hv : mapLookup received x with _ | v
    · simp only [hv, Option.isNone_none, Bool.not_true]
      constructor
      · intro h
        exact absurd h (by decide)
      · intro h
        exact absurd h ((mapLookup_none_iff received x).mp hv)
    · constructor
      · intro _
        by_contra hc
        rw [← mapLookup_none_iff] at hc
        rw [hv] at hc
        exact Option.noConfusion hc
      · intro _
        simp [hv]
  have hfeq : xs.filter (fun x => !(mapLookup received x).isNone) =
      xs.filter (fun x => decide (x ∈ received.map Prod.fst)) := by
    apply List.filter_congr
    intro x _
    rw [Bool.eq_iff_iff, decide_eq_true_eq]
    exact hiff x
  have hpresent : (xs.filter (fun x => !(mapLookup received x).isNone)).length =
      received.length := by
    rw [hfeq]
    have h1 : (xs.filter (fun x => decide (x ∈ received.map Prod.fst))).Nodup :=
      hxs.filter _
    have hperm : List.Perm (xs.filter (fun x => decide (x ∈ received.map Prod.fst)))
        (received.map Prod.fst) := by
      apply List.perm_of_nodup_nodup_toFinset_eq h1 hnd
      apply Finset.ext
      intro a
      simp only [List.mem_toFinset, List.mem_filter, decide_eq_true_eq]
      constructor
      · intro h
        exact h.2
      · intro h
        exact ⟨hsub a h, h⟩
    rw [hperm.length_eq, List.length_map]
  omega

/-! ### Degree bookkeeping for the division proofs -/

theorem leadingCoeffPos_eq_none_iff_getD (l : List ℕ) :
    leadingCoeffPos l = none ↔ ∀ j, l.getD j 0 = 0 := by
  rw [leadingCoeffPos_eq_none_iff]
  constructor
  · intro h j
    by_cases hj : j < l.length
    · exact h _ (getD_mem_of_lt l j hj)
    · exact List.getD_eq_default l 0 (by omega)
  · intro h x hx
    rw [List.mem_iff_getElem] at hx
    obtain ⟨i, hi, rfl⟩ := hx
    rw [← List.getD_eq_getElem l 0 hi]
    exact h i

theorem leadingCoeffPos_congr (l l' : List ℕ)
    (h : ∀ j, l.getD j 0 = l'.getD j 0) : leadingCoeffPos l = leadingCoeffPos l' := by
  rcases hm : leadingCoeffPos l with _ | i
  · symm
    rw [leadingCoeffPos_eq_none_iff_getD] at hm ⊢
    intro j
    rw [← h j]
    exact hm j
  · obtain ⟨h1, h2, h3⟩ := leadingCoeffPos_spec l i hm
    symm
    apply leadingCoeffPos_eq_some
    · rw [← h i]
      exact h2
    · intro j hj
      rw [← h j]
      exact h3 j hj

theorem Degree_of_some (l : List ℕ) (i : ℕ) (h : leadingCoeffPos l = some i) :
    Degree l = (i : ℤ) := by
  unfold Degree
  rw [h]

theorem Degree_of_none (l : List ℕ) (h : leadingCoeffPos l = none) :
    Degree l = -(2 ^ 63) := by
  unfold Degree
  rw [h]

theorem Degree_eq_coe_iff (l : List ℕ) (i : ℕ) :
    Degree l = (i : ℤ) ↔ leadingCoeffPos l = some i := by
  rcases hm : leadingCoeffPos l with _ | k
  · rw [Degree_of_none l hm]
    constructor
    · intro h
      exfalso
      omega
    · intro h
      exact absurd h (by simp)
  · rw [Degree_of_some l k hm]
    constructor
    · intro h
      have : k = i := by exact_mod_cast h
      rw [← this]
    · intro h
      have : k = i := Option.some_injective _ h
      exact_mod_cast this

theorem Degree_neg_iff (l : List ℕ) : Degree l < 0 ↔ leadingCoeffPos l = none := by
  rcases hm : leadingCoeffPos l with _ | k
  · rw [Degree_of_none l hm]
    constructor <;> intro <;> first | rfl | omega
  · rw [Degree_of_some l k hm]
    constructor
    · intro h
      exfalso
      omega
    · intro h
      exact absurd h (by simp)

theorem getD_eq_zero_of_Degree_lt (l : List ℕ) (j : ℕ) (h : Degree l < (j : ℤ)) :
    l.getD j 0 = 0 := by
  rcases hm : leadingCoeffPos l with _ | k
  · exact (leadingCoeffPos_eq_none_iff_getD l).mp hm j
  · obtain ⟨_, _, h3⟩ := leadingCoeffPos_spec l k hm
    apply h3
    rw [Degree_of_some l k hm] at h
    exact_mod_cast h

theorem Degree_lt_of_getD_eq_zero (l : List ℕ) (d : ℕ)
    (h : ∀ j, d ≤ j → l.getD j 0 = 0) : Degree l < (d : ℤ) := by
  rcases hm : leadingCoeffPos l with _ | k
  · rw [Degree_of_none l hm]
    have h1 : (0 : ℤ) ≤ (d : ℤ) := by positivity
    have h2 : (0 : ℤ) < 2 ^ 63 := by positivity
    omega
  · rw [Degree_of_some l k hm]
    obtain ⟨_, h2, _⟩ := leadingCoeffPos_spec l k hm
    by_contra hc
    push_neg at hc
    exact h2 (h k (by exact_mod_cast hc))

theorem Degree_nonneg_cases (l : List ℕ) (h : 0 ≤ Degree l) :
    ∃ i : ℕ, leadingCoeffPos l = some i ∧ Degree l = (i : ℤ) := by
  rcases hm : leadingCoeffPos l with _ | k
  · rw [Degree_of_none l hm] at h
    exfalso
    have h2 : (0 : ℤ) < 2 ^ 63 := by positivity
    omega
  · exact ⟨k, rfl, Degree_of_some l k hm⟩

/-- For a reduced vector the embedded polynomial is non-zero exactly
when some raw coefficient is, and its `natDegree` is `leadingCoeffPos`. -/
theorem natDegree_toPoly (p : ℕ) (l : List ℕ) (hl : Reduced p l) (i : ℕ)
    (hp : 0 < p) (hm : leadingCoeffPos l = some i) :
    toPoly p l ≠ 0 ∧ (toPoly p l).natDegree = i ∧
      (toPoly p l).coeff i = ((l.getD i 0 : ℕ) : ZMod p) := by
  obtain ⟨h1, h2, h3⟩ := leadingCoeffPos_spec l i hm
  have hcast : ((l.getD i 0 : ℕ) : ZMod p) ≠ 0 := by
    intro hc
    obtain ⟨c, hc2⟩ := (ZMod.natCast_zmod_eq_zero_iff_dvd _ p).mp hc
    have hlt : l.getD i 0 < p := hl _ (getD_mem_of_lt l i h1)
    rcases c with _ | c
    · omega
    · nlinarith
  have hne : toPoly p l ≠ 0 := by
    intro hc
    have := toPoly_coeff p l i
    rw [hc] at this
    simp only [Polynomial.coeff_zero] at this
    exact hcast this.symm
  refine ⟨hne, ?_, toPoly_coeff p l i⟩
  apply le_antisymm
  · rw [Polynomial.natDegree_le_iff_coeff_eq_zero]
    intro j hj
    rw [toPoly_coeff, h3 j hj, Nat.cast_zero]
  · apply Polynomial.le_natDegree_of_ne_zero
    rw [toPoly_coeff]
    exact hcast

theorem toPoly_eq_zero_of_leadingCoeffPos_none (p : ℕ) (l : List ℕ)
    (hm : leadingCoeffPos l = none) : toPoly p l = 0 := by
  apply toPoly_eq_zero_of_all_mod
  intro x hx
  rw [(leadingCoeffPos_eq_none_iff l).mp hm x hx]
  simp

theorem toPoly_removeLeadingZeroes (p : ℕ) (l : List ℕ) :
    toPoly p (removeLeadingZeroes l) = toPoly p l := by
  unfold removeLeadingZeroes
  rcases hm : leadingCoeffPos l with _ | i
  · rw [toPoly_eq_zero_of_leadingCoeffPos_none p l hm]
    simp [toPoly]
  · obtain ⟨h1, _, h3⟩ := leadingCoeffPos_spec l i hm
    conv_rhs => rw [← List.take_append_drop (i + 1) l]
    rw [toPoly_append]
    have hdrop : toPoly p (l.drop (i + 1)) = 0 := by
      apply toPoly_eq_zero_of_all_mod
      intro x hx
      rw [List.mem_iff_getElem] at hx
      obtain ⟨k, hk, rfl⟩ := hx
      rw [List.getElem_drop]
      have : l.getD (i + 1 + k) 0 = 0 := h3 _ (by omega)
      rw [List.getD_eq_getElem l 0 (by rw [List.length_drop] at hk; omega)] at this
      rw [this]
      simp
    rw [hdrop, mul_zero, add_zero]

theorem removeLeadingZeroes_reduced (p : ℕ) (hp : 0 < p) (l : List ℕ)
    (hl : Reduced p l) : Reduced p (removeLeadingZeroes l) := by
  unfold removeLeadingZeroes
  rcases leadingCoeffPos l with _ | i
  · intro x hx
    rw [List.mem_singleton] at hx
    omega
  · intro x hx
    exact hl x (List.mem_of_mem_take hx)

theorem Degree_trim (p : ℕ) (l : List ℕ) (hl : Reduced p l) :
    Degree (trimTrailingZeros p l) = Degree l := by
  unfold Degree
  rw [leadingCoeffPos_congr _ l (trim_getD p l hl)]

theorem SubPoly_getD (p : ℕ) (hp : 0 < p) (a b : List ℕ) (j : ℕ) :
    (SubPoly p a b).getD j 0 =
      if j < max a.length b.length then Sub p (a.getD j 0 % p) (b.getD j 0 % p) else 0 := by
  unfold SubPoly
  rw [trim_getD p _ (by
    intro x hx
    rw [List.mem_map] at hx
    obtain ⟨i, _, rfl⟩ := hx
    exact Sub_lt p _ _ hp (Reduce_lt p _ hp) (Reduce_lt p _ hp)), rangeMap_getD]
  rfl

theorem monomialMultPoly_getD (p : ℕ) (c i : ℕ) (b : List ℕ) (j : ℕ) :
    (monomialMultPoly p c i b).getD j 0 =
      if j < i then 0 else Mul p c (b.getD (j - i) 0) := by
  unfold monomialMultPoly
  by_cases hj : j < i
  · rw [if_pos hj]
    rw [List.getD_append _ _ _ _ (by simpa using hj)]
    rw [List.getD_eq_getElem _ 0 (by simpa using hj), List.getElem_replicate]
  · rw [if_neg hj]
    rw [List.getD_append_right _ _ _ _ (by simp; omega), List.length_replicate]
    by_cases hb : j - i < b.length
    · rw [List.getD_eq_getElem _ 0 (by simpa using hb), List.getElem_map,
        ← List.getD_eq_getElem b 0 hb]
    · rw [List.getD_eq_default _ 0 (by simp; omega), List.getD_eq_default b 0 (by omega)]
      simp [Mul]

theorem LeadCoeff_of_some (l : List ℕ) (i : ℕ) (h : leadingCoeffPos l = some i) :
    LeadCoeff l = l.getD i 0 := by
  unfold LeadCoeff
  rw [h]

theorem eq_zero_of_cast_zero (p x : ℕ) (hx : x < p) (h : (x : ZMod p) = 0) : x = 0 := by
  obtain ⟨c, hc⟩ := (ZMod.natCast_zmod_eq_zero_iff_dvd x p).mp h
  rcases c with _ | c
  · omega
  · nlinarith

theorem Sub_zero_zero (p : ℕ) : Sub p 0 0 = 0 := by
  unfold Sub
  norm_num

theorem Mul_zero_right (p c : ℕ) : Mul p c 0 = 0 := by
  unfold Mul
  rw [if_pos (Or.inr rfl)]

/-- One elimination step of the long-division loop: when the remainder
has degree exactly `mb + i`, subtracting `q_i x^i b` with
`q_i = lead(rem) * u` kills the top coefficient. -/
theorem longDivStep (p : ℕ) (hp : p.Prime) (b : List ℕ) (hb : Reduced p b) (mb : ℕ)
    (hlead : leadingCoeffPos b = some mb) (u : ℕ)
    (huinv : (u : ZMod p) * ((b.getD mb 0 : ℕ) : ZMod p) = 1)
    (i : ℕ) (rem : List ℕ) (hrem : Reduced p rem)
    (hdeg : Degree rem = (mb : ℤ) + (i : ℕ)) :
    Reduced p (SubPoly p rem (monomialMultPoly p (Mul p (LeadCoeff rem) u) i b)) ∧
    toPoly p rem =
      Polynomial.C ((Mul p (LeadCoeff rem) u : ℕ) : ZMod p) * Polynomial.X ^ i * toPoly p b +
      toPoly p (SubPoly p rem (monomialMultPoly p (Mul p (LeadCoeff rem) u) i b)) ∧
    Degree (SubPoly p rem (monomialMultPoly p (Mul p (LeadCoeff rem) u) i b)) <
      (mb : ℤ) + (i : ℕ) := by
  have hp0 : 0 < p := hp.pos
  set qi := Mul p (LeadCoeff rem) u with hqi
  set mono := monomialMultPoly p qi i b with hmono
  set rem1 := SubPoly p rem mono with hrem1
  have hredmono : Reduced p mono := monomialMultPoly_reduced p hp0 qi i b
  have hred1 : Reduced p rem1 := SubPoly_reduced p hp0 rem mono
  have hpos : leadingCoeffPos rem = some (mb + i) := by
    rw [← Degree_eq_coe_iff]
    push_cast
    exact hdeg
  have hleadrem : LeadCoeff rem = rem.getD (mb + i) 0 := LeadCoeff_of_some rem _ hpos
  obtain ⟨hb1, hb2, hb3⟩ := leadingCoeffPos_spec b mb hlead
  refine ⟨hred1, ?_, ?_⟩
  · rw [hrem1, SubPoly_spec p hp0, hmono, monomialMultPoly_spec]
    ring
  · have hzero : ∀ j, mb + i ≤ j → rem1.getD j 0 = 0 := by
      intro j hj
      rw [hrem1, SubPoly_getD p hp0]
      split
      · rcases Nat.lt_or_ge (mb + i) j with hgt | hle
        · have hr : rem.getD j 0 = 0 :=
            getD_eq_zero_of_Degree_lt rem j (by rw [hdeg]; exact_mod_cast hgt)
          have hm : mono.getD j 0 = 0 := by
            rw [hmono, monomialMultPoly_getD, if_neg (by omega)]
            rw [hb3 (j - i) (by omega), Mul_zero_right]
          rw [hr, hm, Nat.zero_mod, Sub_zero_zero]
        · have hji : j = mb + i := by omega
          subst hji
          have hm : mono.getD (mb + i) 0 = Mul p qi (b.getD mb 0) := by
            rw [hmono, monomialMultPoly_getD, if_neg (by omega), Nat.add_sub_cancel]
          set v := Sub p (rem.getD (mb + i) 0 % p) (mono.getD (mb + i) 0 % p) with hv
          have hvlt : v < p := Sub_lt p _ _ hp0 (Nat.mod_lt _ hp0) (Nat.mod_lt _ hp0)
          have hvcast : ((v : ℕ) : ZMod p) = 0 := by
            rw [hv, castSub _ _ _ (Nat.mod_lt _ hp0), ZMod.natCast_mod, ZMod.natCast_mod,
              hm, castMul, hqi, castMul, hleadrem]
            have : ((rem.getD (mb + i) 0 : ℕ) : ZMod p) * u *
                ((b.getD mb 0 : ℕ) : ZMod p) =
                ((rem.getD (mb + i) 0 : ℕ) : ZMod p) *
                  ((u : ZMod p) * ((b.getD mb 0 : ℕ) : ZMod p)) := by ring
            rw [this, huinv, mul_one, sub_self]
          exact eq_zero_of_cast_zero p v hvlt hvcast
      · rfl
    have := Degree_lt_of_getD_eq_zero rem1 (mb + i) hzero
    exact lt_of_lt_of_le this (by push_cast; omega)

/-- Main loop invariant of `LongDiv`: running `qlen = i + 1` iterations on
a remainder of degree at most `mb + i` yields reduced quotient and
remainder with `a = q * b + r` and `deg r < deg b`. -/
theorem longDivLoop_spec (p : ℕ) (hp : p.Prime) (b : List ℕ) (hb : Reduced p b) (mb : ℕ)
    (hlead : leadingCoeffPos b = some mb) (u : ℕ)
    (huinv : (u : ZMod p) * ((b.getD mb 0 : ℕ) : ZMod p) = 1) :
    ∀ (i : ℕ) (rem : List ℕ), Reduced p rem → Degree rem ≤ (mb : ℤ) + (i : ℕ) →
      Reduced p (longDivLoop p b u (mb : ℤ) i rem).2 ∧
      (longDivLoop p b u (mb : ℤ) i rem).1.length = i + 1 ∧
      Reduced p (longDivLoop p b u (mb : ℤ) i rem).1 ∧
      toPoly p rem =
        toPoly p (longDivLoop p b u (mb : ℤ) i rem).1 * toPoly p b +
        toPoly p (longDivLoop p b u (mb : ℤ) i rem).2 ∧
      Degree (longDivLoop p b u (mb : ℤ) i rem).2 < (mb : ℤ) := by
  have hp0 : 0 < p := hp.pos
  intro i
  induction i with
  | zero =>
    intro rem hrem hdegle
    simp only [longDivLoop]
    by_cases h : Degree rem = (mb : ℤ)
    · rw [if_pos h]
      dsimp only
      obtain ⟨s1, s2, s3⟩ := longDivStep p hp b hb mb hlead u huinv 0 rem hrem (by simpa using h)
      refine ⟨s1, rfl, ?_, ?_, ?_⟩
      · intro x hx
        rw [List.mem_singleton] at hx
        subst hx
        exact Mul_lt p _ _ hp0
      · rw [s2, toPoly_cons, toPoly_nil]
        ring
      · simpa using s3
    · rw [if_neg h]
      dsimp only
      refine ⟨hrem, rfl, ?_, ?_, ?_⟩
      · intro x hx
        rw [List.mem_singleton] at hx
        subst hx
        exact hp0
      · simp [toPoly_cons, toPoly_nil]
      · push_cast at hdegle
        omega
  | succ i IH =>
    intro rem hrem hdegle
    simp only [longDivLoop]
    by_cases h : Degree rem = (mb : ℤ) + ((i + 1 : ℕ) : ℤ)
    · rw [if_pos h]
      dsimp only
      obtain ⟨s1, s2, s3⟩ := longDivStep p hp b hb mb hlead u huinv (i + 1) rem hrem h
      have hdeg' : Degree
          (SubPoly p rem (monomialMultPoly p (Mul p (LeadCoeff rem) u) (i + 1) b)) ≤
          (mb : ℤ) + (i : ℕ) := by
        push_cast at s3 ⊢
        omega
      obtain ⟨r1, r2, r3, r4, r5⟩ := IH _ s1 hdeg'
      rcases hrec : longDivLoop p b u (mb : ℤ) i
          (SubPoly p rem (monomialMultPoly p (Mul p (LeadCoeff rem) u) (i + 1) b))
        with ⟨ql, rem2⟩
      rw [hrec] at r1 r2 r3 r4 r5
      dsimp only at r1 r2 r3 r4 r5 ⊢
      refine ⟨r1, by simp [r2], ?_, ?_, r5⟩
      · intro x hx
        rcases List.mem_append.mp hx with hx | hx
        · exact r3 x hx
        · rw [List.mem_singleton] at hx
          subst hx
          exact Mul_lt p _ _ hp0
      · rw [s2, r4, toPoly_append, r2, toPoly_cons, toPoly_nil]
        ring
    · rw [if_neg h]
      dsimp only
      have hdeg' : Degree rem ≤ (mb : ℤ) + (i : ℕ) := by
        push_cast at hdegle h ⊢
        omega
      obtain ⟨r1, r2, r3, r4, r5⟩ := IH rem hrem hdeg'
      rcases hrec : longDivLoop p b u (mb : ℤ) i rem with ⟨ql, rem2⟩
      rw [hrec] at r1 r2 r3 r4 r5
      dsimp only at r1 r2 r3 r4 r5 ⊢
      refine ⟨r1, by simp [r2], ?_, ?_, r5⟩
      · intro x hx
        rcases List.mem_append.mp hx with hx | hx
        · exact r3 x hx
        · rw [List.mem_singleton] at hx
          subst hx
          exact hp0
      · rw [r4, toPoly_append, r2, toPoly_cons, toPoly_nil]
        push_cast
        rw [Polynomial.C_0]
        ring

/-- C4 counterexample: `LongDiv(1, x^2)` over `F_5` has `b ≠ 0` and
`deg(a) < deg(b)`, yet the call does not return any `(q, r)`: the Go
code computes `make([]uint64, n-m+1)` with negative length `-1` and
panics (modelled by `none`). -/
theorem longDiv_none_on_low_degree : LongDiv 5 [1] [0, 0, 1] = none := rfl

/-- C4 (amended): for reduced `a, b` over a prime field with `b` having a
leading coefficient (so `b` is not the zero polynomial) and
`deg(b) ≤ deg(a) + 1` — the extra hypothesis the code needs to avoid the
negative-length panic — `LongDiv(a, b)` returns reduced `(q, r)` with
`a = q·b + r` and `deg(r) < deg(b)` over `Z/p`. -/
theorem LongDiv_spec (p : ℕ) (hp : p.Prime) (a b : List ℕ)
    (ha : Reduced p a) (hb : Reduced p b) (mb : ℕ)
    (hlead : leadingCoeffPos b = some mb)
    (hdegab : Degree b ≤ Degree a + 1) :
    ∃ q r, LongDiv p a b = some (q, r) ∧ Reduced p q ∧ Reduced p r ∧
      toPoly p a = toPoly p q * toPoly p b + toPoly p r ∧
      Degree r < Degree b := by
  have hp0 : 0 < p := hp.pos
  obtain ⟨hb1, hb2, hb3⟩ := leadingCoeffPos_spec b mb hlead
  have hLC : LeadCoeff b = b.getD mb 0 := LeadCoeff_of_some b mb hlead
  have hblt : b.getD mb 0 < p := hb _ (getD_mem_of_lt b mb hb1)
  obtain ⟨u, hu, hult, huinv⟩ := Inverse_spec p (b.getD mb 0) hp hblt hb2
  have hm : Degree b = (mb : ℤ) := Degree_of_some b mb hlead
  have hcond : ¬ (Degree a + 1 < (mb : ℤ)) := by omega
  by_cases hq0 : (Degree a - (mb : ℤ) + 1).toNat = 0
  · have hLD : LongDiv p a b = some ([0], trimTrailingZeros p a) := by
      unfold LongDiv
      rw [hLC, hu]
      dsimp only
      rw [hm, if_neg hcond, if_pos hq0]
    refine ⟨[0], trimTrailingZeros p a, hLD, ?_, trim_reduced p a ha, ?_, ?_⟩
    · intro x hx
      rw [List.mem_singleton] at hx
      subst hx
      exact hp0
    · rw [toPoly_trim, toPoly_cons, toPoly_nil]
      push_cast
      rw [Polynomial.C_0]
      ring
    · rw [Degree_trim p a ha]
      omega
  · have hdegle : Degree a ≤ (mb : ℤ) + (((Degree a - (mb : ℤ) + 1).toNat - 1 : ℕ) : ℤ) := by
      omega
    obtain ⟨r1, r2, r3, r4, r5⟩ := longDivLoop_spec p hp b hb mb hlead u huinv
      ((Degree a - (mb : ℤ) + 1).toNat - 1) a ha hdegle
    rcases hrec : longDivLoop p b u (mb : ℤ) ((Degree a - (mb : ℤ) + 1).toNat - 1) a
      with ⟨ql, rem⟩
    rw [hrec] at r1 r2 r3 r4 r5
    dsimp only at r1 r2 r3 r4 r5
    have hLD : LongDiv p a b =
        some (removeLeadingZeroes ql, trimTrailingZeros p rem) := by
      unfold LongDiv
      rw [hLC, hu]
      dsimp only
      rw [hm, if_neg hcond, if_neg hq0, hrec]
    refine ⟨_, _, hLD, removeLeadingZeroes_reduced p hp0 ql r3, trim_reduced p rem r1, ?_, ?_⟩
    · rw [toPoly_removeLeadingZeroes, toPoly_trim]
      exact r4
    · rw [Degree_trim p rem r1, hm]
      exact r5

/-- Witness for C4 (amended): dividing `x^2 + 4x + 2` by `x + 3` over
`F_5`. -/
theorem LongDiv_spec_witness :
    ∃ q r, LongDiv 5 [2, 4, 1] [3, 1] = some (q, r) ∧ Reduced 5 q ∧ Reduced 5 r ∧
      toPoly 5 [2, 4, 1] = toPoly 5 q * toPoly 5 [3, 1] + toPoly 5 r ∧
      Degree r < Degree [3, 1] :=
  LongDiv_spec 5 (by norm_num) [2, 4, 1] [3, 1]
    (by intro x hx; fin_cases hx <;> norm_num)
    (by intro x hx; fin_cases hx <;> norm_num) 1 (by decide) (by decide)

theorem Degree_lt_length (l : List ℕ) : Degree l < (l.length : ℤ) := by
  rcases hm : leadingCoeffPos l with _ | k
  · rw [Degree_of_none l hm]
    have : (0 : ℤ) ≤ (l.length : ℤ) := by positivity
    omega
  · rw [Degree_of_some l k hm]
    obtain ⟨h1, _, _⟩ := leadingCoeffPos_spec l k hm
    exact_mod_cast h1

/-- Loop invariant of `PartialExtendedEuclidean`: if `A` and `B` satisfy
the Bezout identities for cofactors `(x0, y0)` and `(x1, y1)`, with
`deg B ≤ deg A + 1` and enough fuel for the strictly decreasing `deg B`,
the loop returns `(g, x, y)` with `g = x·a + y·b`. -/
theorem peeLoop_spec (p : ℕ) (hp : p.Prime) (a b : List ℕ) (stopDegree : ℤ) :
    ∀ (fuel : ℕ) (A B x0 x1 y0 y1 : List ℕ),
      Reduced p A → Reduced p B → Reduced p x0 → Reduced p x1 →
      Reduced p y0 → Reduced p y1 →
      toPoly p A = toPoly p x0 * toPoly p a + toPoly p y0 * toPoly p b →
      toPoly p B = toPoly p x1 * toPoly p a + toPoly p y1 * toPoly p b →
      Degree B ≤ Degree A + 1 →
      1 ≤ fuel →
      Degree B < (fuel : ℤ) - 1 →
      ∃ g x y, peeLoop p stopDegree fuel A B x0 x1 y0 y1 = some (g, x, y) ∧
        Reduced p g ∧ Reduced p x ∧ Reduced p y ∧
        toPoly p g = toPoly p x * toPoly p a + toPoly p y * toPoly p b := by
  have hp0 : 0 < p := hp.pos
  intro fuel
  induction fuel with
  | zero =>
    intro A B x0 x1 y0 y1 _ _ _ _ _ _ _ _ _ hone _
    omega
  | succ f IH =>
    intro A B x0 x1 y0 y1 hA hB hx0 hx1 hy0 hy1 hbezA hbezB hBA hone hfuel
    simp only [peeLoop]
    by_cases hstop : Degree A ≥ stopDegree
    · rw [if_pos hstop]
      by_cases hBneg : Degree B < 0
      · rw [if_pos hBneg]
        exact ⟨A, x0, y0, rfl, hA, hx0, hy0, hbezA⟩
      · rw [if_neg hBneg]
        push_neg at hBneg
        obtain ⟨mbB, hleadB, hdegB⟩ := Degree_nonneg_cases B hBneg
        obtain ⟨q, rrem, hLD, hqred, hrred, hqeq, hdegr⟩ :=
          LongDiv_spec p hp A B hA hB mbB hleadB hBA
        rw [hLD]
        dsimp only
        apply IH B rrem x1 (SubPoly p x0 (MulPoly p q x1)) y1
          (SubPoly p y0 (MulPoly p q y1)) hB hrred hx1
          (SubPoly_reduced p hp0 _ _) hy1 (SubPoly_reduced p hp0 _ _) hbezB
          ?_ (by omega) (by omega) (by omega)
        have hr : toPoly p rrem = toPoly p A - toPoly p q * toPoly p B := by
          rw [hqeq]
          ring
        rw [hr, SubPoly_spec p hp0, SubPoly_spec p hp0, MulPoly_spec, MulPoly_spec,
          hbezA, hbezB]
        ring
    · rw [if_neg hstop]
      exact ⟨A, x0, y0, rfl, hA, hx0, hy0, hbezA⟩

/-- C7 counterexample: `PartialExtendedEuclidean(x, x^3, 1)` over `F_5`
has `stopDegree = 1` in `[1, maxDeg)`, yet the call does not return any
`(g, x, y)`: the first division `LongDiv(x, x^3)` hits the
negative-length `make` panic (modelled by `none`). -/
theorem pee_none_at_x_cubed : PartialExtendedEuclidean 5 [0, 1] [0, 0, 0, 1] 1 = none := rfl

/-- C7 (amended): for reduced `a, b` over a prime field with
`deg(b) ≤ deg(a) + 1` — the hypothesis the inner `LongDiv` needs on the
first iteration — `PartialExtendedEuclidean(a, b, stopDegree)` returns
`(g, x, y)` with `g = x·a + y·b` over `Z/p`, for every `stopDegree`. -/
theorem PartialExtendedEuclidean_spec (p : ℕ) (hp : p.Prime) (a b : List ℕ)
    (ha : Reduced p a) (hb : Reduced p b) (stopDegree : ℤ)
    (hdeg : Degree b ≤ Degree a + 1) :
    ∃ g x y, PartialExtendedEuclidean p a b stopDegree = some (g, x, y) ∧
      Reduced p g ∧ Reduced p x ∧ Reduced p y ∧
      toPoly p g = toPoly p x * toPoly p a + toPoly p y * toPoly p b := by
  have hp0 : 0 < p := hp.pos
  have hred1 : Reduced p (makeConstantPoly 1) := by
    intro x hx
    rw [makeConstantPoly, List.mem_singleton] at hx
    subst hx
    exact hp.one_lt
  have hred0 : Reduced p (makeConstantPoly 0) := by
    intro x hx
    rw [makeConstantPoly, List.mem_singleton] at hx
    subst hx
    exact hp0
  have h1 : toPoly p (makeConstantPoly 1) = 1 := by
    rw [makeConstantPoly, toPoly_cons, toPoly_nil]
    push_cast
    rw [Polynomial.C_1]
    ring
  have h0 : toPoly p (makeConstantPoly 0) = 0 := by
    rw [makeConstantPoly, toPoly_cons, toPoly_nil]
    push_cast
    rw [Polynomial.C_0]
    ring
  unfold PartialExtendedEuclidean
  apply peeLoop_spec p hp a b stopDegree (b.length + 2) a b
    (makeConstantPoly 1) (makeConstantPoly 0) (makeConstantPoly 0) (makeConstantPoly 1)
    ha hb hred1 hred0 hred0 hred1 (by rw [h1, h0]; ring) (by rw [h1, h0]; ring)
    hdeg (by omega)
  have := Degree_lt_length b
  push_cast
  omega

/-- Witness for C7 (amended): `a = x^2 + 1`, `b = x + 2` over `F_5`,
`stopDegree = 1`. -/
theorem PartialExtendedEuclidean_spec_witness :
    ∃ g x y, PartialExtendedEuclidean 5 [1, 0, 1] [2, 1] 1 = some (g, x, y) ∧
      Reduced 5 g ∧ Reduced 5 x ∧ Reduced 5 y ∧
      toPoly 5 g = toPoly 5 x * toPoly 5 [1, 0, 1] + toPoly 5 y * toPoly 5 [2, 1] :=
  PartialExtendedEuclidean_spec 5 (by norm_num) [1, 0, 1] [2, 1]
    (by intro x hx; fin_cases hx <;> norm_num)
    (by intro x hx; fin_cases hx <;> norm_num) 1 (by decide)

/-- C2: over `F_5` with `N = 3`, `K = 2`, encoding `data = [1]` and
decoding the unmodified map succeeds but returns `[1]`, the trimmed
coefficient slice of length `deg(f) + 1 = 1`, not `data` padded with
zeros to length `K = 2`: the claimed round-trip output length is wrong
whenever the interpolant has degree `< K - 1`. -/
theorem decodeSlow_roundtrip_not_padded :
    EncodeSlow 5 3 2 [1] = Except.ok [(1, 1), (2, 1), (3, 1)] ∧
    DecodeSlow 5 3 2 [(1, 1), (2, 1), (3, 1)] = some (Except.ok [1]) ∧
    ¬ DecodeSlow 5 3 2 [(1, 1), (2, 1), (3, 1)] = some (Except.ok [1, 0]) := by
  refine ⟨rfl, rfl, ?_⟩
  intro h
  have hd : DecodeSlow 5 3 2 [(1, 1), (2, 1), (3, 1)] = some (Except.ok [1]) := rfl
  rw [hd] at h
  have h3 : (Except.ok [1] : Except GaoErr (List ℕ)) = Except.ok [1, 0] :=
    Option.some.inj h
  have h4 : ([1] : List ℕ) = [1, 0] := by injection h3
  exact absurd h4 (by decide)

theorem bitrev_lt : ∀ k i, bitrev k i < 2^k
  | 0, _ => by simp [bitrev]
  | k + 1, i => by
    unfold bitrev
    have h1 : i % 2 ≤ 1 := by omega
    have h2 : bitrev k (i / 2) < 2^k := bitrev_lt k (i / 2)
    have h3 : 2^(k+1) = 2^k * 2 := by ring
    nlinarith

theorem bitrev_msb : ∀ k j, j < 2^(k+1) →
    bitrev (k+1) j = 2 * bitrev k (j % 2^k) + j / 2^k
  | 0, j, h => by
    simp only [bitrev, pow_zero, Nat.mod_one, Nat.div_one, one_mul]
    omega
  | k + 1, j, h => by
    have hj2 : j / 2 < 2^(k+1) := by
      have : 2^(k+2) = 2^(k+1) * 2 := by ring
      omega
    have IH := bitrev_msb k (j / 2) hj2
    show 2^(k+1) * (j % 2) + bitrev (k+1) (j / 2) = _
    rw [IH]
    have e1 : j % 2^(k+1) % 2 = j % 2 :=
      Nat.mod_mod_of_dvd j ⟨2^k, by ring⟩
    have e2 : j / 2 % 2^k = j % 2^(k+1) / 2 := by
      rw [Nat.div_mod_eq_mod_mul_div]
      congr 1
      ring
    have e3 : j / 2 / 2^k = j / 2^(k+1) := by
      rw [Nat.div_div_eq_div_mul]
      congr 1
      ring
    show _ = 2 * bitrev (k+1) (j % 2^(k+1)) + j / 2^(k+1)
    show _ = 2 * (2^k * (j % 2^(k+1) % 2) + bitrev k (j % 2^(k+1) / 2)) + j / 2^(k+1)
    rw [e1, ← e2, ← e3]
    ring

theorem bitrev_even (k t : ℕ) (h : t < 2^k) : bitrev (k+1) t = 2 * bitrev k t := by
  rw [bitrev_msb k t (by have : 2^k ≤ 2^(k+1) := Nat.pow_le_pow_right (by norm_num) (by omega); omega)]
  rw [Nat.mod_eq_of_lt h, Nat.div_eq_of_lt h]
  omega

theorem bitrev_odd (k t : ℕ) (h : t < 2^k) :
    bitrev (k+1) (2^k + t) = 2 * bitrev k t + 1 := by
  have hlt : 2^k + t < 2^(k+1) := by
    have : 2^(k+1) = 2^k * 2 := by ring
    omega
  rw [bitrev_msb k _ hlt]
  have e1 : (2^k + t) % 2^k = t := by
    rw [Nat.add_mod_left, Nat.mod_eq_of_lt h]
  have e2 : (2^k + t) / 2^k = 1 := by
    rw [Nat.add_div_left _ (Nat.pos_pow_of_pos k (by norm_num)), Nat.div_eq_of_lt h]
  rw [e1, e2]

theorem bitrev_invol : ∀ k i, i < 2^k → bitrev k (bitrev k i) = i
  | 0, i, h => by
    simp only [pow_zero] at h
    interval_cases i
    rfl
  | k + 1, i, h => by
    have hb : bitrev k (i / 2) < 2^k := bitrev_lt k (i / 2)
    show bitrev (k+1) (2^k * (i % 2) + bitrev k (i / 2)) = i
    rcases Nat.mod_two_eq_zero_or_one i with h2 | h2
    · rw [h2, mul_zero, zero_add, bitrev_even k _ hb,
        bitrev_invol k (i / 2) (by
          have : 2^(k+1) = 2^k * 2 := by ring
          omega)]
      omega
    · rw [h2, mul_one, bitrev_odd k _ hb,
        bitrev_invol k (i / 2) (by
          have : 2^(k+1) = 2^k * 2 := by ring
          omega)]
      omega



theorem bitrev_zero : ∀ k, bitrev k 0 = 0
  | 0 => rfl
  | k + 1 => by
    show 2^k * (0 % 2) + bitrev k (0 / 2) = 0
    simp [bitrev_zero k]

theorem key_decomp (a K : ℕ) (h : a < 2^K) (j : ℕ) :
    (2^K + a).testBit j = if j < K then a.testBit j else Nat.testBit 1 (j - K) := by
  have := Nat.testBit_mul_pow_two_add 1 h j
  rwa [mul_one] at this

theorem or_top (a K : ℕ) (h : a < 2^K) : a ||| 2^K = a + 2^K := by
  apply Nat.eq_of_testBit_eq
  intro j
  rw [Nat.testBit_or, Nat.add_comm a (2^K), key_decomp a K h j]
  rcases Nat.lt_trichotomy j K with hj | hj | hj
  · rw [if_pos hj, Nat.testBit_two_pow_of_ne (by omega), Bool.or_false]
  · subst hj
    rw [if_neg (by omega), Nat.sub_self, Nat.testBit_two_pow_self,
      Nat.testBit_lt_two_pow h]
    rfl
  · rw [if_neg (by omega), Nat.testBit_two_pow_of_ne (by omega),
      Nat.testBit_lt_two_pow (show a < 2^j by
        calc a < 2^K := h
        _ ≤ 2^j := Nat.pow_le_pow_right (by norm_num) (by omega)),
      Nat.testBit_lt_two_pow (show (1:ℕ) < 2^(j-K) by
        rw [Nat.one_lt_two_pow_iff]; omega)]
    rfl

theorem and_top_of_lt (a K : ℕ) (h : a < 2^K) : a &&& 2^K = 0 := by
  rw [Nat.and_two_pow, Nat.testBit_lt_two_pow h]
  simp

theorem and_top_of_top (a K : ℕ) (h : a < 2^K) : (2^K + a) &&& 2^K ≠ 0 := by
  rw [Nat.and_two_pow, key_decomp a K h K, if_neg (by omega), Nat.sub_self]
  have h1 : Nat.testBit 1 0 = true := rfl
  rw [h1]
  simp

theorem xor_top (a K : ℕ) (h : a < 2^K) : (2^K + a) ^^^ 2^K = a := by
  apply Nat.eq_of_testBit_eq
  intro j
  rw [Nat.testBit_xor, key_decomp a K h j]
  rcases Nat.lt_trichotomy j K with hj | hj | hj
  · rw [if_pos hj, Nat.testBit_two_pow_of_ne (by omega), Bool.xor_false]
  · subst hj
    rw [if_neg (by omega), Nat.sub_self, Nat.testBit_two_pow_self,
      Nat.testBit_lt_two_pow h]
    rfl
  · rw [if_neg (by omega), Nat.testBit_two_pow_of_ne (by omega),
      Nat.testBit_lt_two_pow (show a < 2^j by
        calc a < 2^K := h
        _ ≤ 2^j := Nat.pow_le_pow_right (by norm_num) (by omega)),
      Nat.testBit_lt_two_pow (show (1:ℕ) < 2^(j-K) by
        rw [Nat.one_lt_two_pow_iff]; omega)]
    rfl

/-- Correctness of the carry-propagation step: incrementing `i` in
bit-reversed representation. -/
theorem bitRevStep_correct : ∀ (K fuel i : ℕ), i + 1 < 2^(K+1) → K ≤ fuel →
    bitRevStep fuel (bitrev (K+1) i) (2^K) = bitrev (K+1) (i+1)
  | 0, fuel, i, hi, _ => by
    have hi0 : i = 0 := by
      have : 2^(0+1) = 2 := rfl
      omega
    subst hi0
    rw [bitrev_zero]
    have hb1 : bitrev 1 1 = 1 := rfl
    rcases fuel with _ | f
    · show 0 ||| 2^0 = bitrev 1 1
      rw [hb1]
      rfl
    · show (if 0 &&& 2^0 ≠ 0 then _ else 0 ||| 2^0) = bitrev 1 1
      rw [if_neg (by simp), hb1]
      rfl
  | K + 1, fuel, i, hi, hfuel => by
    rcases Nat.exists_eq_add_of_lt (Nat.lt_of_lt_of_le (Nat.zero_lt_succ K) hfuel)
      with ⟨f, hf⟩
    have hfeq : fuel = f + 1 := by omega
    subst hfeq
    have hhalf : bitrev (K+1) (i / 2) < 2^(K+1) := bitrev_lt (K+1) (i / 2)
    show bitRevStep (f+1) (2^(K+1) * (i % 2) + bitrev (K+1) (i / 2)) (2^(K+1)) = _
    rcases Nat.mod_two_eq_zero_or_one i with h2 | h2
    · rw [h2, mul_zero, zero_add]
      show (if bitrev (K+1) (i/2) &&& 2^(K+1) ≠ 0 then _ else bitrev (K+1) (i/2) ||| 2^(K+1)) = _
      rw [if_neg (by rw [and_top_of_lt _ _ hhalf]; simp), or_top _ _ hhalf]
      show _ = 2^(K+1) * ((i+1) % 2) + bitrev (K+1) ((i+1) / 2)
      have e1 : (i+1) % 2 = 1 := by omega
      have e2 : (i+1) / 2 = i / 2 := by omega
      rw [e1, e2, mul_one]
      omega
    · rw [h2, mul_one]
      show (if (2^(K+1) + bitrev (K+1) (i/2)) &&& 2^(K+1) ≠ 0 then
          bitRevStep f ((2^(K+1) + bitrev (K+1) (i/2)) ^^^ 2^(K+1)) (2^(K+1) >>> 1)
        else _) = _
      rw [if_pos (and_top_of_top _ _ hhalf), xor_top _ _ hhalf]
      have e3 : 2^(K+1) >>> 1 = 2^K := by
        rw [Nat.shiftRight_eq_div_pow]
        rw [pow_succ, pow_one, Nat.mul_div_cancel _ (by norm_num)]
      rw [e3]
      have hrec := bitRevStep_correct K f (i / 2) (by omega) (by omega)
      rw [hrec]
      show _ = 2^(K+1) * ((i+1) % 2) + bitrev (K+1) ((i+1) / 2)
      have e1 : (i+1) % 2 = 0 := by omega
      have e2 : (i+1) / 2 = i / 2 + 1 := by omega
      rw [e1, e2, mul_zero, zero_add]



theorem swapAt_length (l : List ℕ) (i j : ℕ) : (swapAt l i j).length = l.length := by
  unfold swapAt
  rw [List.length_set, List.length_set]

theorem swapAt_getD (l : List ℕ) (i j x : ℕ) (hi : i < l.length) (hj : j < l.length)
    (hx : x < l.length) :
    (swapAt l i j).getD x 0 =
      if x = j then l.getD i 0 else if x = i then l.getD j 0 else l.getD x 0 := by
  unfold swapAt
  have hx1 : x < ((l.set i (l.getD j 0)).set j (l.getD i 0)).length := by
    rw [List.length_set, List.length_set]
    exact hx
  rw [List.getD_eq_getElem _ 0 hx1, List.getElem_set, List.getElem_set,
    List.getD_eq_getElem l 0 hx]
  by_cases hxj : x = j
  · rw [if_pos hxj.symm, if_pos hxj]
  · rw [if_neg (fun hh => hxj hh.symm), if_neg hxj]
    by_cases hxi : x = i
    · rw [if_pos hxi.symm, if_pos hxi]
    · rw [if_neg (fun hh => hxi hh.symm), if_neg hxi]

/-- Main invariant of the in-place bit-reversal loop. -/
theorem bitRevLoop_spec (K : ℕ) (l0 : List ℕ) (hlen0 : l0.length = 2^(K+1)) :
    ∀ (fuel t : ℕ) (l : List ℕ) (j : ℕ),
      2^(K+1) - 1 ≤ t + 1 + fuel →
      t + 1 ≤ 2^(K+1) - 1 →
      j = bitrev (K+1) t →
      l.length = 2^(K+1) →
      (∀ x, x < 2^(K+1) →
        l.getD x 0 = if min x (bitrev (K+1) x) ≤ t then l0.getD (bitrev (K+1) x) 0
          else l0.getD x 0) →
      (bitRevLoop (2^(K+1)) fuel l (t+1) j).length = 2^(K+1) ∧
      ∀ x, x < 2^(K+1) →
        (bitRevLoop (2^(K+1)) fuel l (t+1) j).getD x 0 = l0.getD (bitrev (K+1) x) 0 := by
  intro fuel
  induction fuel with
  | zero =>
    intro t l j hfuel ht hj hlen hinv
    simp only [bitRevLoop]
    refine ⟨hlen, ?_⟩
    intro x hx
    rw [hinv x hx]
    by_cases hmin : min x (bitrev (K+1) x) ≤ t
    · rw [if_pos hmin]
    · rw [if_neg hmin]
      have hrlt := bitrev_lt (K+1) x
      have hrx : bitrev (K+1) x = x := by omega
      rw [hrx]
  | succ f IH =>
    intro t l j hfuel ht hj hlen hinv
    simp only [bitRevLoop]
    by_cases hcont : t + 1 < 2^(K+1) - 1
    · rw [if_pos hcont]
      have hstep : bitRevStep (2^(K+1) >>> 1) j (2^(K+1) >>> 1) = bitrev (K+1) (t+1) := by
        have e : 2^(K+1) >>> 1 = 2^K := by
          rw [Nat.shiftRight_eq_div_pow, pow_succ, pow_one,
            Nat.mul_div_cancel _ (by norm_num)]
        rw [e, hj]
        exact bitRevStep_correct K (2^K) t (by omega) (by
          have := Nat.lt_two_pow K
          omega)
      rw [hstep]
      have hri_lt : bitrev (K+1) (t+1) < 2^(K+1) := bitrev_lt (K+1) (t+1)
      have hinvol : bitrev (K+1) (bitrev (K+1) (t+1)) = t+1 :=
        bitrev_invol (K+1) (t+1) (by omega)
      have hmin_le : ∀ x, x < 2^(K+1) → x ≠ t+1 → bitrev (K+1) x ≠ t+1 →
          (min x (bitrev (K+1) x) ≤ t+1 ↔ min x (bitrev (K+1) x) ≤ t) := by
        intro x hx hxi hrxi
        omega
      have hnew : ∀ x, x < 2^(K+1) →
          (if t+1 < bitrev (K+1) (t+1) then swapAt l (t+1) (bitrev (K+1) (t+1)) else l).getD x 0 =
            if min x (bitrev (K+1) x) ≤ t+1 then l0.getD (bitrev (K+1) x) 0
            else l0.getD x 0 := by
        intro x hx
        by_cases hswap : t+1 < bitrev (K+1) (t+1)
        · rw [if_pos hswap,
            swapAt_getD l (t+1) (bitrev (K+1) (t+1)) x (by omega) (by omega) (by omega)]
          by_cases hxri : x = bitrev (K+1) (t+1)
          · rw [if_pos hxri, hinv (t+1) (by omega), hxri, hinvol]
            rw [if_neg (by omega), if_pos (by omega)]
          · rw [if_neg hxri]
            by_cases hxi : x = t+1
            · rw [if_pos hxi, hinv (bitrev (K+1) (t+1)) (by omega), hinvol, hxi]
              rw [if_neg (by omega), if_pos (by omega)]
            · rw [if_neg hxi, hinv x hx]
              have hrxi : bitrev (K+1) x ≠ t+1 := by
                intro hcontra
                apply hxri
                have hinv2 := bitrev_invol (K+1) x hx
                rw [hcontra] at hinv2
                rw [← hinv2]
              rw [if_congr (hmin_le x hx hxi hrxi) rfl rfl]
        · rw [if_neg hswap]
          push_neg at hswap
          by_cases hxi : x = t+1
          · rw [hinv x hx, hxi]
            rcases Nat.lt_or_ge (bitrev (K+1) (t+1)) (t+1) with hlt | hge
            · rw [if_pos (by omega), if_pos (by omega)]
            · have hrieq : bitrev (K+1) (t+1) = t+1 := by omega
              rw [hrieq, if_neg (by omega), if_pos (by omega)]
          · by_cases hxri : x = bitrev (K+1) (t+1)
            · have hxlt : x < t+1 := by omega
              rw [hinv x hx, hxri, hinvol]
              rw [if_pos (by omega), if_pos (by omega)]
            · rw [hinv x hx]
              have hrxi : bitrev (K+1) x ≠ t+1 := by
                intro hcontra
                apply hxri
                have hinv2 := bitrev_invol (K+1) x hx
                rw [hcontra] at hinv2
                rw [← hinv2]
              rw [if_congr (hmin_le x hx hxi hrxi) rfl rfl]
      have hlen2 : (if t+1 < bitrev (K+1) (t+1) then
          swapAt l (t+1) (bitrev (K+1) (t+1)) else l).length = 2^(K+1) := by
        by_cases hswap : t+1 < bitrev (K+1) (t+1)
        · rw [if_pos hswap, swapAt_length, hlen]
        · rw [if_neg hswap, hlen]
      exact IH (t+1) _ (bitrev (K+1) (t+1)) (by omega) (by omega) rfl hlen2 hnew
    · rw [if_neg hcont]
      refine ⟨hlen, ?_⟩
      intro x hx
      rw [hinv x hx]
      by_cases hmin : min x (bitrev (K+1) x) ≤ t
      · rw [if_pos hmin]
      · rw [if_neg hmin]
        have hrlt := bitrev_lt (K+1) x
        have hrx : bitrev (K+1) x = x := by omega
        rw [hrx]

/-- `bitReverseInPlace` realises the bit-reversal permutation. -/
theorem bitReverseInPlace_spec (K : ℕ) (l : List ℕ) (hlen : l.length = 2^(K+1)) :
    (bitReverseInPlace l).length = 2^(K+1) ∧
    ∀ x, x < 2^(K+1) →
      (bitReverseInPlace l).getD x 0 = l.getD (bitrev (K+1) x) 0 := by
  have hn2 : 2 ≤ 2^(K+1) := by
    have h1 : (2:ℕ)^1 ≤ 2^(K+1) := Nat.pow_le_pow_right (by norm_num) (by omega)
    simpa using h1
  unfold bitReverseInPlace
  rw [if_neg (by omega), hlen]
  have h0 : (0:ℕ) + 1 = 1 := rfl
  have hmain := bitRevLoop_spec K l hlen (2^(K+1)) 0 l 0
    (by omega) (by omega) (by rw [bitrev_zero]) hlen
    (by
      intro x hx
      by_cases hmin : min x (bitrev (K+1) x) ≤ 0
      · rw [if_pos hmin]
        have hx0 : x = 0 := by
          rcases Nat.eq_zero_or_pos x with h | h
          · exact h
          · have hrx0 : bitrev (K+1) x = 0 := by omega
            have hinv2 := bitrev_invol (K+1) x hx
            rw [hrx0, bitrev_zero] at hinv2
            omega
        rw [hx0, bitrev_zero]
      · rw [if_neg hmin])
  rw [h0] at hmain
  exact hmain

theorem twiddleRowAux_length (p wm : ℕ) : ∀ c w, (twiddleRowAux p wm c w).length = c
  | 0, _ => rfl
  | c + 1, w => by
    show (w :: twiddleRowAux p wm c (Mul p w wm)).length = c + 1
    rw [List.length_cons, twiddleRowAux_length p wm c _]

theorem twiddleRowAux_getD (p wm : ℕ) : ∀ c w j, j < c →
    (((twiddleRowAux p wm c w).getD j 0 : ℕ) : ZMod p) = (w : ZMod p) * (wm : ZMod p)^j
  | 0, _, j, hj => absurd hj (by omega)
  | c + 1, w, 0, _ => by
    show ((w : ℕ) : ZMod p) = (w : ZMod p) * (wm : ZMod p)^0
    rw [pow_zero, mul_one]
  | c + 1, w, j + 1, hj => by
    show (((twiddleRowAux p wm c (Mul p w wm)).getD j 0 : ℕ) : ZMod p) = _
    rw [twiddleRowAux_getD p wm c _ j (by omega), castMul]
    ring

theorem twiddleRow_length (p wm half : ℕ) : (twiddleRow p wm half).length = half :=
  twiddleRowAux_length p wm half 1

theorem twiddleRow_getD (p wm half j : ℕ) (hj : j < half) :
    (((twiddleRow p wm half).getD j 0 : ℕ) : ZMod p) = (wm : ZMod p)^j := by
  unfold twiddleRow
  rw [twiddleRowAux_getD p wm half 1 j hj]
  push_cast
  ring

/-- Stage rows of `getTwiddles`: row `e` (counting from stage `s`) holds
the powers of `psi^(n / 2^(s+1+e))`. -/
theorem twiddleLoop_spec (p psi psiInv K : ℕ) :
    ∀ d s fuel, s + d = K → d ≤ fuel →
      (twiddleLoop p psi psiInv (2^K) fuel (2^(s+1))).1.length = d ∧
      (twiddleLoop p psi psiInv (2^K) fuel (2^(s+1))).2.length = d ∧
      ∀ e, e < d →
        (twiddleLoop p psi psiInv (2^K) fuel (2^(s+1))).1.getD e [] =
          twiddleRow p (Pow p psi (2^K / 2^(s+1+e))) (2^(s+e)) ∧
        (twiddleLoop p psi psiInv (2^K) fuel (2^(s+1))).2.getD e [] =
          twiddleRow p (Pow p psiInv (2^K / 2^(s+1+e))) (2^(s+e)) := by
  intro d
  induction d with
  | zero =>
    intro s fuel hsd hfuel
    have hgt : ¬ 2^(s+1) ≤ 2^K := by
      have : (2:ℕ)^K < 2^(s+1) := Nat.pow_lt_pow_right (by norm_num) (by omega)
      omega
    rcases fuel with _ | f
    · exact ⟨rfl, rfl, fun e he => absurd he (by omega)⟩
    · have hstep : twiddleLoop p psi psiInv (2^K) (f+1) (2^(s+1)) = ([], []) := by
        simp only [twiddleLoop]
        rw [if_neg hgt]
      rw [hstep]
      exact ⟨rfl, rfl, fun e he => absurd he (by omega)⟩
  | succ d IH =>
    intro s fuel hsd hfuel
    have hle : 2^(s+1) ≤ 2^K := Nat.pow_le_pow_right (by norm_num) (by omega)
    rcases fuel with _ | f
    · omega
    · have hstep : twiddleLoop p psi psiInv (2^K) (f+1) (2^(s+1)) =
          (twiddleRow p (Pow p psi (2^K / 2^(s+1))) (2^(s+1) >>> 1) ::
            (twiddleLoop p psi psiInv (2^K) f (2^(s+1) <<< 1)).1,
           twiddleRow p (Pow p psiInv (2^K / 2^(s+1))) (2^(s+1) >>> 1) ::
            (twiddleLoop p psi psiInv (2^K) f (2^(s+1) <<< 1)).2) := by
        simp only [twiddleLoop]
        rw [if_pos hle]
      have hshift : 2^(s+1) >>> 1 = 2^s := by
        rw [Nat.shiftRight_eq_div_pow, pow_succ, pow_one,
          Nat.mul_div_cancel _ (by norm_num)]
      have hshl : 2^(s+1) <<< 1 = 2^(s+2) := by
        rw [Nat.shiftLeft_eq, pow_one]
        ring
      rw [hstep, hshift, hshl]
      obtain ⟨ih1, ih2, ih3⟩ := IH (s+1) f (by omega) (by omega)
      refine ⟨by rw [List.length_cons, ih1], by rw [List.length_cons, ih2], ?_⟩
      intro e he
      rcases e with _ | e
      · constructor
        · show twiddleRow p (Pow p psi (2^K / 2^(s+1))) (2^s) = _
          have : s + 1 + 0 = s + 1 := by omega
          rw [this]
          have : s + 0 = s := by omega
          rw [this]
        · show twiddleRow p (Pow p psiInv (2^K / 2^(s+1))) (2^s) = _
          have : s + 1 + 0 = s + 1 := by omega
          rw [this]
          have : s + 0 = s := by omega
          rw [this]
      · obtain ⟨h1, h2⟩ := ih3 e (by omega)
        constructor
        · show (twiddleLoop p psi psiInv (2^K) f (2^(s+2))).1.getD e [] = _
          rw [h1]
          have e1 : s + 1 + 1 + e = s + 1 + (e + 1) := by omega
          have e2 : s + 1 + e = s + (e + 1) := by omega
          rw [e1, e2]
        · show (twiddleLoop p psi psiInv (2^K) f (2^(s+2))).2.getD e [] = _
          rw [h2]
          have e1 : s + 1 + 1 + e = s + 1 + (e + 1) := by omega
          have e2 : s + 1 + e = s + (e + 1) := by omega
          rw [e1, e2]

theorem chunksAux_nil (m : ℕ) : ∀ f, chunksAux m f [] = []
  | 0 => rfl
  | f + 1 => by
    show (if ([] : List ℕ).length = 0 then []
      else List.take m [] :: chunksAux m f (List.drop m [])) = []
    simp

theorem chunksAux_fuel (m : ℕ) (hm : 1 ≤ m) :
    ∀ f f' (l : List ℕ), l.length ≤ f → l.length ≤ f' →
      chunksAux m f l = chunksAux m f' l := by
  intro f
  induction f with
  | zero =>
    intro f' l hf hf'
    have : l = [] := List.length_eq_zero.mp (by omega)
    subst this
    rw [chunksAux_nil, chunksAux_nil]
  | succ f IH =>
    intro f' l hf hf'
    rcases List.eq_nil_or_concat l with rfl | _
    · rw [chunksAux_nil, chunksAux_nil]
    · have hne : l.length ≠ 0 := by
        rename_i h
        obtain ⟨t, a, rfl⟩ := h
        simp
      rcases f' with _ | f'
      · omega
      · show (if l.length = 0 then [] else l.take m :: chunksAux m f (l.drop m)) =
          (if l.length = 0 then [] else l.take m :: chunksAux m f' (l.drop m))
        rw [if_neg hne, if_neg hne]
        congr 1
        exact IH f' (l.drop m) (by rw [List.length_drop]; omega)
          (by rw [List.length_drop]; omega)

theorem chunksAux_exact (m : ℕ) (hm : 1 ≤ m) (l : List ℕ) (hl : l.length = m) :
    chunksAux m l.length l = [l] := by
  rcases hfe : l.length with _ | F
  · omega
  · show (if l.length = 0 then [] else l.take m :: chunksAux m F (l.drop m)) = [l]
    rw [if_neg (by omega), ← hl, List.take_length, List.drop_length, chunksAux_nil]

theorem chunks_split (m : ℕ) (hm : 1 ≤ m) :
    ∀ c (l1 l2 : List ℕ), l1.length = c * m →
      chunksAux m (l1 ++ l2).length (l1 ++ l2) =
        chunksAux m l1.length l1 ++ chunksAux m l2.length l2 := by
  intro c
  induction c with
  | zero =>
    intro l1 l2 h1
    have : l1 = [] := List.length_eq_zero.mp (by omega)
    subst this
    rw [List.nil_append, chunksAux_nil]
    rfl
  | succ c IH =>
    intro l1 l2 h1
    have hlen : (l1 ++ l2).length = l1.length + l2.length := List.length_append l1 l2
    have hpos : 1 ≤ l1.length := by
      rw [h1]
      have : 1 * 1 ≤ (c + 1) * m := Nat.mul_le_mul (by omega) hm
      omega
    rcases hfe : (l1 ++ l2).length with _ | F
    · omega
    · show (if (l1 ++ l2).length = 0 then [] else
        (l1 ++ l2).take m :: chunksAux m F ((l1 ++ l2).drop m)) = _
      rw [if_neg (by omega)]
      have hm1 : m ≤ l1.length := by
        rw [h1]
        calc m = 1 * m := by omega
        _ ≤ (c + 1) * m := Nat.mul_le_mul (by omega) (by omega)
      rw [List.take_append_of_le_length hm1, List.drop_append_of_le_length hm1]
      have IH2 := IH (l1.drop m) l2 (by rw [List.length_drop, h1]; ring_nf; omega)
      have hfuel : chunksAux m F (l1.drop m ++ l2) =
          chunksAux m (l1.drop m ++ l2).length (l1.drop m ++ l2) := by
        apply chunksAux_fuel m hm
        · rw [List.length_append, List.length_drop]
          omega
        · omega
      rw [hfuel, IH2]
      rcases hfe1 : l1.length with _ | F1
      · omega
      · show _ = (if l1.length = 0 then [] else
          l1.take m :: chunksAux m F1 (l1.drop m)) ++ _
        rw [if_neg (by omega)]
        have hfuel1 : chunksAux m (l1.drop m).length (l1.drop m) =
            chunksAux m F1 (l1.drop m) := by
          apply chunksAux_fuel m hm
          · omega
          · rw [List.length_drop]
            omega
        rw [hfuel1]
        rfl



theorem getD_zipWith (f : ℕ → ℕ → ℕ) (a b : List ℕ) (i : ℕ) (ha : i < a.length)
    (hb : i < b.length) :
    (List.zipWith f a b).getD i 0 = f (a.getD i 0) (b.getD i 0) := by
  rw [List.getD_eq_getElem _ 0 (by rw [List.length_zipWith]; omega),
    List.getElem_zipWith, List.getD_eq_getElem a 0 ha, List.getD_eq_getElem b 0 hb]

theorem getD_drop (l : List ℕ) (n i : ℕ) (h : n + i < l.length) :
    (l.drop n).getD i 0 = l.getD (n + i) 0 := by
  rw [List.getD_eq_getElem _ 0 (by rw [List.length_drop]; omega),
    List.getD_eq_getElem l 0 h, List.getElem_drop]

theorem butterflyBlock_length (p half : ℕ) (ws block : List ℕ)
    (hws : ws.length = half) (hb : block.length = 2 * half) :
    (butterflyBlock p half ws block).length = 2 * half := by
  unfold butterflyBlock
  simp only [List.length_append, List.length_zipWith, List.length_take,
    List.length_drop, hws, hb]
  omega

theorem butterflyBlock_getD_lo (p half : ℕ) (ws block : List ℕ)
    (hws : ws.length = half) (hb : block.length = 2 * half) (j : ℕ) (hj : j < half) :
    (butterflyBlock p half ws block).getD j 0 =
      Add p (block.getD j 0) (Mul p (ws.getD j 0) (block.getD (half + j) 0)) := by
  unfold butterflyBlock
  rw [List.getD_append _ _ _ _ (by
    rw [List.length_zipWith, List.length_zipWith, List.length_take, List.length_drop,
      hws, hb]
    omega)]
  rw [getD_zipWith _ _ _ j (by rw [List.length_take]; omega)
    (by rw [List.length_zipWith, List.length_drop]; omega)]
  rw [getD_take _ _ _ hj, getD_zipWith _ _ _ j (by omega)
    (by rw [List.length_drop]; omega)]
  rw [getD_drop _ _ _ (by omega)]

theorem butterflyBlock_getD_hi (p half : ℕ) (ws block : List ℕ)
    (hws : ws.length = half) (hb : block.length = 2 * half) (j : ℕ) (hj : j < half) :
    (butterflyBlock p half ws block).getD (half + j) 0 =
      Sub p (block.getD j 0) (Mul p (ws.getD j 0) (block.getD (half + j) 0)) := by
  unfold butterflyBlock
  have hlen1 : (List.zipWith (fun u t => Add p u t) (block.take half)
      (List.zipWith (fun w v => Mul p w v) ws (block.drop half))).length = half := by
    rw [List.length_zipWith, List.length_zipWith, List.length_take, List.length_drop,
      hws, hb]
    omega
  rw [List.getD_append_right _ _ _ _ (by rw [hlen1]; omega), hlen1]
  have e1 : half + j - half = j := by omega
  rw [e1]
  rw [getD_zipWith _ _ _ j (by rw [List.length_take]; omega)
    (by rw [List.length_zipWith, List.length_drop]; omega)]
  rw [getD_take _ _ _ hj, getD_zipWith _ _ _ j (by omega)
    (by rw [List.length_drop]; omega)]
  rw [getD_drop _ _ _ (by omega)]

theorem butterflyBlock_reduced (p half : ℕ) (hp : 0 < p) (ws block : List ℕ)
    (hred : Reduced p block) :
    Reduced p (butterflyBlock p half ws block) := by
  unfold butterflyBlock
  intro x hx
  rw [List.mem_append] at hx
  have hblock : ∀ u ∈ block.take half, u < p :=
    fun u hu => hred u ((List.take_sublist half block).mem hu)
  rcases hx with hx | hx
  · rw [List.mem_iff_get] at hx
    obtain ⟨n, rfl⟩ := hx
    rw [List.get_eq_getElem, List.getElem_zipWith]
    apply Add_lt p _ _ hp
    · apply hblock
      apply List.getElem_mem
    · rw [List.getElem_zipWith]
      apply Mul_lt p _ _ hp
  · rw [List.mem_iff_get] at hx
    obtain ⟨n, rfl⟩ := hx
    rw [List.get_eq_getElem, List.getElem_zipWith]
    apply Sub_lt p _ _ hp
    · apply hblock
      apply List.getElem_mem
    · rw [List.getElem_zipWith]
      apply Mul_lt p _ _ hp



theorem stageMap_single (p m : ℕ) (hm : 1 ≤ m) (ws l : List ℕ) (hl : l.length = m) :
    stageMap p m ws l = butterflyBlock p (m >>> 1) ws l := by
  unfold stageMap
  rw [chunksAux_exact m hm l hl, List.map_singleton, List.flatten_singleton]

theorem stageMap_append (p m : ℕ) (hm : 1 ≤ m) (ws l1 l2 : List ℕ) (c : ℕ)
    (h1 : l1.length = c * m) :
    stageMap p m ws (l1 ++ l2) = stageMap p m ws l1 ++ stageMap p m ws l2 := by
  unfold stageMap
  rw [chunks_split m hm c l1 l2 h1, List.map_append, List.flatten_append]

theorem stageMap_nil (p m : ℕ) (ws : List ℕ) : stageMap p m ws [] = [] := by
  unfold stageMap
  rw [chunksAux_nil]
  rfl

/-- A full stage preserves length and reducedness when `m = 2 * half`
divides the vector length and the row has length `half`. -/
theorem stageMap_props (p half : ℕ) (hp : 0 < p) (ws : List ℕ) (hws : ws.length = half)
    (hhalf : 1 ≤ half) :
    ∀ c (l : List ℕ), l.length = c * (2 * half) → Reduced p l →
      (stageMap p (2 * half) ws l).length = l.length ∧
      Reduced p (stageMap p (2 * half) ws l) := by
  intro c
  induction c with
  | zero =>
    intro l hl hred
    have : l = [] := List.length_eq_zero.mp (by omega)
    subst this
    rw [stageMap_nil]
    exact ⟨rfl, fun x hx => absurd hx (List.not_mem_nil x)⟩
  | succ c IH =>
    intro l hl hred
    have hm2 : (2:ℕ) * half ≥ 1 := by omega
    have hsplit : l = l.take (2 * half) ++ l.drop (2 * half) := (List.take_append_drop _ l).symm
    have hlen1 : (l.take (2 * half)).length = 2 * half := by
      rw [List.length_take]
      have : 1 * (2 * half) ≤ (c+1) * (2 * half) := Nat.mul_le_mul (by omega) (by omega)
      omega
    have hlen2 : (l.drop (2 * half)).length = c * (2 * half) := by
      rw [List.length_drop, hl]
      ring_nf
      omega
    have hshift : (2 * half) >>> 1 = half := by
      rw [Nat.shiftRight_eq_div_pow, pow_one]
      omega
    have heq : stageMap p (2 * half) ws l =
        butterflyBlock p half ws (l.take (2 * half)) ++
          stageMap p (2 * half) ws (l.drop (2 * half)) := by
      conv_lhs => rw [hsplit]
      rw [stageMap_append p (2 * half) hm2 ws _ _ 1 (by rw [hlen1]; omega),
        stageMap_single p (2 * half) hm2 ws _ hlen1, hshift]
    have hred1 : Reduced p (l.take (2 * half)) :=
      fun x hx => hred x ((List.take_sublist _ l).mem hx)
    have hred2 : Reduced p (l.drop (2 * half)) :=
      fun x hx => hred x ((List.drop_sublist _ l).mem hx)
    obtain ⟨ihlen, ihred⟩ := IH (l.drop (2 * half)) hlen2 hred2
    rw [heq]
    constructor
    · rw [List.length_append, butterflyBlock_length p half ws _ hws hlen1, ihlen,
        List.length_drop, hl]
      have : 1 * (2 * half) ≤ (c+1) * (2 * half) := Nat.mul_le_mul (by omega) (by omega)
      omega
    · intro x hx
      rw [List.mem_append] at hx
      rcases hx with hx | hx
      · exact butterflyBlock_reduced p half hp ws _ hred1 x hx
      · exact ihred x hx



theorem shl_one (a : ℕ) : a <<< 1 = 2 * a := by
  rw [Nat.shiftLeft_eq, pow_one]
  ring

theorem nttStagesLoop_fuel (p : ℕ) (tbl : List (List ℕ)) (K : ℕ) :
    ∀ f f' s (l : List ℕ), K - s ≤ f → K - s ≤ f' →
      nttStagesLoop p (2^K) tbl f s (2^(s+1)) l =
        nttStagesLoop p (2^K) tbl f' s (2^(s+1)) l := by
  intro f
  induction f with
  | zero =>
    intro f' s l hf hf'
    have hgt : ¬ 2^(s+1) ≤ 2^K := by
      have : (2:ℕ)^K < 2^(s+1) := Nat.pow_lt_pow_right (by norm_num) (by omega)
      omega
    rcases f' with _ | f'
    · rfl
    · show l = (if 2^(s+1) ≤ 2^K then _ else l)
      rw [if_neg hgt]
  | succ f IH =>
    intro f' s l hf hf'
    by_cases hs : 2^(s+1) ≤ 2^K
    · have hsK : s < K := by
        by_contra hc
        have : (2:ℕ)^K < 2^(s+1) := Nat.pow_lt_pow_right (by norm_num) (by omega)
        omega
      rcases f' with _ | f'
      · omega
      · show (if 2^(s+1) ≤ 2^K then _ else l) = (if 2^(s+1) ≤ 2^K then _ else l)
        rw [if_pos hs, if_pos hs, shl_one]
        have e : 2 * 2^(s+1) = 2^(s+1+1) := by ring
        rw [e]
        exact IH f' (s+1) _ (by omega) (by omega)
    · rcases f' with _ | f'
      · show (if 2^(s+1) ≤ 2^K then _ else l) = l
        rw [if_neg hs]
      · show (if 2^(s+1) ≤ 2^K then _ else l) = (if 2^(s+1) ≤ 2^K then _ else l)
        rw [if_neg hs, if_neg hs]

theorem nttStagesLoop_append (p K : ℕ) (hp : 0 < p) (tbl : List (List ℕ))
    (htlen : ∀ s, s < K → (tbl.getD s []).length = 2^s) :
    ∀ f s (l1 l2 : List ℕ), l1.length = 2^K → Reduced p l1 →
      nttStagesLoop p (2^K) tbl f s (2^(s+1)) (l1 ++ l2) =
        nttStagesLoop p (2^K) tbl f s (2^(s+1)) l1 ++
          nttStagesLoop p (2^K) tbl f s (2^(s+1)) l2 := by
  intro f
  induction f with
  | zero =>
    intro s l1 l2 h1 hr1
    rfl
  | succ f IH =>
    intro s l1 l2 h1 hr1
    by_cases hs : 2^(s+1) ≤ 2^K
    · have hsK : s < K := by
        by_contra hc
        have : (2:ℕ)^K < 2^(s+1) := Nat.pow_lt_pow_right (by norm_num) (by omega)
        omega
      show (if 2^(s+1) ≤ 2^K then _ else l1 ++ l2) = _
      rw [if_pos hs]
      conv_rhs =>
        rw [show nttStagesLoop p (2^K) tbl (f+1) s (2^(s+1)) l1 =
          if 2^(s+1) ≤ 2^K then nttStagesLoop p (2^K) tbl f (s+1) (2^(s+1) <<< 1)
            (stageMap p (2^(s+1)) (tbl.getD s []) l1) else l1 from rfl]
        rw [show nttStagesLoop p (2^K) tbl (f+1) s (2^(s+1)) l2 =
          if 2^(s+1) ≤ 2^K then nttStagesLoop p (2^K) tbl f (s+1) (2^(s+1) <<< 1)
            (stageMap p (2^(s+1)) (tbl.getD s []) l2) else l2 from rfl]
        rw [if_pos hs, if_pos hs]
      have hc : (2:ℕ)^K = 2^(K-s-1) * 2^(s+1) := by
        rw [← pow_add]
        congr 1
        omega
      have hm2 : (2:ℕ)^(s+1) = 2 * 2^s := by ring
      have hsplit := stageMap_append p (2^(s+1)) (Nat.pos_pow_of_pos _ (by norm_num))
        (tbl.getD s []) l1 l2 (2^(K-s-1)) (by rw [h1, hc])
      rw [hsplit]
      have hprops := stageMap_props p (2^s) hp (tbl.getD s []) (htlen s hsK)
        (Nat.pos_pow_of_pos _ (by norm_num)) (2^(K-s-1)) l1
        (by rw [h1, hc]; ring) hr1
      rw [← hm2] at hprops
      rw [shl_one]
      have e : 2 * 2^(s+1) = 2^(s+1+1) := by ring
      rw [e]
      exact IH (s+1) _ _ (by rw [hprops.1, h1]) hprops.2
    · show (if 2^(s+1) ≤ 2^K then _ else l1 ++ l2) = _
      rw [if_neg hs]
      conv_rhs =>
        rw [show nttStagesLoop p (2^K) tbl (f+1) s (2^(s+1)) l1 =
          if 2^(s+1) ≤ 2^K then nttStagesLoop p (2^K) tbl f (s+1) (2^(s+1) <<< 1)
            (stageMap p (2^(s+1)) (tbl.getD s []) l1) else l1 from rfl]
        rw [show nttStagesLoop p (2^K) tbl (f+1) s (2^(s+1)) l2 =
          if 2^(s+1) ≤ 2^K then nttStagesLoop p (2^K) tbl f (s+1) (2^(s+1) <<< 1)
            (stageMap p (2^(s+1)) (tbl.getD s []) l2) else l2 from rfl]
        rw [if_neg hs, if_neg hs]

theorem nttStagesLoop_peel (p : ℕ) (tbl : List (List ℕ)) (K : ℕ) :
    ∀ d s (l : List ℕ), s + d = K →
      nttStagesLoop p (2^(K+1)) tbl (d+1) s (2^(s+1)) l =
        stageMap p (2^(K+1)) (tbl.getD K [])
          (nttStagesLoop p (2^K) tbl d s (2^(s+1)) l) := by
  intro d
  induction d with
  | zero =>
    intro s l hsd
    have hs : s = K := by omega
    subst hs
    show (if 2^(s+1) ≤ 2^(s+1) then
      nttStagesLoop p (2^(s+1)) tbl 0 (s+1) (2^(s+1) <<< 1)
        (stageMap p (2^(s+1)) (tbl.getD s []) l) else l) = _
    rw [if_pos (le_refl _)]
    rfl
  | succ d IH =>
    intro s l hsd
    have hsK : s < K := by omega
    have hs1 : 2^(s+1) ≤ 2^(K+1) := Nat.pow_le_pow_right (by norm_num) (by omega)
    have hs2 : 2^(s+1) ≤ 2^K := Nat.pow_le_pow_right (by norm_num) (by omega)
    show (if 2^(s+1) ≤ 2^(K+1) then _ else l) = _
    rw [if_pos hs1]
    conv_rhs =>
      rw [show nttStagesLoop p (2^K) tbl (d+1) s (2^(s+1)) l =
        if 2^(s+1) ≤ 2^K then nttStagesLoop p (2^K) tbl d (s+1) (2^(s+1) <<< 1)
          (stageMap p (2^(s+1)) (tbl.getD s []) l) else l from rfl]
      rw [if_pos hs2]
    rw [shl_one]
    have e : 2 * 2^(s+1) = 2^(s+1+1) := by ring
    rw [e]
    exact IH (s+1) _ (by omega)

theorem getD_lt (p : ℕ) (hp : 0 < p) (l : List ℕ) (hred : Reduced p l) (i : ℕ) :
    l.getD i 0 < p := by
  by_cases h : i < l.length
  · exact hred _ (getD_mem_of_lt l i h)
  · rw [List.getD_eq_default _ _ (by omega)]
    exact hp

theorem rangeMap_reduced (p L : ℕ) (f : ℕ → ℕ) (h : ∀ t, t < L → f t < p) :
    Reduced p ((List.range L).map f) := by
  intro v hv
  rw [List.mem_map] at hv
  obtain ⟨t, ht, rfl⟩ := hv
  exact h t (by rw [List.mem_range] at ht; exact ht)

theorem eq_rangeMap (l : List ℕ) (L : ℕ) (f : ℕ → ℕ) (hlen : l.length = L)
    (h : ∀ x, x < L → l.getD x 0 = f x) : l = (List.range L).map f := by
  apply List.ext_getElem
  · rw [hlen, List.length_map, List.length_range]
  · intro n h1 h2
    rw [List.getElem_map, List.getElem_range, ← List.getD_eq_getElem l 0 h1]
    exact h n (by rw [← hlen]; exact h1)

theorem bitReverseInPlace_rangeMap : ∀ (k : ℕ) (l : List ℕ), l.length = 2^k →
    bitReverseInPlace l = (List.range (2^k)).map (fun t => l.getD (bitrev k t) 0)
  | 0, l, hl => by
    unfold bitReverseInPlace
    rw [if_pos (by rw [hl]; norm_num)]
    obtain ⟨a, rfl⟩ := List.length_eq_one.mp (by rw [hl]; norm_num)
    rfl
  | k + 1, l, hl => by
    obtain ⟨h1, h2⟩ := bitReverseInPlace_spec k l hl
    exact eq_rangeMap _ _ _ h1 h2

theorem sum_range_even_odd (p : ℕ) (f : ℕ → ZMod p) :
    ∀ m, ∑ j in Finset.range (2*m), f j =
      ∑ u in Finset.range m, f (2*u) + ∑ u in Finset.range m, f (2*u+1) := by
  intro m
  induction m with
  | zero => simp
  | succ m IH =>
    have e : 2*(m+1) = 2*m+1+1 := by ring
    rw [e, Finset.sum_range_succ, Finset.sum_range_succ, Finset.sum_range_succ,
      Finset.sum_range_succ, IH]
    ring

/-- The iterative stage cascade applied to the bit-reversed input computes
the discrete Fourier transform at the powers of `w`. -/
theorem cascade_dft (p : ℕ) (hp : p.Prime) :
    ∀ (K : ℕ) (w : ZMod p) (tbl : List (List ℕ)) (x : List ℕ),
      Reduced p x → x.length = 2^K →
      (∀ s, s < K → (tbl.getD s []).length = 2^s ∧
        ∀ j, j < 2^s → (((tbl.getD s []).getD j 0 : ℕ) : ZMod p) = w^(2^(K-1-s) * j)) →
      (K = 0 ∨ w^(2^(K-1)) = -1) →
      (nttStagesLoop p (2^K) tbl (2^K) 0 (2^(0+1)) (bitReverseInPlace x)).length = 2^K ∧
      Reduced p (nttStagesLoop p (2^K) tbl (2^K) 0 (2^(0+1)) (bitReverseInPlace x)) ∧
      ∀ t, t < 2^K →
        (((nttStagesLoop p (2^K) tbl (2^K) 0 (2^(0+1))
            (bitReverseInPlace x)).getD t 0 : ℕ) : ZMod p) =
          ∑ j in Finset.range (2^K), w^(t*j) * ((x.getD j 0 : ℕ) : ZMod p) := by
  have hp0 : 0 < p := hp.pos
  intro K
  induction K with
  | zero =>
    intro w tbl x hred hlen htbl hhalf
    have hR : bitReverseInPlace x = x := by
      unfold bitReverseInPlace
      rw [if_pos (by rw [hlen]; norm_num)]
    have hloop : nttStagesLoop p (2^0) tbl (2^0) 0 (2^(0+1)) (bitReverseInPlace x) = x := by
      rw [hR]
      show (if 2^(0+1) ≤ 2^0 then _ else x) = x
      rw [if_neg (by norm_num)]
    rw [hloop]
    refine ⟨by rw [hlen], hred, ?_⟩
    intro t ht
    have ht0 : t = 0 := by
      norm_num at ht
      omega
    subst ht0
    rw [show (2:ℕ)^0 = 1 from rfl, Finset.sum_range_one]
    simp
  | succ K IH =>
    intro w tbl x hred hlen htbl hhalf
    have hw2 : w^(2^K) = -1 := by
      rcases hhalf with h | h
      · omega
      · simpa using h
    have htlen : ∀ s, s < K + 1 → (tbl.getD s []).length = 2^s := fun s hs => (htbl s hs).1
    have htlenK : ∀ s, s < K → (tbl.getD s []).length = 2^s := fun s hs => htlen s (by omega)
    -- halves of the input in bit-reversed order
    set ev := (List.range (2^K)).map (fun u => x.getD (2*u) 0) with hev
    set od := (List.range (2^K)).map (fun u => x.getD (2*u+1) 0) with hod
    have hevlen : ev.length = 2^K := by rw [hev, List.length_map, List.length_range]
    have hodlen : od.length = 2^K := by rw [hod, List.length_map, List.length_range]
    have hevred : Reduced p ev :=
      rangeMap_reduced p _ _ (fun t _ => getD_lt p hp0 x hred _)
    have hodred : Reduced p od :=
      rangeMap_reduced p _ _ (fun t _ => getD_lt p hp0 x hred _)
    have hRx : bitReverseInPlace x = bitReverseInPlace ev ++ bitReverseInPlace od := by
      rw [bitReverseInPlace_rangeMap (K+1) x hlen,
        bitReverseInPlace_rangeMap K ev hevlen,
        bitReverseInPlace_rangeMap K od hodlen]
      rw [show (2:ℕ)^(K+1) = 2^K + 2^K by ring, List.range_add, List.map_append,
        List.map_map]
      congr 1
      · apply List.map_congr_left
        intro t ht
        rw [List.mem_range] at ht
        rw [bitrev_even K t ht, hev, rangeMap_getD, if_pos (bitrev_lt K t)]
      · apply List.map_congr_left
        intro t ht
        rw [List.mem_range] at ht
        show x.getD (bitrev (K+1) (2^K + t)) 0 = _
        rw [bitrev_odd K t ht, hod, rangeMap_getD, if_pos (bitrev_lt K t)]
    have hRevlen : (bitReverseInPlace ev).length = 2^K := by
      rw [bitReverseInPlace_rangeMap K ev hevlen, List.length_map, List.length_range]
    have hRevred : Reduced p (bitReverseInPlace ev) := by
      rw [bitReverseInPlace_rangeMap K ev hevlen]
      exact rangeMap_reduced p _ _ (fun t _ => getD_lt p hp0 ev hevred _)
    -- fuel normalisation and peeling of the last stage
    have hfuelnorm : nttStagesLoop p (2^(K+1)) tbl (2^(K+1)) 0 (2^(0+1)) (bitReverseInPlace x) =
        nttStagesLoop p (2^(K+1)) tbl (K+1) 0 (2^(0+1)) (bitReverseInPlace x) :=
      nttStagesLoop_fuel p tbl (K+1) (2^(K+1)) (K+1) 0 _
        (by have := Nat.lt_two_pow (K+1); omega) (by omega)
    have hpeel := nttStagesLoop_peel p tbl K K 0 (bitReverseInPlace x) (by omega)
    have hsplit := nttStagesLoop_append p K hp0 tbl htlenK K 0
      (bitReverseInPlace ev) (bitReverseInPlace od) hRevlen hRevred
    -- inner loops, fuel-normalised
    have hfuel1 : nttStagesLoop p (2^K) tbl K 0 (2^(0+1)) (bitReverseInPlace ev) =
        nttStagesLoop p (2^K) tbl (2^K) 0 (2^(0+1)) (bitReverseInPlace ev) :=
      nttStagesLoop_fuel p tbl K K (2^K) 0 _ (by omega) (by have := Nat.lt_two_pow K; omega)
    have hfuel2 : nttStagesLoop p (2^K) tbl K 0 (2^(0+1)) (bitReverseInPlace od) =
        nttStagesLoop p (2^K) tbl (2^K) 0 (2^(0+1)) (bitReverseInPlace od) :=
      nttStagesLoop_fuel p tbl K K (2^K) 0 _ (by omega) (by have := Nat.lt_two_pow K; omega)
    -- the sub-table hypothesis for w^2
    have htbl2 : ∀ s, s < K → (tbl.getD s []).length = 2^s ∧
        ∀ j, j < 2^s → (((tbl.getD s []).getD j 0 : ℕ) : ZMod p) = (w^2)^(2^(K-1-s) * j) := by
      intro s hs
      refine ⟨htlenK s hs, ?_⟩
      intro j hj
      rw [(htbl s (by omega)).2 j hj]
      rw [← pow_mul]
      congr 1
      have e : K + 1 - 1 - s = (K - 1 - s) + 1 := by omega
      rw [e, pow_succ]
      ring
    have hhalf2 : K = 0 ∨ (w^2)^(2^(K-1)) = -1 := by
      rcases Nat.eq_zero_or_pos K with hK | hK
      · exact Or.inl hK
      · right
        rw [← pow_mul]
        have e : 2 * 2^(K-1) = 2^K := by
          have e2 : K - 1 + 1 = K := by omega
          calc 2 * 2^(K-1) = 2^(K-1) * 2 := by ring
          _ = 2^(K-1+1) := (pow_succ 2 (K-1)).symm
          _ = 2^K := by rw [e2]
        rw [e]
        exact hw2
    set y1 := nttStagesLoop p (2^K) tbl (2^K) 0 (2^(0+1)) (bitReverseInPlace ev) with hy1def
    set y2 := nttStagesLoop p (2^K) tbl (2^K) 0 (2^(0+1)) (bitReverseInPlace od) with hy2def
    obtain ⟨hy1len, hy1red, hy1⟩ := IH (w^2) tbl ev hevred hevlen htbl2 hhalf2
    obtain ⟨hy2len, hy2red, hy2⟩ := IH (w^2) tbl od hodred hodlen htbl2 hhalf2
    have hshift : 2^(K+1) >>> 1 = 2^K := by
      rw [Nat.shiftRight_eq_div_pow, pow_succ, pow_one,
        Nat.mul_div_cancel _ (by norm_num)]
    have hblocklen : (y1 ++ y2).length = 2 * 2^K := by
      rw [List.length_append, hy1len, hy2len]
      ring
    have hrowlen : (tbl.getD K []).length = 2^K := htlen K (by omega)
    have hblockred : Reduced p (y1 ++ y2) := by
      intro v hv
      rw [List.mem_append] at hv
      rcases hv with hv | hv
      · exact hy1red v hv
      · exact hy2red v hv
    have hmain : nttStagesLoop p (2^(K+1)) tbl (2^(K+1)) 0 (2^(0+1)) (bitReverseInPlace x) =
        butterflyBlock p (2^K) (tbl.getD K []) (y1 ++ y2) := by
      rw [hfuelnorm]
      have e01 : (2:ℕ)^(0+1) = 2^(0+1) := rfl
      rw [show K + 1 = K + 1 from rfl] at hpeel
      rw [hpeel, hRx, hsplit, hfuel1, hfuel2]
      rw [stageMap_single p (2^(K+1)) (Nat.pos_pow_of_pos _ (by norm_num)) _ _
        (by rw [hblocklen]; ring), hshift]
    have hcast_row : ∀ j, j < 2^K →
        (((tbl.getD K []).getD j 0 : ℕ) : ZMod p) = w^j := by
      intro j hj
      rw [(htbl K (by omega)).2 j hj]
      congr 1
      have e : K + 1 - 1 - K = 0 := by omega
      rw [e, pow_zero]
      omega
    have hw1 : w^(2^(K+1)) = 1 := by
      rw [pow_succ, pow_mul, hw2]
      norm_num
    have hev_cast : ∀ u, u < 2^K →
        ((ev.getD u 0 : ℕ) : ZMod p) = ((x.getD (2*u) 0 : ℕ) : ZMod p) := by
      intro u hu
      rw [hev, rangeMap_getD, if_pos hu]
    have hod_cast : ∀ u, u < 2^K →
        ((od.getD u 0 : ℕ) : ZMod p) = ((x.getD (2*u+1) 0 : ℕ) : ZMod p) := by
      intro u hu
      rw [hod, rangeMap_getD, if_pos hu]
    refine ⟨?_, ?_, ?_⟩
    · rw [hmain, butterflyBlock_length p (2^K) _ _ hrowlen hblocklen]
      ring
    · rw [hmain]
      exact butterflyBlock_reduced p (2^K) hp0 _ _ hblockred
    · intro t ht
      rw [hmain]
      rw [show (2:ℕ)^(K+1) = 2 * 2^K from by ring, sum_range_even_odd]
      rcases Nat.lt_or_ge t (2^K) with hlo | hhi
      · rw [butterflyBlock_getD_lo p (2^K) _ _ hrowlen hblocklen t hlo]
        rw [List.getD_append _ _ _ _ (by rw [hy1len]; omega),
          List.getD_append_right _ _ _ _ (by rw [hy1len]; omega)]
        rw [show 2^K + t - y1.length = t from by rw [hy1len]; omega]
        rw [castAdd, castMul, hy1 t hlo, hy2 t hlo, hcast_row t hlo]
        have hEsum : ∑ u in Finset.range (2^K), w^(t*(2*u)) * ((x.getD (2*u) 0 : ℕ) : ZMod p) =
            ∑ u in Finset.range (2^K), (w^2)^(t*u) * ((ev.getD u 0 : ℕ) : ZMod p) := by
          apply Finset.sum_congr rfl
          intro u hu
          rw [Finset.mem_range] at hu
          rw [hev_cast u hu]
          congr 1
          rw [← pow_mul]
          congr 1
          ring
        have hOsum : ∑ u in Finset.range (2^K),
            w^(t*(2*u+1)) * ((x.getD (2*u+1) 0 : ℕ) : ZMod p) =
            w^t * ∑ u in Finset.range (2^K), (w^2)^(t*u) * ((od.getD u 0 : ℕ) : ZMod p) := by
          rw [Finset.mul_sum]
          apply Finset.sum_congr rfl
          intro u hu
          rw [Finset.mem_range] at hu
          rw [hod_cast u hu, ← mul_assoc]
          congr 1
          rw [← pow_mul, ← pow_add]
          congr 1
          ring
        rw [hEsum, hOsum]
      · obtain ⟨j, hj, rfl⟩ : ∃ j, j < 2^K ∧ t = 2^K + j :=
          ⟨t - 2^K, by omega, by omega⟩
        rw [butterflyBlock_getD_hi p (2^K) _ _ hrowlen hblocklen j hj]
        rw [List.getD_append _ _ _ _ (by rw [hy1len]; omega),
          List.getD_append_right _ _ _ _ (by rw [hy1len]; omega)]
        rw [show 2^K + j - y1.length = j from by rw [hy1len]; omega]
        rw [castSub _ _ _ (Mul_lt p _ _ hp0), castMul, hy1 j hj, hy2 j hj, hcast_row j hj]
        have hEsum : ∑ u in Finset.range (2^K),
            w^((2^K+j)*(2*u)) * ((x.getD (2*u) 0 : ℕ) : ZMod p) =
            ∑ u in Finset.range (2^K), (w^2)^(j*u) * ((ev.getD u 0 : ℕ) : ZMod p) := by
          apply Finset.sum_congr rfl
          intro u hu
          rw [Finset.mem_range] at hu
          rw [hev_cast u hu]
          congr 1
          have e1 : (2^K+j)*(2*u) = 2^(K+1)*u + 2*(j*u) := by
            rw [pow_succ]
            ring
          rw [e1, pow_add, pow_mul, hw1, one_pow, one_mul, pow_mul]
        have hOsum : ∑ u in Finset.range (2^K),
            w^((2^K+j)*(2*u+1)) * ((x.getD (2*u+1) 0 : ℕ) : ZMod p) =
            -(w^j * ∑ u in Finset.range (2^K), (w^2)^(j*u) * ((od.getD u 0 : ℕ) : ZMod p)) := by
          rw [Finset.mul_sum, ← Finset.sum_neg_distrib]
          apply Finset.sum_congr rfl
          intro u hu
          rw [Finset.mem_range] at hu
          rw [hod_cast u hu]
          have e1 : (2^K+j)*(2*u+1) = 2^(K+1)*u + 2*(j*u) + (2^K + j) := by
            rw [pow_succ]
            ring
          rw [e1, pow_add, pow_add, pow_mul, hw1, one_pow, one_mul, pow_mul, pow_add, hw2]
          ring
        rw [hEsum, hOsum]
        ring

theorem IsPowerOfTwo_pow (K : ℕ) : IsPowerOfTwo (2^K) = true := by
  unfold IsPowerOfTwo
  have h1 : (2:ℕ)^K ≠ 0 := by positivity
  have h2 : 2^K &&& (2^K - 1) = 0 := by
    rw [Nat.and_comm]
    exact and_top_of_lt _ K (by
      have : 0 < (2:ℕ)^K := Nat.pos_pow_of_pos K (by norm_num)
      omega)
  simp [h1, h2]

theorem GetRootOfUnity_pow (p g K : ℕ) (hK : 1 ≤ K) (hdvd : 2^K ∣ p - 1) :
    GetRootOfUnity p g (2^K) = some (Pow p g ((p - 1) / 2^K)) := by
  have h2 : (2:ℕ) ≤ 2^K := by
    calc (2:ℕ) = 2^1 := by norm_num
    _ ≤ 2^K := Nat.pow_le_pow_right (by norm_num) hK
  have hmod : (p - 1) % 2^K = 0 := Nat.dvd_iff_mod_eq_zero.mp hdvd
  unfold GetRootOfUnity
  rw [if_neg (by omega), if_neg (by rw [IsPowerOfTwo_pow]; simp),
    if_neg (by omega)]

theorem getTwiddles_eval (p g K : ℕ) (hp : p.Prime) (hK : 1 ≤ K) (hdvd : 2^K ∣ p - 1)
    (hpsine : Pow p g ((p - 1) / 2^K) ≠ 0) :
    getTwiddles p g (2^K) =
      some ((twiddleLoop p (Pow p g ((p - 1) / 2^K)) (Pow p (Pow p g ((p - 1) / 2^K)) (p - 2))
          (2^K) (2^K) 2).1,
        (twiddleLoop p (Pow p g ((p - 1) / 2^K)) (Pow p (Pow p g ((p - 1) / 2^K)) (p - 2))
          (2^K) (2^K) 2).2,
        Pow p (2^K) (p - 2)) := by
  have h2 : (2:ℕ) ≤ 2^K := by
    calc (2:ℕ) = 2^1 := by norm_num
    _ ≤ 2^K := Nat.pow_le_pow_right (by norm_num) hK
  unfold getTwiddles
  rw [if_neg (by omega), GetRootOfUnity_pow p g K hK hdvd]
  show (Option.bind _ _) = _
  rw [Option.some_bind]
  have hinv1 : Inverse p (Pow p g ((p - 1) / 2^K)) =
      some (Pow p (Pow p g ((p - 1) / 2^K)) (p - 2)) := by
    unfold Inverse
    rw [if_neg hpsine]
  rw [hinv1]
  show (Option.bind _ _) = _
  rw [Option.some_bind]
  have hinv2 : Inverse p (2^K) = some (Pow p (2^K) (p - 2)) := by
    unfold Inverse
    rw [if_neg (by omega)]
  rw [hinv2]
  show (Option.bind _ _) = _
  rw [Option.some_bind]
  rcases htl : twiddleLoop p (Pow p g ((p - 1) / 2^K)) (Pow p (Pow p g ((p - 1) / 2^K)) (p - 2))
      (2^K) (2^K) 2 with ⟨fwd, inv⟩
  rfl

/-- `NttForward` on a reduced power-of-two-length vector computes the DFT
at the powers of `psi = g^((p-1)/n)`. -/
theorem NttForward_spec (p g K : ℕ) (hp : p.Prime) (hK : 1 ≤ K) (hdvd : 2^K ∣ p - 1)
    (hpsine : Pow p g ((p - 1) / 2^K) ≠ 0)
    (hhalfpow : ((Pow p g ((p - 1) / 2^K) : ℕ) : ZMod p)^(2^(K-1)) = -1)
    (x : List ℕ) (hred : Reduced p x) (hlen : x.length = 2^K) :
    ∃ out, NttForward p g x = some out ∧ out.length = 2^K ∧ Reduced p out ∧
      ∀ t, t < 2^K → ((out.getD t 0 : ℕ) : ZMod p) =
        ∑ j in Finset.range (2^K),
          (((Pow p g ((p - 1) / 2^K) : ℕ) : ZMod p))^(t*j) * ((x.getD j 0 : ℕ) : ZMod p) := by
  have hp0 : 0 < p := hp.pos
  have h2 : (2:ℕ) ≤ 2^K := by
    calc (2:ℕ) = 2^1 := by norm_num
    _ ≤ 2^K := Nat.pow_le_pow_right (by norm_num) hK
  set psi := Pow p g ((p - 1) / 2^K) with hpsi
  set psiInv := Pow p psi (p - 2) with hpsiInv
  set tl := twiddleLoop p psi psiInv (2^K) (2^K) 2 with htl
  -- the forward table satisfies the cascade hypothesis for w = psi
  have htlspec := twiddleLoop_spec p psi psiInv K K 0 (2^K) (by omega)
    (by have := Nat.lt_two_pow K; omega)
  have hrows : ∀ s, s < K → (tl.1.getD s []).length = 2^s ∧
      ∀ j, j < 2^s → (((tl.1.getD s []).getD j 0 : ℕ) : ZMod p) =
        ((psi : ℕ) : ZMod p)^(2^(K-1-s) * j) := by
    intro s hs
    have hrow : tl.1.getD s [] =
        twiddleRow p (Pow p psi (2^K / 2^(0+1+s))) (2^(0+s)) := (htlspec.2.2 s hs).1
    simp only [Nat.zero_add] at hrow
    rw [hrow]
    constructor
    · exact twiddleRow_length _ _ _
    · intro j hj
      rw [twiddleRow_getD _ _ _ j hj, castPow, ← pow_mul]
      congr 1
      have e : (2:ℕ)^K / 2^(1+s) = 2^(K-1-s) := by
        rw [Nat.pow_div (by omega) (by norm_num)]
        congr 1
        omega
      rw [e]
  have hcasc := cascade_dft p hp K (((psi : ℕ) : ZMod p)) tl.1 x hred hlen hrows
    (Or.inr hhalfpow)
  refine ⟨nttStagesLoop p (2^K) tl.1 (2^K) 0 (2^(0+1)) (bitReverseInPlace x), ?_, hcasc⟩
  unfold NttForward
  rw [if_neg (by omega), if_neg (by rw [hlen, IsPowerOfTwo_pow]; simp), hlen,
    getTwiddles_eval p g K hp hK hdvd hpsine]
  rfl

theorem getD_map_fn (f : ℕ → ℕ) (l : List ℕ) (i : ℕ) (h : i < l.length) :
    (l.map f).getD i 0 = f (l.getD i 0) := by
  rw [List.getD_eq_getElem _ 0 (by rw [List.length_map]; omega), List.getElem_map,
    List.getD_eq_getElem l 0 h]

/-- `nttBackwardNoTrim` computes the DFT at powers of the inverse root,
scaled by `n⁻¹`. -/
theorem nttBackwardNoTrim_spec (p g K : ℕ) (hp : p.Prime) (hK : 1 ≤ K)
    (hdvd : 2^K ∣ p - 1) (hpsine : Pow p g ((p - 1) / 2^K) ≠ 0)
    (hinvhalf : ((Pow p (Pow p g ((p - 1) / 2^K)) (p - 2) : ℕ) : ZMod p)^(2^(K-1)) = -1)
    (y : List ℕ) (hred : Reduced p y) (hlen : y.length = 2^K) :
    ∃ out, nttBackwardNoTrim p g y = some out ∧ out.length = 2^K ∧ Reduced p out ∧
      ∀ t, t < 2^K → ((out.getD t 0 : ℕ) : ZMod p) =
        (∑ j in Finset.range (2^K),
          (((Pow p (Pow p g ((p - 1) / 2^K)) (p - 2) : ℕ) : ZMod p))^(t*j) *
            ((y.getD j 0 : ℕ) : ZMod p)) *
        ((Pow p (2^K) (p - 2) : ℕ) : ZMod p) := by
  have hp0 : 0 < p := hp.pos
  have h2 : (2:ℕ) ≤ 2^K := by
    calc (2:ℕ) = 2^1 := by norm_num
    _ ≤ 2^K := Nat.pow_le_pow_right (by norm_num) hK
  set psi := Pow p g ((p - 1) / 2^K) with hpsi
  set psiInv := Pow p psi (p - 2) with hpsiInv
  set tl := twiddleLoop p psi psiInv (2^K) (2^K) 2 with htl
  set nInv := Pow p (2^K) (p - 2) with hnInv
  have htlspec := twiddleLoop_spec p psi psiInv K K 0 (2^K) (by omega)
    (by have := Nat.lt_two_pow K; omega)
  have hrows : ∀ s, s < K → (tl.2.getD s []).length = 2^s ∧
      ∀ j, j < 2^s → (((tl.2.getD s []).getD j 0 : ℕ) : ZMod p) =
        ((psiInv : ℕ) : ZMod p)^(2^(K-1-s) * j) := by
    intro s hs
    have hrow : tl.2.getD s [] =
        twiddleRow p (Pow p psiInv (2^K / 2^(0+1+s))) (2^(0+s)) := (htlspec.2.2 s hs).2
    simp only [Nat.zero_add] at hrow
    rw [hrow]
    constructor
    · exact twiddleRow_length _ _ _
    · intro j hj
      rw [twiddleRow_getD _ _ _ j hj, castPow, ← pow_mul]
      congr 1
      have e : (2:ℕ)^K / 2^(1+s) = 2^(K-1-s) := by
        rw [Nat.pow_div (by omega) (by norm_num)]
        congr 1
        omega
      rw [e]
  have hcasc := cascade_dft p hp K (((psiInv : ℕ) : ZMod p)) tl.2 y hred hlen hrows
    (Or.inr hinvhalf)
  obtain ⟨hclen, hcred, hcval⟩ := hcasc
  refine ⟨(nttStagesLoop p (2^K) tl.2 (2^K) 0 (2^(0+1)) (bitReverseInPlace y)).map
    (fun v => Mul p v nInv), ?_, ?_, ?_, ?_⟩
  · unfold nttBackwardNoTrim
    rw [if_neg (by omega), if_neg (by rw [hlen, IsPowerOfTwo_pow]; simp), hlen,
      getTwiddles_eval p g K hp hK hdvd hpsine]
    rfl
  · rw [List.length_map, hclen]
  · intro v hv
    rw [List.mem_map] at hv
    obtain ⟨u, _, rfl⟩ := hv
    exact Mul_lt p _ _ hp0
  · intro t ht
    rw [getD_map_fn _ _ t (by rw [hclen]; omega), castMul, hcval t ht]

theorem nat_eq_of_cast_eq (p a b : ℕ) (hp : 0 < p) (ha : a < p) (hb : b < p)
    (h : (a : ZMod p) = b) : a = b := by
  haveI : NeZero p := ⟨by omega⟩
  have h1 : (a : ZMod p).val = (b : ZMod p).val := by rw [h]
  rwa [ZMod.val_cast_of_lt ha, ZMod.val_cast_of_lt hb] at h1

/-- Properties of `psi = g^((p-1)/2^K)` when `g` generates the
multiplicative group: `psi` is a primitive `2^K`-th root of unity whose
half power is `-1`, and `Inverse psi` inverts it. -/
theorem psi_facts (p g K : ℕ) (hp : p.Prime) (hK : 1 ≤ K)
    (hgen1 : Pow p g (p - 1) = 1)
    (hgen2 : ∀ j, j < p - 1 → 0 < j → Pow p g j ≠ 1)
    (hdvd : 2^K ∣ p - 1) :
    Pow p g ((p - 1) / 2^K) ≠ 0 ∧
    ((Pow p g ((p - 1) / 2^K) : ℕ) : ZMod p)^(2^(K-1)) = -1 ∧
    ((Pow p (Pow p g ((p - 1) / 2^K)) (p - 2) : ℕ) : ZMod p)^(2^(K-1)) = -1 ∧
    ((Pow p (Pow p g ((p - 1) / 2^K)) (p - 2) : ℕ) : ZMod p) =
      (((Pow p g ((p - 1) / 2^K) : ℕ) : ZMod p))⁻¹ ∧
    ((Pow p g ((p - 1) / 2^K) : ℕ) : ZMod p)^(2^K) = 1 ∧
    orderOf (((Pow p g ((p - 1) / 2^K) : ℕ) : ZMod p)) = 2^K ∧
    (((Pow p g ((p - 1) / 2^K) : ℕ) : ZMod p)) ≠ 0 := by
  haveI : Fact p.Prime := ⟨hp⟩
  have hp0 : 0 < p := hp.pos
  have h2dvd : (2:ℕ) ∣ 2^K := dvd_pow_self 2 (by omega)
  have h2p : (2:ℕ) ∣ p - 1 := dvd_trans h2dvd hdvd
  have hp3 : 3 ≤ p := by
    have h2 := hp.two_le
    rcases Nat.eq_or_lt_of_le h2 with h | h
    · exfalso
      rw [← h] at h2p
      omega
    · omega
  have hpow2pos : (0:ℕ) < 2^K := Nat.pos_pow_of_pos K (by norm_num)
  have hg1 : ((g : ZMod p))^(p-1) = 1 := by
    have := congrArg (fun (n : ℕ) => ((n : ℕ) : ZMod p)) hgen1
    simp only at this
    rwa [castPow, Nat.cast_one] at this
  have hghalf : ((g : ZMod p))^((p-1)/2) = -1 := by
    obtain ⟨c, hc⟩ := h2p
    have hcval : (p - 1)/2 = c := by omega
    have hx2 : ((g : ZMod p))^((p-1)/2) * ((g : ZMod p))^((p-1)/2) = 1 := by
      rw [← pow_add]
      have e : (p-1)/2 + (p-1)/2 = p - 1 := by omega
      rw [e, hg1]
    rcases mul_self_eq_one_iff.mp hx2 with h1 | h1
    · exfalso
      have hnat : Pow p g ((p-1)/2) = 1 := by
        apply nat_eq_of_cast_eq p _ _ hp0 (Pow_lt p _ _ hp0) (by omega)
        rw [castPow, h1, Nat.cast_one]
      exact hgen2 ((p-1)/2) (by omega) (by omega) hnat
    · exact h1
  have hpsicast : ((Pow p g ((p - 1) / 2^K) : ℕ) : ZMod p) =
      ((g : ZMod p))^((p-1)/2^K) := castPow p g _
  have hpsin : ((Pow p g ((p - 1) / 2^K) : ℕ) : ZMod p)^(2^K) = 1 := by
    rw [hpsicast, ← pow_mul, Nat.div_mul_cancel hdvd, hg1]
  have hpsihalf : ((Pow p g ((p - 1) / 2^K) : ℕ) : ZMod p)^(2^(K-1)) = -1 := by
    rw [hpsicast, ← pow_mul]
    obtain ⟨c, hc⟩ := hdvd
    have e1 : (p - 1) / 2^K = c := by
      rw [hc, Nat.mul_div_cancel_left c hpow2pos]
    have e2 : (p - 1) / 2 = 2^(K-1) * c := by
      have e3 : (2:ℕ)^K = 2 * 2^(K-1) := by
        rw [← pow_succ']
        congr 1
        omega
      rw [hc, e3, Nat.mul_assoc, Nat.mul_div_cancel_left _ (by norm_num)]
    rw [e1, ← hghalf, e2]
    congr 1
    ring
  have hpsine : ((Pow p g ((p - 1) / 2^K) : ℕ) : ZMod p) ≠ 0 := by
    intro hcontra
    rw [hcontra] at hpsin
    rw [zero_pow (by positivity)] at hpsin
    exact zero_ne_one hpsin
  have hpsinat : Pow p g ((p - 1) / 2^K) ≠ 0 := by
    intro hcontra
    apply hpsine
    rw [hcontra, Nat.cast_zero]
  obtain ⟨u, hu, hult, humul⟩ := Inverse_spec p (Pow p g ((p - 1) / 2^K)) hp
    (Pow_lt p _ _ hp0) hpsinat
  have hueq : u = Pow p (Pow p g ((p - 1) / 2^K)) (p - 2) := by
    have : Inverse p (Pow p g ((p - 1) / 2^K)) =
        some (Pow p (Pow p g ((p - 1) / 2^K)) (p - 2)) := by
      unfold Inverse
      rw [if_neg hpsinat]
    rw [this] at hu
    exact (Option.some.inj hu).symm
  have hinvcast : ((Pow p (Pow p g ((p - 1) / 2^K)) (p - 2) : ℕ) : ZMod p) =
      (((Pow p g ((p - 1) / 2^K) : ℕ) : ZMod p))⁻¹ := by
    rw [← hueq]
    exact eq_inv_of_mul_eq_one_left humul
  have hinvhalf : ((Pow p (Pow p g ((p - 1) / 2^K)) (p - 2) : ℕ) : ZMod p)^(2^(K-1)) = -1 := by
    rw [hinvcast, inv_pow, hpsihalf]
    exact inv_neg_one
  have hneg1 : (-1 : ZMod p) ≠ 1 := by
    intro hcontra
    have h20 : ((2 : ℕ) : ZMod p) = 0 := by
      push_cast
      linear_combination -hcontra
    rw [ZMod.natCast_zmod_eq_zero_iff_dvd] at h20
    have := Nat.le_of_dvd (by norm_num) h20
    omega
  have horder : orderOf (((Pow p g ((p - 1) / 2^K) : ℕ) : ZMod p)) = 2^K := by
    have hdvd_ord : orderOf (((Pow p g ((p - 1) / 2^K) : ℕ) : ZMod p)) ∣ 2^K :=
      orderOf_dvd_of_pow_eq_one hpsin
    obtain ⟨j, hjle, hordeq⟩ := (Nat.dvd_prime_pow Nat.prime_two).mp hdvd_ord
    rcases Nat.lt_or_ge j K with hjlt | hjge
    · exfalso
      have hdvd2 : orderOf (((Pow p g ((p - 1) / 2^K) : ℕ) : ZMod p)) ∣ 2^(K-1) := by
        rw [hordeq]
        exact pow_dvd_pow 2 (by omega)
      have := orderOf_dvd_iff_pow_eq_one.mp hdvd2
      rw [hpsihalf] at this
      exact hneg1 this
    · rw [hordeq]
      congr 1
      omega
  exact ⟨hpsinat, hpsihalf, hinvhalf, hinvcast, hpsin, horder, hpsine⟩

theorem pow_eq_pow_inj (p : ℕ) (hp : p.Prime) (w : ZMod p) (n : ℕ)
    (hw0 : w ≠ 0) (hord : orderOf w = n) (u t : ℕ) (hu : u < n) (ht : t < n)
    (h : w^u = w^t) : u = t := by
  haveI : Fact p.Prime := ⟨hp⟩
  have key : ∀ a b : ℕ, a ≤ b → b < n → w^a = w^b → a = b := by
    intro a b hab hbn hab2
    have he : w^(b-a) = 1 := by
      have h2 : w^a * w^(b-a) = w^a * 1 := by
        rw [mul_one, ← pow_add, show a + (b - a) = b from by omega]
        exact hab2.symm
      exact mul_left_cancel₀ (pow_ne_zero a hw0) h2
    have hdvd : n ∣ b - a := hord ▸ orderOf_dvd_of_pow_eq_one he
    obtain ⟨c, hc⟩ := hdvd
    rcases c with _ | c
    · omega
    · have : n ≤ n * (c + 1) := Nat.le_mul_of_pos_right n (by omega)
      omega
  rcases le_total u t with hle | hle
  · exact key u t hle ht h
  · exact (key t u hle hu h.symm).symm

/-- C6 (amended): on a reduced vector whose length `2^K` divides `p-1`,
over a prime field whose configured generator has full order `p-1`,
`NttForward` followed by `NttBackward` returns the input with its
trailing zeros trimmed — equal to the input as a polynomial, but a
strictly shorter vector whenever the input has zero padding on top. -/
theorem Ntt_roundtrip (p g K : ℕ) (hp : p.Prime)
    (hgen1 : Pow p g (p - 1) = 1)
    (hgen2 : ∀ j, j < p - 1 → 0 < j → Pow p g j ≠ 1)
    (v : List ℕ) (hred : Reduced p v) (hlen : v.length = 2^K)
    (hdvd : 2^K ∣ p - 1) :
    (NttForward p g v).bind (NttBackward p g) = some (trimTrailingZeros p v) := by
  have hp0 : 0 < p := hp.pos
  haveI : Fact p.Prime := ⟨hp⟩
  rcases Nat.eq_zero_or_pos K with hK0 | hK1
  · -- length-one vector: both transforms are the identity up to the 1⁻¹ scale
    subst hK0
    have hlen1 : v.length = 1 := by simpa using hlen
    have hp1 : 1 < p := hp.one_lt
    have hloopid : ∀ l : List ℕ, nttStagesLoop p 1 [] 1 0 2 l = l := by
      intro l
      show (if 2 ≤ 1 then _ else l) = l
      rw [if_neg (by omega)]
    have hRid : bitReverseInPlace v = v := by
      unfold bitReverseInPlace
      rw [if_pos (by omega)]
    have hgt : getTwiddles p g 1 = some ([], [], Pow p 1 (p - 2)) := by
      unfold getTwiddles
      rw [if_pos (by omega)]
      have h1 : Inverse p 1 = some (Pow p 1 (p - 2)) := by
        unfold Inverse
        rw [if_neg (by omega)]
      rw [h1]
      rfl
    have hfwd : NttForward p g v = some v := by
      unfold NttForward
      rw [hlen1, if_neg (by omega), if_neg (by decide), hgt]
      show some (nttStagesLoop p 1 [] 1 0 2 (bitReverseInPlace v)) = some v
      rw [hloopid, hRid]
    have hmapv : v.map (fun x => Mul p x (Pow p 1 (p - 2))) = v := by
      conv_rhs => rw [← List.map_id v]
      apply List.map_congr_left
      intro a ha
      show Mul p a (Pow p 1 (p - 2)) = a
      apply nat_eq_of_cast_eq p _ _ hp0 (Mul_lt p _ _ hp0) (hred a ha)
      rw [castMul, castPow, Nat.cast_one, one_pow, mul_one]
    have hnb : nttBackwardNoTrim p g v = some v := by
      unfold nttBackwardNoTrim
      rw [hlen1, if_neg (by omega), if_neg (by decide), hgt]
      show some ((nttStagesLoop p 1 [] 1 0 2 (bitReverseInPlace v)).map
        (fun x => Mul p x (Pow p 1 (p - 2)))) = some v
      rw [hloopid, hRid, hmapv]
    rw [hfwd]
    show NttBackward p g v = _
    unfold NttBackward
    rw [hnb]
    rfl
  · obtain ⟨hpsinat, hpsihalf, hinvhalf, hinvcast, hpsin, horder, hpsine⟩ :=
      psi_facts p g K hp hK1 hgen1 hgen2 hdvd
    obtain ⟨yF, hF, hFlen, hFred, hFval⟩ :=
      NttForward_spec p g K hp hK1 hdvd hpsinat hpsihalf v hred hlen
    obtain ⟨z, hB, hzlen, hzred, hzval⟩ :=
      nttBackwardNoTrim_spec p g K hp hK1 hdvd hpsinat hinvhalf yF hFred hFlen
    have hnlt : 2^K < p := by
      have h2 := hp.two_le
      have := Nat.le_of_dvd (by omega) hdvd
      omega
    obtain ⟨nv, hnv, hnvlt, hnvmul⟩ := Inverse_spec p (2^K) hp hnlt (by positivity)
    have hscale : ((Pow p (2^K) (p - 2) : ℕ) : ZMod p) * ((2^K : ℕ) : ZMod p) = 1 := by
      have heq : Inverse p (2^K) = some (Pow p (2^K) (p - 2)) := by
        unfold Inverse
        rw [if_neg (by positivity)]
      rw [heq] at hnv
      rw [Option.some.inj hnv]
      exact hnvmul
    have hwinv : ((Pow p (Pow p g ((p - 1) / 2^K)) (p - 2) : ℕ) : ZMod p) *
        ((Pow p g ((p - 1) / 2^K) : ℕ) : ZMod p) = 1 := by
      rw [hinvcast]
      exact inv_mul_cancel₀ hpsine
    have hwin : (((Pow p (Pow p g ((p - 1) / 2^K)) (p - 2) : ℕ) : ZMod p))^(2^K) = 1 := by
      rw [hinvcast, inv_pow, hpsin, inv_one]
    have hz_eq_v : ∀ t, t < 2^K → z.getD t 0 = v.getD t 0 := by
      intro t ht
      apply nat_eq_of_cast_eq p _ _ hp0 (getD_lt p hp0 z hzred t) (getD_lt p hp0 v hred t)
      rw [hzval t ht]
      have hyrw : ∀ j ∈ Finset.range (2^K),
          (((Pow p (Pow p g ((p - 1) / 2^K)) (p - 2) : ℕ) : ZMod p))^(t*j) *
            ((yF.getD j 0 : ℕ) : ZMod p) =
          (((Pow p (Pow p g ((p - 1) / 2^K)) (p - 2) : ℕ) : ZMod p))^(t*j) *
            ∑ u in Finset.range (2^K),
              (((Pow p g ((p - 1) / 2^K) : ℕ) : ZMod p))^(j*u) *
                ((v.getD u 0 : ℕ) : ZMod p) := by
        intro j hj
        rw [Finset.mem_range] at hj
        rw [hFval j hj]
      rw [Finset.sum_congr rfl hyrw]
      have hswap : ∑ j in Finset.range (2^K),
          (((Pow p (Pow p g ((p - 1) / 2^K)) (p - 2) : ℕ) : ZMod p))^(t*j) *
            ∑ u in Finset.range (2^K),
              (((Pow p g ((p - 1) / 2^K) : ℕ) : ZMod p))^(j*u) *
                ((v.getD u 0 : ℕ) : ZMod p) =
          ∑ u in Finset.range (2^K),
            (∑ j in Finset.range (2^K),
              ((((Pow p (Pow p g ((p - 1) / 2^K)) (p - 2) : ℕ) : ZMod p))^t *
                (((Pow p g ((p - 1) / 2^K) : ℕ) : ZMod p))^u)^j) *
              ((v.getD u 0 : ℕ) : ZMod p) := by
        calc ∑ j in Finset.range (2^K),
            (((Pow p (Pow p g ((p - 1) / 2^K)) (p - 2) : ℕ) : ZMod p))^(t*j) *
              ∑ u in Finset.range (2^K),
                (((Pow p g ((p - 1) / 2^K) : ℕ) : ZMod p))^(j*u) *
                  ((v.getD u 0 : ℕ) : ZMod p)
            = ∑ j in Finset.range (2^K), ∑ u in Finset.range (2^K),
                (((Pow p (Pow p g ((p - 1) / 2^K)) (p - 2) : ℕ) : ZMod p))^(t*j) *
                  ((((Pow p g ((p - 1) / 2^K) : ℕ) : ZMod p))^(j*u) *
                    ((v.getD u 0 : ℕ) : ZMod p)) := by
              apply Finset.sum_congr rfl
              intro j _
              rw [Finset.mul_sum]
          _ = ∑ u in Finset.range (2^K), ∑ j in Finset.range (2^K),
                (((Pow p (Pow p g ((p - 1) / 2^K)) (p - 2) : ℕ) : ZMod p))^(t*j) *
                  ((((Pow p g ((p - 1) / 2^K) : ℕ) : ZMod p))^(j*u) *
                    ((v.getD u 0 : ℕ) : ZMod p)) := Finset.sum_comm
          _ = ∑ u in Finset.range (2^K),
              (∑ j in Finset.range (2^K),
                ((((Pow p (Pow p g ((p - 1) / 2^K)) (p - 2) : ℕ) : ZMod p))^t *
                  (((Pow p g ((p - 1) / 2^K) : ℕ) : ZMod p))^u)^j) *
                ((v.getD u 0 : ℕ) : ZMod p) := by
              apply Finset.sum_congr rfl
              intro u _
              rw [Finset.sum_mul]
              apply Finset.sum_congr rfl
              intro j _
              rw [mul_pow, ← pow_mul, ← pow_mul, Nat.mul_comm u j]
              ring
      rw [hswap]
      have hgeomt : ∑ j in Finset.range (2^K),
          ((((Pow p (Pow p g ((p - 1) / 2^K)) (p - 2) : ℕ) : ZMod p))^t *
            (((Pow p g ((p - 1) / 2^K) : ℕ) : ZMod p))^t)^j = ((2^K : ℕ) : ZMod p) := by
        have h1 : (((Pow p (Pow p g ((p - 1) / 2^K)) (p - 2) : ℕ) : ZMod p))^t *
            (((Pow p g ((p - 1) / 2^K) : ℕ) : ZMod p))^t = 1 := by
          rw [← mul_pow, hwinv, one_pow]
        rw [h1]
        have hone : ∀ j ∈ Finset.range (2^K), (1:ZMod p)^j = 1 := fun j _ => one_pow j
        rw [Finset.sum_congr rfl hone, Finset.sum_const, Finset.card_range, nsmul_eq_mul,
          mul_one]
      have hgeom0 : ∀ u, u < 2^K → u ≠ t →
          ∑ j in Finset.range (2^K),
            ((((Pow p (Pow p g ((p - 1) / 2^K)) (p - 2) : ℕ) : ZMod p))^t *
              (((Pow p g ((p - 1) / 2^K) : ℕ) : ZMod p))^u)^j = 0 := by
        intro u hu hut
        have hzn : ((((Pow p (Pow p g ((p - 1) / 2^K)) (p - 2) : ℕ) : ZMod p))^t *
            (((Pow p g ((p - 1) / 2^K) : ℕ) : ZMod p))^u)^(2^K) = 1 := by
          rw [mul_pow, ← pow_mul, ← pow_mul, Nat.mul_comm t (2^K), Nat.mul_comm u (2^K),
            pow_mul, pow_mul, hwin, hpsin, one_pow, one_pow, one_mul]
        have hz1 : (((Pow p (Pow p g ((p - 1) / 2^K)) (p - 2) : ℕ) : ZMod p))^t *
            (((Pow p g ((p - 1) / 2^K) : ℕ) : ZMod p))^u ≠ 1 := by
          intro hcontra
          apply hut
          rw [hinvcast, inv_pow] at hcontra
          have h2 := congrArg
            (fun z => (((Pow p g ((p - 1) / 2^K) : ℕ) : ZMod p))^t * z) hcontra
          simp only at h2
          rw [← mul_assoc, mul_inv_cancel₀ (pow_ne_zero t hpsine), one_mul, mul_one] at h2
          exact pow_eq_pow_inj p hp _ (2^K) hpsine horder u t hu ht h2
        rw [geom_sum_eq hz1, hzn, sub_self, zero_div]
      rw [Finset.sum_eq_single t
        (fun u hu hut => by
          rw [hgeom0 u (Finset.mem_range.mp hu) hut, zero_mul])
        (fun hc => absurd (Finset.mem_range.mpr ht) hc), hgeomt]
      calc (((2^K : ℕ) : ZMod p) * ((v.getD t 0 : ℕ) : ZMod p)) *
            ((Pow p (2^K) (p - 2) : ℕ) : ZMod p)
          = (((Pow p (2^K) (p - 2) : ℕ) : ZMod p) * ((2^K : ℕ) : ZMod p)) *
              ((v.getD t 0 : ℕ) : ZMod p) := by ring
        _ = 1 * ((v.getD t 0 : ℕ) : ZMod p) := by rw [hscale]
        _ = ((v.getD t 0 : ℕ) : ZMod p) := one_mul _
    have hzv : z = v := by
      apply List.ext_getElem (by rw [hzlen, hlen])
      intro n h1 h2
      have hn := hz_eq_v n (by rw [hzlen] at h1; exact h1)
      rwa [List.getD_eq_getElem z 0 h1, List.getD_eq_getElem v 0 h2] at hn
    rw [hF]
    show NttBackward p g yF = _
    unfold NttBackward
    rw [hB]
    show some (trimTrailingZeros p z) = _
    rw [hzv]

/-- C6 counterexample: over `F_5` (generator `2`) the vector `[1, 0]`
has power-of-two length `2` dividing `p - 1 = 4`, yet forward followed
by backward returns `[1]`, not the input vector: `NttBackward` ends with
`trimTrailingZeros`, so zero padding in the top positions is dropped and
the returned polynomial has a different coefficient vector (and length)
than the input. -/
theorem ntt_roundtrip_trims_padding :
    (NttForward 5 2 [1, 0]).bind (NttBackward 5 2) = some [1] ∧
    ([1] : List ℕ) ≠ [1, 0] := ⟨rfl, by decide⟩

/-- Witness for C6 (amended): `p = 5`, `g = 2`, `v = [1, 2, 3, 4]` of
length `4 = 2^2` dividing `p - 1`. -/
theorem Ntt_roundtrip_witness :
    (NttForward 5 2 [1, 2, 3, 4]).bind (NttBackward 5 2) =
      some (trimTrailingZeros 5 [1, 2, 3, 4]) :=
  Ntt_roundtrip 5 2 2 (by norm_num) (by decide) (by decide) [1, 2, 3, 4]
    (by intro x hx; fin_cases hx <;> norm_num) (by decide) (by decide)

/-- Witness for C10 (amended) at `N = 4`, `K = 2`, received
`{1:7, 2:8, 3:9}` (one missing point). -/
theorem prepareDecoding_frame_witness :
    prepareDecoding 4 2 (EvaluationPoints 4) [(1, 7), (2, 8), (3, 9)] =
      Except.ok ([(1, 7), (2, 8), (3, 9), (4, 0)], [7, 8, 9, 0]) ∧
    ([(1, 7), (2, 8), (3, 9), (4, 0)] : GoMap).length = 4 := by
  have h := prepareDecoding_frame 4 2 (EvaluationPoints 4) [(1, 7), (2, 8), (3, 9)]
    (by decide) (by decide) (by decide) (by decide)
  exact ⟨h.1, by decide⟩

end GoGao
